import Mathlib

/-!
Verification of the `IndexedCrate` core of the trustfall-rustdoc-adapter
repository (`src/indexed_crate.rs`).

This file shallowly embeds the data model (`rustdoc_types::Crate`, `Item`,
`ItemEnum`, generics) and the operations of the source file:

* `get_typedef_equivalent_reexport_target` (typedef-as-reexport equivalence),
* `visit_root_reachable_public_items` / `compute_parent_ids_for_public_items`
  (the visibility-forest builder),
* `collect_publicly_importable_names` / `publicly_importable_names`
  (the path enumerator),
* the imports-index and impl-index construction inside `IndexedCrate::new`,
* `create_manually_inlined_builtin_traits` / `new_trait` /
  `MANUAL_TRAIT_ITEMS` (the builtin-trait synthesizer).

Modelling conventions:
* rustdoc `Id`s are `Nat`; the `HashMap<Id, Item>` index is an association
  list `List (Id × Item)` with first-match `List.lookup` semantics.
* Rust panics (`unreachable!`, `.expect(..)`, `assert!`, indexing a missing
  key) are modelled as `none` of an `Option` result; ordinary `Option`
  values of the source stay `Option` inside that.
* The two recursive traversals of the source bound their recursion depth by
  a path-local visited set; the embedding makes that bound explicit with a
  fuel parameter set to `c.index.length + 1`, which the visited-set
  argument shows is never exhausted (fuel exhaustion also yields `none`).
* The `Vec<&str>` name stack pushes/pops at the end; it is modelled as a
  Lean list with push = `cons`, so the Rust emission
  `stack.iter().rev().collect()` (root-first order) is the Lean list as-is.
-/

namespace RustdocAdapter

/-- rustdoc item identifier (`rustdoc_types::Id`), opaque and comparable. -/
abbrev Id := Nat

/-- Mirror of `rustdoc_types::Visibility`. The payload of `Restricted`
(parent module and path) is never read by the source file, so it is not
carried here. -/
inductive Visibility where
  | publicVis
  | crateVis
  | restricted
  | defaultVis
deriving DecidableEq, Repr

mutual

/-- Mirror of the fragment of `rustdoc_types::Type` that the source
inspects: `ResolvedPath` and `Generic` are matched on; every other variant
is only ever compared for (structural) equality, so the remaining variants
are collapsed into `otherType` carrying an opaque tag. -/
inductive RustType where
  | resolvedPath : RustPath → RustType
  | generic : String → RustType
  | otherType : Nat → RustType

/-- Mirror of `rustdoc_types::Path`: target id, unqualified name, and
optional generic arguments. -/
inductive RustPath where
  | mk : Id → String → Option GenericArgsE → RustPath

/-- Mirror of `rustdoc_types::GenericArgs`. For `AngleBracketed`, the
source only reads the `args` list and whether `bindings` is empty, so
bindings are carried as an opaque list. -/
inductive GenericArgsE where
  | angleBracketed : List GenericArg → List Nat → GenericArgsE
  | parenthesized : GenericArgsE

/-- Mirror of `rustdoc_types::GenericArg`. A const argument carries its
expression string (`Constant.expr`), the only field the source reads. -/
inductive GenericArg where
  | lifetime : String → GenericArg
  | typeArg : RustType → GenericArg
  | constArg : String → GenericArg
  | inferArg : GenericArg

end

def RustPath.pathId : RustPath → Id
  | .mk i _ _ => i

def RustPath.pathName : RustPath → String
  | .mk _ n _ => n

def RustPath.pathArgs : RustPath → Option GenericArgsE
  | .mk _ _ a => a

mutual

/-- Structural equality on `RustType`, mirroring the derived `PartialEq`
of `rustdoc_types::Type`. -/
def RustType.beq : RustType → RustType → Bool
  | .resolvedPath a, .resolvedPath b => RustPath.beq a b
  | .generic a, .generic b => a == b
  | .otherType a, .otherType b => a == b
  | _, _ => false

def RustPath.beq : RustPath → RustPath → Bool
  | .mk i n a, .mk i' n' a' =>
    i == i' && n == n' &&
      (match a, a' with
       | none, none => true
       | some x, some y => GenericArgsE.beq x y
       | _, _ => false)

def GenericArgsE.beq : GenericArgsE → GenericArgsE → Bool
  | .angleBracketed as bs, .angleBracketed as' bs' =>
    GenericArg.beqList as as' && bs == bs'
  | .parenthesized, .parenthesized => true
  | _, _ => false

def GenericArg.beq : GenericArg → GenericArg → Bool
  | .lifetime a, .lifetime b => a == b
  | .typeArg a, .typeArg b => RustType.beq a b
  | .constArg a, .constArg b => a == b
  | .inferArg, .inferArg => true
  | _, _ => false

def GenericArg.beqList : List GenericArg → List GenericArg → Bool
  | [], [] => true
  | a :: as, b :: bs => GenericArg.beq a b && GenericArg.beqList as bs
  | _, _ => false

end

/-- Structural equality on `Option RustType` (for generic-parameter default
comparison). -/
def optTypeBeq : Option RustType → Option RustType → Bool
  | none, none => true
  | some a, some b => RustType.beq a b
  | _, _ => false

/-- Mirror of `rustdoc_types::GenericParamDefKind`. The source reads: the
kind tag itself, `default` of `Type` kinds, and `type_`/`default` of
`Const` kinds; the remaining fields (lifetime outlives, type bounds,
`synthetic`) are matched with `..` by the source and are not carried. -/
inductive GenericParamDefKind where
  | lifetimeParam
  | typeParam (default : Option RustType)
  | constParam (type_ : RustType) (default : Option String)

/-- Mirror of `rustdoc_types::GenericParamDef`. -/
structure GenericParamDef where
  name : String
  kind : GenericParamDefKind

/-- Mirror of `rustdoc_types::Generics`. The source explicitly ignores
`where_predicates` ("The Rust compiler ignores `where` bounds on typedefs,
so we ignore them too"), so only `params` is carried. -/
structure Generics where
  params : List GenericParamDef

/-- Mirror of `rustdoc_types::StructKind`. -/
inductive StructKind where
  | unitKind
  | tupleKind (fields : List (Option Id))
  | plainKind (fields : List Id)

structure StructData where
  kind : StructKind
  generics : Generics
  impls : List Id

structure EnumData where
  generics : Generics
  variants : List Id
  impls : List Id

structure UnionData where
  generics : Generics
  fields : List Id
  impls : List Id

structure TraitData where
  isAuto : Bool
  isUnsafe : Bool
  items : List Id
  generics : Generics
  bounds : List Nat
  implementations : List Id

structure ImplData where
  traitPath : Option RustPath
  items : List Id
  providedTraitMethods : List String

/-- Mirror of `rustdoc_types::Import`: the (possibly renaming) name, the
optional target id, and the glob flag. -/
structure ImportData where
  name : String
  target : Option Id
  glob : Bool

structure TypedefData where
  type_ : RustType
  generics : Generics

structure ModuleData where
  items : List Id

/-- Mirror of `rustdoc_types::ItemEnum` restricted to the variants the
source file distinguishes; all remaining variants (constants, statics,
macros, ...) behave identically in the source ("leaf" kinds) and are
collapsed into `otherItem` with an opaque tag. -/
inductive ItemEnum where
  | module (m : ModuleData)
  | importItem (i : ImportData)
  | structItem (s : StructData)
  | enumItem (e : EnumData)
  | unionItem (u : UnionData)
  | traitItem (t : TraitData)
  | implBlock (i : ImplData)
  | typedef (t : TypedefData)
  | functionItem (tag : Nat)
  | structFieldItem (t : RustType)
  | variantItem (tag : Nat)
  | otherItem (tag : Nat)

/-- Mirror of `rustdoc_types::Item` restricted to the fields the source
reads: `id`, `crate_id`, `name`, `visibility` and `inner`. -/
structure Item where
  id : Id
  name? : Option String
  crateId : Nat
  visibility : Visibility
  inner : ItemEnum

/-- Mirror of `rustdoc_types::Crate` restricted to the fields the source
reads: the root id, the item index, and the external-summary map `paths`
(of which only `ItemSummary.crate_id` is read). -/
structure Crate where
  root : Id
  index : List (Id × Item)
  paths : List (Id × Nat)

/-- First-match lookup in the item index (`crate_.index.get(id)`). -/
def Crate.get (c : Crate) (i : Id) : Option Item :=
  c.index.lookup i

/-! ## Typedef-as-reexport equivalence (`get_typedef_equivalent_reexport_target`) -/

/-- The per-kind `generics` extraction of the underlying item
(`match &underlying.inner { ... }` in the source); `none` models the
`unreachable!("unexpected underlying item kind")` panic for any other
kind. -/
def underlyingGenerics (underlying : Item) : Option Generics :=
  match underlying.inner with
  | .structItem s => some s.generics
  | .enumItem e => some e.generics
  | .traitItem t => some t.generics
  | .unionItem u => some u.generics
  | .typedef ty => some ty.generics
  | _ => none

/-- The name extracted from one generic argument: a lifetime name, a bare
generic type parameter name, or a const expression string; `none` models
the source's `return None` for any other argument (a non-trivial type
expression or an inferred `_` argument). -/
def argAsName : GenericArg → Option String
  | .lifetime n => some n
  | .typeArg (.generic t) => some t
  | .typeArg _ => none
  | .constArg e => some e
  | .inferArg => none

/-- The pairwise generic-parameter comparison loop of
`get_typedef_equivalent_reexport_target`. The three lists are traversed in
lock-step (Rust's `zip` stops at the shortest); on success the underlying
item is returned. The result is doubly optional: the outer layer is always
`some` here (the loop itself cannot panic), the inner layer is the
source's `Option<&Item>`. -/
def checkTypedefParams (underlying : Item) :
    List GenericParamDef → List GenericParamDef → List GenericArg →
    Option (Option Item)
  | tyParam :: tyRest, uParam :: uRest, arg :: argRest =>
    match argAsName arg with
    | none => some none
    | some argName =>
      if tyParam.name ≠ argName then some none
      else
        match tyParam.kind, uParam.kind with
        | .lifetimeParam, .lifetimeParam =>
          checkTypedefParams underlying tyRest uRest argRest
        | .typeParam tyDefault, .typeParam uDefault =>
          if optTypeBeq tyDefault uDefault then
            checkTypedefParams underlying tyRest uRest argRest
          else some none
        | .constParam tyType tyDefault, .constParam uType uDefault =>
          if tyDefault = uDefault ∧ RustType.beq tyType uType then
            checkTypedefParams underlying tyRest uRest argRest
          else some none
        | _, _ => some none
  | _, _, _ => some (some underlying)

/-- Mirror of `get_typedef_equivalent_reexport_target`. Outer `none`
models the `unreachable!` panic on an unexpected underlying item kind; the
inner `Option Item` is the source's return value. Note that the generic
parameter checks run only when the resolved path carries angle-bracketed
arguments; a path with no argument list, or a parenthesized one, returns
the underlying item without any check. -/
def getTypedefEquivalentReexportTarget (c : Crate) (ty : TypedefData) :
    Option (Option Item) :=
  match ty.type_ with
  | .resolvedPath rp =>
    match c.get rp.pathId with
    | none => some none
    | some underlying =>
      match rp.pathArgs with
      | some (.angleBracketed args bindings) =>
        if bindings ≠ [] then some none
        else
          match underlyingGenerics underlying with
          | none => none
          | some ug =>
            if ty.generics.params.length ≠ args.length then some none
            else if ug.params.length ≠ args.length then some none
            else checkTypedefParams underlying ty.generics.params ug.params args
      | _ => some (some underlying)
  | _ => some none

/-! ## The visibility-forest builder (`visit_root_reachable_public_items`) -/

/-- The visibility forest: for each id, the list of reachability-parent
ids (`HashMap<&Id, HashSet<&Id>>` during construction). -/
abbrev Forest := List (Id × List Id)

/-- Mirror of `parents.entry(&item.id).or_default()` followed by an
optional `HashSet::insert(parent_id)`: ensures an entry for `child`
exists and adds the parent if present and not already recorded. -/
def forestInsert (f : Forest) (child : Id) (parent? : Option Id) : Forest :=
  match f with
  | [] =>
    [(child, match parent? with | some p => [p] | none => [])]
  | (k, ps) :: rest =>
    if k = child then
      (k, match parent? with
          | some p => if p ∈ ps then ps else ps ++ [p]
          | none => ps) :: rest
    else (k, ps) :: forestInsert rest child parent?

/-- The visibility filter at the head of `visit_root_reachable_public_items`:
`Restricted` and `Crate` items are skipped, except that a `Crate`-tagged
`Impl` is kept (the rustdoc ≤ 1.69 `impl`-visibility bug workaround);
`Public` and `Default` items are kept. -/
def filterKeeps (item : Item) : Bool :=
  match item.visibility with
  | .publicVis => true
  | .defaultVis => true
  | .restricted => false
  | .crateVis =>
    match item.inner with
    | .implBlock _ => true
    | _ => false

/-- The per-kind recursion of `visit_root_reachable_public_items`: the
list of (child item, parent id passed for it) pairs, in source order.
`none` models the `unreachable!` panic on a glob import of an item that is
neither a module nor an enum, and the panic inside the typedef
equivalence check. Children ids that do not resolve in the index are
silently dropped (`filter_map(|id| crate_.index.get(id))`). -/
def visitChildren (c : Crate) (item : Item) (parentOfItem : Option Id) :
    Option (List (Item × Option Id)) :=
  let selfParent : Option Id := some item.id
  match item.inner with
  | .module m =>
    some ((m.items.filterMap c.get).map (fun it => (it, selfParent)))
  | .importItem imp =>
    match imp.target.bind c.get with
    | none => some []
    | some imported =>
      if imp.glob then
        match imported.inner with
        | .module m =>
          some ((m.items.filterMap c.get).map (fun it => (it, parentOfItem)))
        | .enumItem e =>
          some ((e.variants.filterMap c.get).map (fun it => (it, parentOfItem)))
        | _ => none
      else
        some [(imported, selfParent)]
  | .structItem s =>
    let fieldIds : List Id :=
      match s.kind with
      | .unitKind => []
      | .tupleKind fs => fs.filterMap (fun x => x)
      | .plainKind fs => fs
    some (((fieldIds ++ s.impls).filterMap c.get).map (fun it => (it, selfParent)))
  | .enumItem e =>
    some (((e.variants ++ e.impls).filterMap c.get).map (fun it => (it, selfParent)))
  | .unionItem u =>
    some (((u.fields ++ u.impls).filterMap c.get).map (fun it => (it, selfParent)))
  | .traitItem t =>
    some ((t.items.filterMap c.get).map (fun it => (it, selfParent)))
  | .implBlock i =>
    some ((i.items.filterMap c.get).map (fun it => (it, selfParent)))
  | .typedef ty =>
    match getTypedefEquivalentReexportTarget c ty with
    | none => none
    | some none => some []
    | some (some tgt) => some [(tgt, selfParent)]
  | _ => some []

/-- Sequential traversal of a child list, threading the state through a
recursion functional `recur` (one recursion step of the DFS). -/
def visitStepList (recur : Forest → List Id → Item → Option Id →
    Option (Forest × List Id)) : Forest → List Id →
    List (Item × Option Id) → Option (Forest × List Id)
  | parents, visited, [] => some (parents, visited)
  | parents, visited, (it, p?) :: rest =>
    match recur parents visited it p? with
    | none => none
    | some (parents', visited') => visitStepList recur parents' visited' rest

/-- One level of `visit_root_reachable_public_items`, with the recursive
call abstracted as `recur`: visibility filter, forest-entry insertion,
cycle guard, per-kind recursion into children, and removal from the
visited set on exit. `none` models a panic. -/
def visitStep (c : Crate) (recur : Forest → List Id → Item → Option Id →
    Option (Forest × List Id)) (parents : Forest) (visited : List Id)
    (item : Item) (parent? : Option Id) : Option (Forest × List Id) :=
  if filterKeeps item then
    let parents1 := forestInsert parents item.id parent?
    if item.id ∈ visited then some (parents1, visited)
    else
      match visitChildren c item parent? with
      | none => none
      | some kids =>
        match visitStepList recur parents1 (item.id :: visited) kids with
        | none => none
        | some (parents2, visited2) =>
          if item.id ∈ visited2 then some (parents2, visited2.erase item.id)
          else none
  else some (parents, visited)

/-- Mirror of `visit_root_reachable_public_items`. State-passing version:
takes and returns the parents map and the path-local visited set. The
fuel bounds recursion depth; every nested call inserts a fresh item id
into the visited set, so depth (hence fuel use) is bounded by the number
of distinct item ids, and the fuel chosen by the callers below is never
exhausted (fuel exhaustion is also `none`, like a panic). -/
def visitF : Nat → Crate → Forest → List Id → Item → Option Id →
    Option (Forest × List Id)
  | 0, _, _, _, _, _ => none
  | fuel + 1, c, parents, visited, item, parent? =>
    visitStep c (visitF fuel c) parents visited item parent?

/-- Mirror of `compute_parent_ids_for_public_items`: if the root id is
present and `Public`, run the DFS from the root; otherwise the forest is
empty. -/
def computeParentIdsForPublicItems (c : Crate) : Option Forest :=
  match c.get c.root with
  | none => some []
  | some rootItem =>
    if rootItem.visibility = .publicVis then
      (visitF (c.index.length + 1) c [] [] rootItem none).map (fun r => r.1)
    else some []

/-- Insertion into a sorted id list (ascending). -/
def insertSorted (x : Id) : List Id → List Id
  | [] => [x]
  | y :: ys => if x ≤ y then x :: y :: ys else y :: insertSorted x ys

/-- Sorting of a parent list, mirroring
`values.sort_unstable_by_key(|x| &x.0)` in `IndexedCrate::new`. -/
def sortIds (l : List Id) : List Id := l.foldr insertSorted []

/-- The `visibility_forest` field of `IndexedCrate`: the computed parents
map with each parent list sorted for a consistent order. -/
def buildForest (c : Crate) : Option Forest :=
  (computeParentIdsForPublicItems c).map
    (fun f => f.map (fun kv => (kv.1, sortIds kv.2)))

/-! ## The path enumerator (`collect_publicly_importable_names`) -/

/-- The kinds at which a branch with a non-empty name stack is pruned:
structs, unions, and impl blocks are not modules, so items nested inside
them are not importable (enums are deliberately not in this set, since
enum variants are importable). -/
def prunedKind (item : Item) : Bool :=
  match item.inner with
  | .implBlock _ => true
  | .structItem _ => true
  | .unionItem _ => true
  | _ => false

/-- The stack adjustment performed on entry for one item: the name pushed
(if any), the name popped from the underlying item (if any), and the stack
after the pop but before the push. Mirrors the `(push_name, popped_name)`
match of `collect_publicly_importable_names`: a glob import pushes
nothing; a non-glob import pushes its own (possibly renaming) name and
pops the target's (panic — `none` — when the stack is empty); a typedef
pushes its own name (panic when it has none) and pops the underlying name
if one was pushed; every other kind pushes its own name if it has one. -/
def stackAction (item : Item) (stack : List String) :
    Option (Option String × Option String × List String) :=
  match item.inner with
  | .importItem imp =>
    if imp.glob then some (none, none, stack)
    else
      match stack with
      | [] => none
      | top :: rest => some (some imp.name, some top, rest)
  | .typedef _ =>
    match item.name? with
    | none => none
    | some n =>
      match stack with
      | [] => some (some n, none, [])
      | top :: rest => some (some n, some top, rest)
  | _ => some (item.name?, none, stack)

/-- State of the path enumeration: visited set, name stack, output. -/
abbrev CollectSt := List Id × List String × List (List String)

/-- Sequential walk over a parent list, threading the state through a
recursion functional `recur`. -/
def collectStepList (recur : Id → List Id → List String →
    List (List String) → Option CollectSt) : List Id → List Id →
    List String → List (List String) → Option CollectSt
  | [], visited, stack, out => some (visited, stack, out)
  | p :: ps, visited, stack, out =>
    match recur p visited stack out with
    | none => none
    | some (visited', stack', out') =>
      collectStepList recur ps visited' stack' out'

/-- Mirror of `collect_publicly_importable_names_inner` with the
recursive call abstracted as `recur`: at the root the stack is emitted as
one complete path (the stack here is root-first already, see the
modelling note at the top); otherwise each recorded forest parent is
walked in order; an id with no forest entry terminates the branch. -/
def collectInnerStep (c : Crate) (forest : Forest) (recur : Id →
    List Id → List String → List (List String) → Option CollectSt)
    (nextId : Id) (visited : List Id) (stack : List String)
    (out : List (List String)) : Option CollectSt :=
  if nextId = c.root then some (visited, stack, out ++ [stack])
  else
    match forest.lookup nextId with
    | none => some (visited, stack, out)
    | some ps => collectStepList recur ps visited stack out

/-- One level of `collect_publicly_importable_names`, with the recursive
call abstracted as `recur`: cycle guard, prune at struct/union/impl with
a non-empty stack, stack adjustment, inner walk, and exact undo of the
stack changes plus removal from the visited set on exit. `none` models a
panic (the `expect`s, the `assert`s, and indexing a missing id). Note:
the prune branch returns after inserting `nextId` into the visited set
and does not remove it — exactly as the early `return` in the source
skips the removal at the end of the function. -/
def collectStep (c : Crate) (forest : Forest) (recur : Id → List Id →
    List String → List (List String) → Option CollectSt) (nextId : Id)
    (visited : List Id) (stack : List String) (out : List (List String)) :
    Option CollectSt :=
  if nextId ∈ visited then some (visited, stack, out)
  else
    let visited1 := nextId :: visited
    match c.get nextId with
    | none => none
    | some item =>
      if stack ≠ [] ∧ prunedKind item then some (visited1, stack, out)
      else
        match stackAction item stack with
        | none => none
        | some (pushed?, popped?, stackPopped) =>
          let stackIn :=
            match pushed? with
            | some n => n :: stackPopped
            | none => stackPopped
          match collectInnerStep c forest recur nextId visited1 stackIn out with
          | none => none
          | some (visited2, stackOut, out2) =>
            let afterUndo : Option (List String) :=
              match pushed? with
              | some n =>
                match stackOut with
                | [] => none
                | recovered :: rest =>
                  if recovered = n then some rest else none
              | none => some stackOut
            match afterUndo with
            | none => none
            | some stackUndone =>
              let stackRestored :=
                match popped? with
                | some m => m :: stackUndone
                | none => stackUndone
              if nextId ∈ visited2 then
                some (visited2.erase nextId, stackRestored, out2)
              else none

/-- Mirror of `collect_publicly_importable_names` (fuelled; the fuel
bounds recursion depth, which the visited set keeps at most one past the
number of index entries, so the fuel chosen below never runs out; fuel
exhaustion is also `none`, like a panic). -/
def collectF : Nat → Crate → Forest → Id → List Id → List String →
    List (List String) → Option CollectSt
  | 0, _, _, _, _, _, _ => none
  | fuel + 1, c, forest, nextId, visited, stack, out =>
    collectStep c forest (collectF fuel c forest) nextId visited stack out

/-- Mirror of `publicly_importable_names`: all importable paths of `id`,
each a root-first list of name components; ids absent from the index give
the empty list. -/
def publiclyImportableNames (c : Crate) (forest : Forest) (id : Id) :
    Option (List (List String)) :=
  if (c.get id).isSome then
    (collectF (c.index.length + 1) c forest id [] [] []).map (fun r => r.2.2)
  else some []

/-! ## The two lookup indices built in `IndexedCrate::new` -/

/-- Key type of the imports index (`ImportablePath`): a root-first list of
name components. -/
abbrev ImportablePath := List String

/-- The imports index: importable path to the list of items under that
path. -/
abbrev ImportsIndex := List (ImportablePath × List Item)

/-- The impl index: (owner id, member name) to the list of
(impl block item, member item) pairs. -/
abbrev ImplIndex := List ((Id × String) × List (Item × Item))

/-- Append a value to a multimap entry, creating the entry if absent
(`entry(..).or_default().push(..)`). -/
def multiInsert {κ ν : Type} [DecidableEq κ] (m : List (κ × List ν))
    (k : κ) (v : ν) : List (κ × List ν) :=
  match m with
  | [] => [(k, [v])]
  | (k', vs) :: rest =>
    if k' = k then (k', vs ++ [v]) :: rest
    else (k', vs) :: multiInsert rest k v

/-- The item-kind filter of the imports-index loop in `IndexedCrate::new`:
structs, struct fields, enums, variants, functions, impl blocks and
traits are indexed. -/
def importsIndexedKind (item : Item) : Bool :=
  match item.inner with
  | .structItem _ => true
  | .structFieldItem _ => true
  | .enumItem _ => true
  | .variantItem _ => true
  | .functionItem _ => true
  | .implBlock _ => true
  | .traitItem _ => true
  | _ => false

/-- One step of the imports-index construction loop: for an item of an
indexed kind, every importable path of its id maps to the item. `none`
models a panic inside the path enumeration. -/
def importsStep (c : Crate) (forest : Forest) (acc? : Option ImportsIndex)
    (kv : Id × Item) : Option ImportsIndex :=
  match acc? with
  | none => none
  | some acc =>
    if importsIndexedKind kv.2 then
      match publiclyImportableNames c forest kv.2.id with
      | none => none
      | some paths =>
        some (paths.foldl (fun m path => multiInsert m path kv.2) acc)
    else some acc

/-- The imports-index construction loop of `IndexedCrate::new`. -/
def buildImportsIndex (c : Crate) (forest : Forest) : Option ImportsIndex :=
  c.index.foldl (importsStep c forest) (some [])

/-- The `impls` list of a struct, enum or union; `none` for every other
kind (those items are skipped by the impl-index loop). -/
def implsOf (item : Item) : Option (List Id) :=
  match item.inner with
  | .structItem s => some s.impls
  | .enumItem e => some e.impls
  | .unionItem u => some u.impls
  | _ => none

/-- Insertion of one member item textually declared in an impl block,
keyed by (owner id, member name); unnamed members are skipped. -/
def implNamedInsert (ownerId : Id) (implItem : Item) (m : ImplIndex)
    (containedItem : Item) : ImplIndex :=
  match containedItem.name? with
  | some nm => multiInsert m (ownerId, nm) (implItem, containedItem)
  | none => m

/-- Insertion of one provided (default-bodied) trait item, when its name
is among the trait methods the impl block did not override. -/
def implProvidedInsert (ownerId : Id) (implItem : Item)
    (provided : List String) (m : ImplIndex) (providedItem : Item) :
    ImplIndex :=
  match providedItem.name? with
  | some nm =>
    if provided.contains nm then
      multiInsert m (ownerId, nm) (implItem, providedItem)
    else m
  | none => m

/-- Processing of one impl block for owner key `ownerId`: first the
trait's provided (default) methods not overridden by the block, then
every named member declared in the block. -/
def implIndexAddImpl (c : Crate) (ownerId : Id) (implItem : Item)
    (d : ImplData) (acc : ImplIndex) : ImplIndex :=
  let withProvided :=
    match d.traitPath.bind (fun tp => c.get tp.pathId) with
    | some traitDecl =>
      match traitDecl.inner with
      | .traitItem td =>
        (td.items.filterMap c.get).foldl
          (implProvidedInsert ownerId implItem d.providedTraitMethods) acc
      | _ => acc
    | none => acc
  (d.items.filterMap c.get).foldl (implNamedInsert ownerId implItem)
    withProvided

/-- Processing of one resolved entry of an `impls` list: it must be an
impl block (anything else is the `unreachable!` panic, `none`), whose
members and non-overridden trait defaults are then inserted. -/
def implOwnerStep (c : Crate) (ownerId : Id) (a? : Option ImplIndex)
    (implItem : Item) : Option ImplIndex :=
  match a? with
  | none => none
  | some a =>
    match implItem.inner with
    | .implBlock d => some (implIndexAddImpl c ownerId implItem d a)
    | _ => none

/-- One step of the impl-index construction: a struct/enum/union owner
processes every resolvable impl block in its `impls` list; a resolved
non-impl item is the `unreachable!` panic (`none`). -/
def implIndexStep (c : Crate) (acc? : Option ImplIndex) (kv : Id × Item) :
    Option ImplIndex :=
  match acc? with
  | none => none
  | some acc =>
    match implsOf kv.2 with
    | none => some acc
    | some impls =>
      (impls.filterMap c.get).foldl (implOwnerStep c kv.1) (some acc)

/-- The impl-index construction loop of `IndexedCrate::new`. -/
def buildImplIndex (c : Crate) : Option ImplIndex :=
  c.index.foldl (implIndexStep c) (some [])

/-! ## The builtin-trait synthesizer (`create_manually_inlined_builtin_traits`) -/

/-- Mirror of `ManualTraitItem`. -/
structure ManualTraitItem where
  name : String
  isAuto : Bool
  isUnsafe : Bool

/-- Mirror of the `MANUAL_TRAIT_ITEMS` static table, in source order. -/
def manualTraitItems : List ManualTraitItem :=
  [ ⟨"Debug", false, false⟩,
    ⟨"Clone", false, false⟩,
    ⟨"Copy", false, false⟩,
    ⟨"PartialOrd", false, false⟩,
    ⟨"Ord", false, false⟩,
    ⟨"PartialEq", false, false⟩,
    ⟨"Eq", false, false⟩,
    ⟨"Hash", false, false⟩,
    ⟨"Send", true, true⟩,
    ⟨"Sync", true, true⟩,
    ⟨"Unpin", true, false⟩,
    ⟨"RefUnwindSafe", true, false⟩,
    ⟨"UnwindSafe", true, false⟩,
    ⟨"Sized", false, false⟩ ]

/-- Mirror of `new_trait`: a minimal synthesized Public trait item with no
items, no generic parameters, no bounds and no implementations, and the
auto/unsafe flags of the static table entry. -/
def newTrait (m : ManualTraitItem) (id : Id) (crateId : Nat) : Item :=
  { id := id
    name? := some m.name
    crateId := crateId
    visibility := .publicVis
    inner := .traitItem
      { isAuto := m.isAuto
        isUnsafe := m.isUnsafe
        items := []
        generics := { params := [] }
        bounds := []
        implementations := [] } }

/-- Mirror of `create_manually_inlined_builtin_traits`: for every impl
block whose trait path's unqualified name matches a manual table entry and
whose id is present in the external-summary map `paths`, register a
synthesized trait under that id. The Rust `collect::<HashMap<_,_>>()`
keeps the last item inserted for a key; prepending here makes the
first-match `lookup` see exactly that item. -/
def createManuallyInlinedBuiltinTraits (c : Crate) : List (Id × Item) :=
  c.index.foldl
    (fun acc kv =>
      match kv.2.inner with
      | .implBlock d =>
        match d.traitPath with
        | some path =>
          match manualTraitItems.find? (fun m => m.name == path.pathName) with
          | some m =>
            match c.paths.lookup path.pathId with
            | some summaryCrateId =>
              (path.pathId, newTrait m path.pathId summaryCrateId) :: acc
            | none => acc
          | none => acc
        | none => acc
      | _ => acc)
    []

/-! ## `IndexedCrate::new` -/

/-- The indexed crate: the visibility forest, both lookup indices, and the
synthesized builtin traits (the `inner` crate reference is left implicit
as the `Crate` value itself). -/
structure IndexedCrateModel where
  visibilityForest : Forest
  importsIndex : ImportsIndex
  implIndex : ImplIndex
  manuallyInlinedBuiltinTraits : List (Id × Item)

/-- Mirror of `IndexedCrate::new`: build the forest (with sorted parent
lists), the imports index and the impl index, plus the synthesized
builtin traits. `none` models any panic during construction. -/
def IndexedCrateNew (c : Crate) : Option IndexedCrateModel :=
  match buildForest c with
  | none => none
  | some forest =>
    match buildImportsIndex c forest with
    | none => none
    | some ii =>
      match buildImplIndex c with
      | none => none
      | some impli =>
        some ⟨forest, ii, impli, createManuallyInlinedBuiltinTraits c⟩

/-! ## Concrete example crates -/

/-- Crate `pub fn f;` under root module `r`. -/
def exSimple : Crate :=
  { root := 0
    index :=
      [ (0, { id := 0, name? := some "r", crateId := 0,
              visibility := .publicVis, inner := .module { items := [1] } }),
        (1, { id := 1, name? := some "f", crateId := 0,
              visibility := .publicVis, inner := .functionItem 0 }) ]
    paths := [] }

/-- Crate with `pub enum Foo { Variant }` and an inherent impl with a
method, mirroring the `enums_are_not_modules` test crate. -/
def exEnums : Crate :=
  { root := 0
    index :=
      [ (0, { id := 0, name? := some "m", crateId := 0,
              visibility := .publicVis, inner := .module { items := [1, 2] } }),
        (1, { id := 1, name? := some "top", crateId := 0,
              visibility := .publicVis, inner := .functionItem 0 }),
        (2, { id := 2, name? := some "Foo", crateId := 0,
              visibility := .publicVis,
              inner := .enumItem { generics := { params := [] },
                                   variants := [3], impls := [4] } }),
        (3, { id := 3, name? := some "Variant", crateId := 0,
              visibility := .defaultVis, inner := .variantItem 0 }),
        (4, { id := 4, name? := none, crateId := 0,
              visibility := .defaultVis,
              inner := .implBlock { traitPath := none, items := [5],
                                    providedTraitMethods := [] } }),
        (5, { id := 5, name? := some "method", crateId := 0,
              visibility := .publicVis, inner := .functionItem 0 }) ]
    paths := [] }

/-- Crate with a recursive glob re-export cycle, mirroring the
`infinite_recursive_reexport` test crate: module `inner` glob-imports the
crate root itself. -/
def exCycle : Crate :=
  { root := 0
    index :=
      [ (0, { id := 0, name? := some "c", crateId := 0,
              visibility := .publicVis, inner := .module { items := [1, 2] } }),
        (1, { id := 1, name? := some "foo", crateId := 0,
              visibility := .publicVis, inner := .functionItem 0 }),
        (2, { id := 2, name? := some "inner", crateId := 0,
              visibility := .publicVis, inner := .module { items := [3] } }),
        (3, { id := 3, name? := some "crate", crateId := 0,
              visibility := .publicVis,
              inner := .importItem { name := "crate", target := some 0,
                                     glob := true } }) ]
    paths := [] }

/-- Crate mirroring the `glob_reexport` test shape: `pub mod inner` with
`pub fn foo`, and `pub use inner::*;` at the root. -/
def exGlob : Crate :=
  { root := 0
    index :=
      [ (0, { id := 0, name? := some "g", crateId := 0,
              visibility := .publicVis, inner := .module { items := [2, 3] } }),
        (1, { id := 1, name? := some "foo", crateId := 0,
              visibility := .publicVis, inner := .functionItem 0 }),
        (2, { id := 2, name? := some "inner", crateId := 0,
              visibility := .publicVis, inner := .module { items := [1] } }),
        (3, { id := 3, name? := some "inner", crateId := 0,
              visibility := .publicVis,
              inner := .importItem { name := "inner", target := some 2,
                                     glob := true } }) ]
    paths := [] }

/-- Crate in which one impl block is listed by two structs, so that the
path enumeration prunes struct `S` on one branch and then meets it again
with an empty stack on another. -/
def exPollution : Crate :=
  { root := 0
    index :=
      [ (0, { id := 0, name? := some "r", crateId := 0,
              visibility := .publicVis, inner := .module { items := [2] } }),
        (1, { id := 1, name? := some "X", crateId := 0,
              visibility := .publicVis,
              inner := .structItem { kind := .unitKind,
                                     generics := { params := [] },
                                     impls := [3] } }),
        (2, { id := 2, name? := some "S", crateId := 0,
              visibility := .publicVis,
              inner := .structItem { kind := .plainKind [1],
                                     generics := { params := [] },
                                     impls := [3] } }),
        (3, { id := 3, name? := none, crateId := 0,
              visibility := .defaultVis,
              inner := .implBlock { traitPath := none, items := [],
                                    providedTraitMethods := [] } }) ]
    paths := [] }

/-- Crate whose root glob-imports a struct: the forest builder panics on
it (`unreachable!` for a glob import of a non-module, non-enum item). -/
def exBadGlob : Crate :=
  { root := 0
    index :=
      [ (0, { id := 0, name? := some "r", crateId := 0,
              visibility := .publicVis, inner := .module { items := [1] } }),
        (1, { id := 1, name? := some "S", crateId := 0,
              visibility := .publicVis,
              inner := .importItem { name := "S", target := some 2,
                                     glob := true } }),
        (2, { id := 2, name? := some "S", crateId := 0,
              visibility := .publicVis,
              inner := .structItem { kind := .unitKind,
                                     generics := { params := [] },
                                     impls := [] } }) ]
    paths := [] }

/-- Crate whose root module is present but `crate`-visible (not public). -/
def exPrivateRoot : Crate :=
  { root := 0
    index :=
      [ (0, { id := 0, name? := some "r", crateId := 0,
              visibility := .crateVis, inner := .module { items := [1] } }),
        (1, { id := 1, name? := some "f", crateId := 0,
              visibility := .publicVis, inner := .functionItem 0 }) ]
    paths := [] }

/-- A crate holding only a plain non-generic struct `Bar`, target of the
typedef-checker counterexample. -/
def exC3Crate : Crate :=
  { root := 0
    index :=
      [ (1, { id := 1, name? := some "Bar", crateId := 0,
              visibility := .publicVis,
              inner := .structItem { kind := .unitKind,
                                     generics := { params := [] },
                                     impls := [] } }) ]
    paths := [] }

/-- A typedef `type Foo<A> = Bar;` whose resolved path to `Bar` carries no
generic-argument list at all: the alias declares one generic parameter,
the target declares zero. -/
def exC3Typedef : TypedefData :=
  { type_ := .resolvedPath (.mk 1 "Bar" none)
    generics := { params := [⟨"A", .typeParam none⟩] } }

/-- The `Bar` item of `exC3Crate`. -/
def exC3Bar : Item :=
  { id := 1, name? := some "Bar", crateId := 0,
    visibility := .publicVis,
    inner := .structItem { kind := .unitKind,
                           generics := { params := [] },
                           impls := [] } }

/-- A typedef `type Foo = Bar;` over `exC3Crate`, whose resolved path
carries an empty angle-bracketed argument list: a genuine re-export. -/
def exC3TypedefOk : TypedefData :=
  { type_ := .resolvedPath (.mk 1 "Bar" (some (.angleBracketed [] [])))
    generics := { params := [] } }

/-- Crate with a struct implementing a trait that has one provided
(default) method the impl does not override, plus one explicit method. -/
def exImplCrate : Crate :=
  { root := 0
    index :=
      [ (0, { id := 0, name? := some "c", crateId := 0,
              visibility := .publicVis, inner := .module { items := [1, 5] } }),
        (1, { id := 1, name? := some "S", crateId := 0,
              visibility := .publicVis,
              inner := .structItem { kind := .unitKind,
                                     generics := { params := [] },
                                     impls := [2] } }),
        (2, { id := 2, name? := none, crateId := 0,
              visibility := .defaultVis,
              inner := .implBlock { traitPath := some (.mk 5 "Tr" none),
                                    items := [3],
                                    providedTraitMethods := ["pm"] } }),
        (3, { id := 3, name? := some "m", crateId := 0,
              visibility := .defaultVis, inner := .functionItem 0 }),
        (5, { id := 5, name? := some "Tr", crateId := 0,
              visibility := .publicVis,
              inner := .traitItem { isAuto := false, isUnsafe := false,
                                    items := [6],
                                    generics := { params := [] },
                                    bounds := [], implementations := [] } }),
        (6, { id := 6, name? := some "pm", crateId := 0,
              visibility := .defaultVis, inner := .functionItem 0 }) ]
    paths := [] }

/-- Crate with one impl of the foreign builtin trait `Debug`, whose id is
listed in the external-summary map. -/
def exBuiltin : Crate :=
  { root := 0
    index :=
      [ (1, { id := 1, name? := none, crateId := 0,
              visibility := .defaultVis,
              inner := .implBlock { traitPath := some (.mk 9 "Debug" none),
                                    items := [],
                                    providedTraitMethods := [] } }) ]
    paths := [(9, 42)] }

/-! ## Claim C1: non-empty path sets require a forest entry or the root -/

/-- Helper: starting the path enumeration at an id with no forest entry
that is not the root emits nothing (the inner step neither reaches the
root case nor finds parents to walk). -/
theorem collect_start_no_entry (c : Crate) (forest : Forest) (id : Id)
    (fuel : Nat) (r : CollectSt)
    (hlk : forest.lookup id = none) (hroot : id ≠ c.root)
    (h : collectF fuel c forest id [] [] [] = some r) : r.2.2 = [] := by
  cases fuel with
  | zero => rw [collectF] at h; cases h
  | succ fuel =>
    rw [collectF, collectStep] at h
    simp only [List.not_mem_nil, if_false] at h
    cases hget : c.get id with
    | none => rw [hget] at h; cases h
    | some item =>
      rw [hget] at h
      simp only [ne_eq, not_true_eq_false, false_and, if_false] at h
      cases hsa : stackAction item [] with
      | none => rw [hsa] at h; cases h
      | some act =>
        rw [hsa] at h
        obtain ⟨pushed?, popped?, stackPopped⟩ := act
        simp only [collectInnerStep, if_neg hroot, hlk] at h
        cases pushed? with
        | none =>
          simp only [List.mem_singleton, if_pos rfl, Option.some.injEq] at h
          cases h
          rfl
        | some n =>
          simp only [List.mem_singleton, if_pos rfl, Option.some.injEq] at h
          cases h
          rfl

/-- Claim C1: `publicly_importable_names(id)` is non-empty only if `id`
has an entry in the visibility forest or is the crate root; an id that is
neither returns the empty set. -/
theorem c1_paths_require_forest_entry_or_root (c : Crate) (forest : Forest)
    (id : Id) (paths : List (List String))
    (h : publiclyImportableNames c forest id = some paths)
    (hne : paths ≠ []) :
    (forest.lookup id).isSome ∨ id = c.root := by
  by_contra hcon
  push_neg at hcon
  obtain ⟨hlk', hroot⟩ := hcon
  have hlk : forest.lookup id = none := by
    cases hl : forest.lookup id with
    | none => rfl
    | some v => rw [hl] at hlk'; simp at hlk'
  rw [publiclyImportableNames] at h
  split at h
  · cases hc : collectF (c.index.length + 1) c forest id [] [] [] with
    | none => rw [hc] at h; simp at h
    | some r =>
      rw [hc] at h
      simp only [Option.map_some', Option.some.injEq] at h
      have := collect_start_no_entry c forest id _ r hlk hroot hc
      rw [← h] at hne
      exact hne this
  · simp only [Option.some.injEq] at h
    exact hne h.symm

/-- Witness for C1 at a concrete crate: the path set of the function item
of `exSimple` is non-empty, and indeed that id has a forest entry. -/
theorem c1_witness :
    ((([(0, ([] : List Id)), (1, [0])] : Forest).lookup 1).isSome ∨ (1 : Id) = exSimple.root) :=
  c1_paths_require_forest_entry_or_root exSimple [(0, []), (1, [0])] 1
    [["r", "f"]] (by decide) (by decide)

/-! ## Claim C3: the typedef-equivalence conditions -/

/-- Crate with `pub struct Bar<A, B>` and
`pub type Foo<A, B> = Bar<B, A>;` (generic parameters reordered). -/
def exReorder : Crate :=
  { root := 0
    index :=
      [ (0, { id := 0, name? := some "t", crateId := 0,
              visibility := .publicVis, inner := .module { items := [1, 2] } }),
        (1, { id := 1, name? := some "Bar", crateId := 0,
              visibility := .publicVis,
              inner := .structItem
                { kind := .unitKind,
                  generics := { params := [⟨"A", .typeParam none⟩,
                                           ⟨"B", .typeParam none⟩] },
                  impls := [] } }),
        (2, { id := 2, name? := some "Foo", crateId := 0,
              visibility := .publicVis,
              inner := .typedef
                { type_ := .resolvedPath
                    (.mk 1 "Bar"
                      (some (.angleBracketed
                        [.typeArg (.generic "B"), .typeArg (.generic "A")] [])))
                  generics := { params := [⟨"A", .typeParam none⟩,
                                           ⟨"B", .typeParam none⟩] } } }) ]
    paths := [] }

/-- One position of the claim's pairwise condition (spec wording): the
argument is exactly the alias's parameter name at that position, and the
parameter pair is of the same kind, with identical defaults (and
identical declared types for const parameters). -/
def paramTripleOk (tyP uP : GenericParamDef) (arg : GenericArg) : Prop :=
  argAsName arg = some tyP.name ∧
  match tyP.kind, uP.kind with
  | .lifetimeParam, .lifetimeParam => True
  | .typeParam td, .typeParam ud => optTypeBeq td ud = true
  | .constParam tt td, .constParam ut ud => td = ud ∧ RustType.beq tt ut = true
  | _, _ => False

/-- The claim's pairwise condition over the three lists (alias parameters,
target parameters, supplied arguments), position by position. -/
def paramsPairwiseOk : List GenericParamDef → List GenericParamDef →
    List GenericArg → Prop
  | [], [], [] => True
  | tyP :: tys, uP :: us, arg :: args =>
    paramTripleOk tyP uP arg ∧ paramsPairwiseOk tys us args
  | _, _, _ => False

/-- Evaluation of the parameter loop when the alias parameter list is
exhausted. -/
theorem checkTypedefParams_nilTy (u : Item) (us : List GenericParamDef)
    (args : List GenericArg) :
    checkTypedefParams u [] us args = some (some u) := by
  cases us <;> cases args <;> rfl

/-- Evaluation of the parameter loop when the target parameter list is
exhausted first. -/
theorem checkTypedefParams_nilU (u : Item) (tyP : GenericParamDef)
    (tys : List GenericParamDef) (args : List GenericArg) :
    checkTypedefParams u (tyP :: tys) [] args = some (some u) := by
  cases args <;> rfl

/-- Evaluation of the parameter loop when the argument list is exhausted
first. -/
theorem checkTypedefParams_nilArgs (u : Item) (tyP : GenericParamDef)
    (tys : List GenericParamDef) (uP : GenericParamDef)
    (us : List GenericParamDef) :
    checkTypedefParams u (tyP :: tys) (uP :: us) [] = some (some u) := rfl

/-- Every successful run of the parameter-comparison loop returns exactly
the underlying item it was given. -/
theorem checkTypedefParams_target (u : Item) :
    ∀ (tys us : List GenericParamDef) (args : List GenericArg) (tgt : Item),
    checkTypedefParams u tys us args = some (some tgt) → tgt = u := by
  intro tys
  induction tys with
  | nil =>
    intro us args tgt h
    rw [checkTypedefParams_nilTy] at h
    simp only [Option.some.injEq] at h
    exact h.symm
  | cons tyP tyRest ih =>
    intro us args tgt h
    cases us with
    | nil =>
      rw [checkTypedefParams_nilU] at h
      simp only [Option.some.injEq] at h
      exact h.symm
    | cons uP uRest =>
      cases args with
      | nil =>
        rw [checkTypedefParams_nilArgs] at h
        simp only [Option.some.injEq] at h
        exact h.symm
      | cons arg argRest =>
        rw [checkTypedefParams] at h
        cases han : argAsName arg with
        | none => rw [han] at h; cases h
        | some argName =>
          rw [han] at h
          simp only at h
          split at h
          · cases h
          · split at h
            · exact ih _ _ _ h
            · split at h
              · exact ih _ _ _ h
              · cases h
            · split at h
              · exact ih _ _ _ h
              · cases h
            · cases h

/-- A successful run of the parameter-comparison loop, on lists of equal
length, establishes the claim's pairwise condition. -/
theorem checkTypedefParams_pairwise (u : Item) :
    ∀ (tys us : List GenericParamDef) (args : List GenericArg) {tgt : Item},
    tys.length = args.length → us.length = args.length →
    checkTypedefParams u tys us args = some (some tgt) →
    paramsPairwiseOk tys us args := by
  intro tys
  induction tys with
  | nil =>
    intro us args tgt h1 h2 h
    cases args with
    | nil =>
      cases us with
      | nil => exact trivial
      | cons _ _ => cases h2
    | cons _ _ => cases h1
  | cons tyP tyRest ih =>
    intro us args tgt h1 h2 h
    cases args with
    | nil => cases h1
    | cons arg argRest =>
      cases us with
      | nil => cases h2
      | cons uP uRest =>
        rw [checkTypedefParams] at h
        cases han : argAsName arg with
        | none => rw [han] at h; cases h
        | some argName =>
          rw [han] at h
          simp only at h
          split at h
          · cases h
          · rename_i hname
            simp only [ne_eq, Decidable.not_not] at hname
            have h1' : tyRest.length = argRest.length := by
              simpa using h1
            have h2' : uRest.length = argRest.length := by
              simpa using h2
            split at h
            · rename_i hk1 hk2
              refine ⟨⟨by rw [han, hname], ?_⟩, ih _ _ h1' h2' h⟩
              rw [hk1, hk2]
              exact trivial
            · split at h
              · rename_i hbeq hk1 hk2
                refine ⟨⟨by rw [han, hname], ?_⟩, ih _ _ h1' h2' h⟩
                simp only [hbeq, hk1]
                exact hk2
              · cases h
            · split at h
              · rename_i hceq hk1 hk2
                refine ⟨⟨by rw [han, hname], ?_⟩, ih _ _ h1' h2' h⟩
                simp only [hceq, hk1]
                exact hk2
              · cases h
            · cases h


/-- Counterexample to C3 as stated: for the typedef
`type Foo<A> = Bar;` of `exC3Crate`, whose resolved path to `Bar` carries
no generic-argument list, the checker returns the target even though the
alias declares one generic parameter and the target declares zero — so
the claim's "the alias and the target declare the same number of generic
parameters" condition does not hold of every returned target. -/
theorem c3_counterexample :
    ¬ (∀ (c : Crate) (ty : TypedefData) (tgt : Item),
        getTypedefEquivalentReexportTarget c ty = some (some tgt) →
        ∃ rp, ty.type_ = .resolvedPath rp ∧
          (∀ args bindings, rp.pathArgs = some (.angleBracketed args bindings) →
            bindings = []) ∧
          (∃ ug, underlyingGenerics tgt = some ug ∧
            ty.generics.params.length = ug.params.length ∧
            (∃ args, paramsPairwiseOk ty.generics.params ug.params args))) := by
  intro hall
  obtain ⟨rp, hty, _, ug, hug, hlen, -⟩ :=
    hall exC3Crate exC3Typedef exC3Bar rfl
  have hug0 : ug = { params := [] } := by
    have : underlyingGenerics exC3Bar = some { params := [] } := rfl
    rw [this] at hug
    cases hug
    rfl
  rw [hug0] at hlen
  simp [exC3Typedef] at hlen

/-- Amended C3: whenever the checker returns a target, the aliased type is
a resolved named-path reference to that target; and whenever that path
carries an angle-bracketed generic-argument list, all of the claim's
conditions hold (no bindings, equal parameter counts on alias, target and
argument list, and the pairwise name/kind/default conditions). When the
path carries no argument list, or a parenthesized one, the target is
returned without any parameter checks (the sole amendment). Additionally,
at the concrete reordered-parameters crate (`type Foo<A,B> = Bar<B,A>`),
`Bar` gains no importable path through `Foo`. -/
theorem c3_amended :
    (∀ (c : Crate) (ty : TypedefData) (tgt : Item),
        getTypedefEquivalentReexportTarget c ty = some (some tgt) →
        ∃ rp, ty.type_ = .resolvedPath rp ∧ c.get rp.pathId = some tgt ∧
          ∀ args bindings, rp.pathArgs = some (.angleBracketed args bindings) →
            bindings = [] ∧
            ty.generics.params.length = args.length ∧
            ∃ ug, underlyingGenerics tgt = some ug ∧
              ug.params.length = args.length ∧
              paramsPairwiseOk ty.generics.params ug.params args) ∧
    ((buildForest exReorder).bind
        (fun f => publiclyImportableNames exReorder f 1) =
      some [["t", "Bar"]]) := by
  constructor
  · intro c ty tgt h
    obtain ⟨type_, tygens⟩ := ty
    cases type_ with
    | resolvedPath rp =>
      obtain ⟨pid, pname, pargs⟩ := rp
      rw [getTypedefEquivalentReexportTarget] at h
      dsimp only [RustPath.pathId, RustPath.pathArgs] at h
      refine ⟨.mk pid pname pargs, rfl, ?_⟩
      dsimp only [RustPath.pathId, RustPath.pathArgs]
      cases hget : c.get pid with
      | none => rw [hget] at h; cases h
      | some underlying =>
        rw [hget] at h
        cases pargs with
        | none =>
          simp only [Option.some.injEq] at h
          cases h
          exact ⟨rfl, by intro args bindings hc; cases hc⟩
        | some gargs =>
          cases gargs with
          | parenthesized =>
            simp only [Option.some.injEq] at h
            cases h
            exact ⟨rfl, by intro args bindings hc; cases hc⟩
          | angleBracketed args bindings =>
            dsimp only at h
            by_cases hb : bindings = []
            · rw [if_neg (by simp [hb])] at h
              cases hug : underlyingGenerics underlying with
              | none => rw [hug] at h; cases h
              | some ug =>
                rw [hug] at h
                dsimp only at h
                by_cases hl1 : tygens.params.length = args.length
                · rw [if_neg (by simp [hl1])] at h
                  by_cases hl2 : ug.params.length = args.length
                  · rw [if_neg (by simp [hl2])] at h
                    have htgt : tgt = underlying :=
                      checkTypedefParams_target _ _ _ _ _ h
                    subst htgt
                    refine ⟨rfl, ?_⟩
                    intro args' bindings' hc
                    cases hc
                    exact ⟨hb, hl1, ug, hug, hl2,
                      checkTypedefParams_pairwise _ _ _ _ hl1 hl2 h⟩
                  · rw [if_pos (by simp [hl2])] at h; cases h
                · rw [if_pos (by simp [hl1])] at h; cases h
            · rw [if_pos (by simp [hb])] at h
              cases h
    | generic s =>
      rw [getTypedefEquivalentReexportTarget] at h
      cases h
    | otherType n =>
      rw [getTypedefEquivalentReexportTarget] at h
      cases h
  · rfl

/-- Witness for the amended C3 at the concrete re-export typedef of
`exC3Crate`: the checker returns `Bar`, and the theorem instantiates. -/
theorem c3_witness :
    ∃ rp, exC3TypedefOk.type_ = RustType.resolvedPath rp ∧
      exC3Crate.get rp.pathId = some exC3Bar ∧
      ∀ args bindings,
        rp.pathArgs = some (.angleBracketed args bindings) →
        bindings = [] ∧
        exC3TypedefOk.generics.params.length = args.length ∧
        ∃ ug, underlyingGenerics exC3Bar = some ug ∧
          ug.params.length = args.length ∧
          paramsPairwiseOk exC3TypedefOk.generics.params ug.params args :=
  c3_amended.1 exC3Crate exC3TypedefOk exC3Bar rfl

/-! ## Claim C4: pruning at structs, unions and impl blocks -/

/-- Item kinds handled by the default branch of the stack adjustment
(everything except imports and typedefs): they push their own name, if
any, and pop nothing. -/
def defaultStackKind (item : Item) : Bool :=
  match item.inner with
  | .importItem _ => false
  | .typedef _ => false
  | _ => true

/-- The default branch of the stack adjustment. -/
theorem stackAction_default (item : Item) (stack : List String)
    (h : defaultStackKind item = true) :
    stackAction item stack = some (item.name?, none, stack) := by
  cases hi : item.inner <;>
    simp only [stackAction, defaultStackKind, hi] at h ⊢ <;>
    first
      | rfl
      | cases h

/-- The prune step: with a non-empty name stack, an unvisited struct,
union or impl block terminates the branch, emitting nothing — and leaves
its id in the visited set. -/
theorem collect_prune_step (c : Crate) (forest : Forest) (fuel : Nat)
    (id : Id) (v : List Id) (s : List String) (out : List (List String))
    (it : Item) (hv : id ∉ v) (hget : c.get id = some it)
    (hs : s ≠ []) (hp : prunedKind it = true) :
    collectF (fuel + 1) c forest id v s out = some (id :: v, s, out) := by
  rw [collectF, collectStep, if_neg hv, hget]
  dsimp only
  rw [if_pos ⟨hs, hp⟩]

/-- Walking a parent list consisting solely of pruned kinds (or of
already-visited ids) with a non-empty stack changes neither the stack nor
the output, and only grows the visited set. -/
theorem collect_prune_list (c : Crate) (forest : Forest) (fuel : Nat) :
    ∀ (ps : List Id) (v : List Id) (s : List String)
      (out : List (List String)),
    s ≠ [] →
    (∀ p ∈ ps, ∃ pit, c.get p = some pit ∧ prunedKind pit = true) →
    ∃ v', collectStepList (collectF (fuel + 1) c forest) ps v s out =
        some (v', s, out) ∧ v ⊆ v' := by
  intro ps
  induction ps with
  | nil =>
    intro v s out hs hall
    exact ⟨v, rfl, fun x hx => hx⟩
  | cons p ps ih =>
    intro v s out hs hall
    obtain ⟨pit, hget, hp⟩ := hall p (List.mem_cons_self _ _)
    obtain ⟨v', hrun, hsub⟩ :
        ∃ v', collectF (fuel + 1) c forest p v s out = some (v', s, out) ∧
          v ⊆ v' := by
      by_cases hv : p ∈ v
      · refine ⟨v, ?_, fun x hx => hx⟩
        rw [collectF, collectStep, if_pos hv]
      · exact ⟨p :: v, collect_prune_step c forest fuel p v s out pit hv hget hs hp,
          fun x hx => List.mem_cons_of_mem _ hx⟩
    rw [collectStepList, hrun]
    obtain ⟨v'', hrun', hsub'⟩ :=
      ih v' s out hs (fun q hq => hall q (List.mem_cons_of_mem _ hq))
    exact ⟨v'', hrun', fun x hx => hsub' (hsub hx)⟩

/-- Claim C4, in three parts: (1) with a non-empty name stack the
enumeration prunes at any struct, union or impl block; (2) a named,
non-import, non-typedef item all of whose forest parents are structs,
unions or impl blocks (and which is not the root) has no importable
paths; (3) enums are exempt from pruning, and concretely (at `exEnums`)
an enum variant is importable as `Enum::Variant` while an enum-impl
method is not importable at all. -/
theorem c4_struct_union_impl_prune :
    (∀ (c : Crate) (forest : Forest) (fuel : Nat) (id : Id) (v : List Id)
       (s : List String) (out : List (List String)) (it : Item),
       id ∉ v → c.get id = some it → s ≠ [] → prunedKind it = true →
       collectF (fuel + 1) c forest id v s out = some (id :: v, s, out)) ∧
    (∀ (c : Crate) (forest : Forest) (id : Id) (item : Item) (nm : String),
       c.get id = some item → item.name? = some nm →
       defaultStackKind item = true → id ≠ c.root →
       (∀ ps, forest.lookup id = some ps →
          ∀ p ∈ ps, ∃ pit, c.get p = some pit ∧ prunedKind pit = true) →
       publiclyImportableNames c forest id = some []) ∧
    (∀ (e : EnumData) (i : Id) (nm : Option String) (cid : Nat)
       (vis : Visibility),
       prunedKind ⟨i, nm, cid, vis, .enumItem e⟩ = false) ∧
    ((buildForest exEnums).bind
        (fun f => publiclyImportableNames exEnums f 3) =
      some [["m", "Foo", "Variant"]]) ∧
    ((buildForest exEnums).bind
        (fun f => publiclyImportableNames exEnums f 5) =
      some []) := by
  refine ⟨collect_prune_step, ?_, fun _ _ _ _ _ => rfl, rfl, rfl⟩
  intro c forest id item nm hget hname hplain hroot hps
  have hne : c.index ≠ [] := by
    intro hnil
    rw [Crate.get, hnil] at hget
    cases hget
  obtain ⟨k, hk⟩ : ∃ k, c.index.length = k + 1 := by
    cases hidx : c.index with
    | nil => exact absurd hidx hne
    | cons a l => exact ⟨l.length, rfl⟩
  rw [publiclyImportableNames, if_pos (by rw [hget]; rfl), hk]
  rw [collectF, collectStep, if_neg (List.not_mem_nil id), hget]
  dsimp only
  rw [if_neg (by intro hcontra; exact hcontra.1 rfl)]
  rw [stackAction_default item [] hplain, hname]
  dsimp only
  rw [collectInnerStep, if_neg hroot]
  cases hlk : forest.lookup id with
  | none =>
    simp
  | some ps =>
    dsimp only
    obtain ⟨v', hrun, hsub⟩ :=
      collect_prune_list c forest k ps [id] [nm] [] (by simp)
        (hps ps hlk)
    rw [hrun]
    have hidmem : id ∈ v' := hsub (List.mem_singleton_self id)
    simp [hidmem]

/-- Witness for C4 at concrete inputs: the prune step at struct `S` of
`exPollution`, and the nested-item part at the method item of
`exEnums` (its only forest parent is the enum's impl block). -/
theorem c4_witness :
    collectF 1 exPollution [] 2 [] ["X"] [] = some ([2], ["X"], []) ∧
    publiclyImportableNames exEnums
      [(0, []), (1, [0]), (2, [0]), (3, [2]), (4, [2]), (5, [4])] 5 =
      some [] :=
  ⟨c4_struct_union_impl_prune.1 exPollution [] 0 2 [] ["X"] []
      { id := 2, name? := some "S", crateId := 0,
        visibility := .publicVis,
        inner := .structItem { kind := .plainKind [1],
                               generics := { params := [] },
                               impls := [3] } }
      (by decide) rfl (by decide) rfl,
    c4_struct_union_impl_prune.2.1 exEnums
      [(0, []), (1, [0]), (2, [0]), (3, [2]), (4, [2]), (5, [4])] 5
      { id := 5, name? := some "method", crateId := 0,
        visibility := .publicVis, inner := .functionItem 0 }
      "method" rfl rfl rfl (by decide)
      (by
        intro ps hps p hp
        cases hps
        rw [List.mem_singleton] at hp
        subst hp
        exact ⟨{ id := 4, name? := none, crateId := 0,
                 visibility := .defaultVis,
                 inner := .implBlock { traitPath := none, items := [5],
                                       providedTraitMethods := [] } },
               rfl, rfl⟩)⟩

/-! ## Claim C5: termination, the cycle guard, and visited-set restoration -/

/-- Re-pushing an optionally popped name onto a stack. -/
def repush (popped? : Option String) (sp : List String) : List String :=
  match popped? with
  | some m => m :: sp
  | none => sp

/-- Undoing the stack adjustment (pop of the pushed name, re-push of the
popped one) recovers the original stack. -/
theorem stackAction_restore (item : Item) (s : List String)
    (pushed? popped? : Option String) (sp : List String)
    (h : stackAction item s = some (pushed?, popped?, sp)) :
    repush popped? sp = s := by
  cases hi : item.inner <;> rw [stackAction, hi] at h <;> dsimp only at h
  case importItem imp =>
    by_cases hg : imp.glob = true
    · rw [if_pos hg] at h
      cases h
      rfl
    · rw [if_neg hg] at h
      cases s with
      | nil => cases h
      | cons top rest => cases h; rfl
  case typedef t =>
    cases hn : item.name? with
    | none => rw [hn] at h; cases h
    | some n =>
      rw [hn] at h
      cases s with
      | nil => cases h; rfl
      | cons top rest => cases h; rfl
  all_goals (cases h; rfl)

/-- The restoration invariant, packaged: the final stack equals the
initial one, and the final visited set is the initial one plus some fresh
ids all of pruned kinds. -/
def RestoresTo (c : Crate) (v : List Id) (s : List String)
    (r : CollectSt) : Prop :=
  r.2.1 = s ∧ ∃ pol, r.1 = pol ++ v ∧
    ∀ x ∈ pol, x ∉ v ∧ ∃ it, c.get x = some it ∧ prunedKind it = true

/-- Restoration for the parent-list walk, given restoration for each
recursive call. -/
theorem collectStepList_restores (c : Crate) (_forest : Forest)
    (recur : Id → List Id → List String → List (List String) →
      Option CollectSt)
    (hrec : ∀ id v s out r, recur id v s out = some r → RestoresTo c v s r) :
    ∀ (ps : List Id) (v : List Id) (s : List String)
      (out : List (List String)) (r : CollectSt),
    collectStepList recur ps v s out = some r → RestoresTo c v s r := by
  intro ps
  induction ps with
  | nil =>
    intro v s out r h
    rw [collectStepList] at h
    cases h
    exact ⟨rfl, [], rfl, by simp⟩
  | cons p ps ih =>
    intro v s out r h
    rw [collectStepList] at h
    cases hc : recur p v s out with
    | none => rw [hc] at h; cases h
    | some r1 =>
      obtain ⟨v1, s1, o1⟩ := r1
      rw [hc] at h
      obtain ⟨hs1, pol1, hv1, hpol1⟩ := hrec p v s out _ hc
      dsimp only at h hs1 hv1 ⊢
      subst hs1
      subst hv1
      obtain ⟨hs2, pol2, hv2, hpol2⟩ := ih _ _ _ _ h
      refine ⟨hs2, pol2 ++ pol1, by rw [hv2, List.append_assoc], ?_⟩
      intro x hx
      rcases List.mem_append.mp hx with hx2 | hx1
      · obtain ⟨hnotin, hit⟩ := hpol2 x hx2
        exact ⟨fun hxv => hnotin (List.mem_append.mpr (Or.inr hxv)), hit⟩
      · exact hpol1 x hx1

/-- Restoration for the inner step, given restoration for each recursive
call. -/
theorem collectInnerStep_restores (c : Crate) (forest : Forest)
    (recur : Id → List Id → List String → List (List String) →
      Option CollectSt)
    (hrec : ∀ id v s out r, recur id v s out = some r → RestoresTo c v s r) :
    ∀ (id : Id) (v : List Id) (s : List String) (out : List (List String))
      (r : CollectSt),
    collectInnerStep c forest recur id v s out = some r →
    RestoresTo c v s r := by
  intro id v s out r h
  rw [collectInnerStep] at h
  by_cases hr : id = c.root
  · rw [if_pos hr] at h
    cases h
    exact ⟨rfl, [], rfl, by simp⟩
  · rw [if_neg hr] at h
    cases hlk : forest.lookup id with
    | none =>
      rw [hlk] at h
      cases h
      exact ⟨rfl, [], rfl, by simp⟩
    | some ps =>
      rw [hlk] at h
      exact collectStepList_restores c forest recur hrec ps v s out r h

/-- Restoration for `collect_publicly_importable_names` itself: on every
successful return the name stack is restored exactly, and the visited set
is the input one extended by (only) ids at which branches were pruned (a
struct, union or impl block met with a non-empty stack). -/
theorem collect_restores (c : Crate) (forest : Forest) :
    ∀ (fuel : Nat) (id : Id) (v : List Id) (s : List String)
      (out : List (List String)) (r : CollectSt),
    collectF fuel c forest id v s out = some r → RestoresTo c v s r := by
  intro fuel
  induction fuel with
  | zero => intro id v s out r h; cases h
  | succ fuel ih =>
    intro id v s out r h
    rw [collectF, collectStep] at h
    by_cases hv : id ∈ v
    · rw [if_pos hv] at h
      cases h
      exact ⟨rfl, [], rfl, by simp⟩
    · rw [if_neg hv] at h
      cases hget : c.get id with
      | none => rw [hget] at h; cases h
      | some item =>
        rw [hget] at h
        dsimp only at h
        by_cases hpr : s ≠ [] ∧ prunedKind item
        · rw [if_pos hpr] at h
          cases h
          refine ⟨rfl, [id], rfl, ?_⟩
          intro x hx
          rw [List.mem_singleton] at hx
          subst hx
          exact ⟨hv, item, hget, hpr.2⟩
        · rw [if_neg hpr] at h
          cases hsa : stackAction item s with
          | none => rw [hsa] at h; cases h
          | some act =>
            obtain ⟨pushed?, popped?, sp⟩ := act
            rw [hsa] at h
            dsimp only at h
            cases pushed? with
            | none =>
              cases hin : collectInnerStep c forest (collectF fuel c forest)
                  id (id :: v) sp out with
              | none => rw [hin] at h; cases h
              | some r2 =>
                obtain ⟨v2, s2, o2⟩ := r2
                rw [hin] at h
                obtain ⟨hs2, pol, hv2, hpol⟩ :=
                  collectInnerStep_restores c forest _ ih _ _ _ _ _ hin
                dsimp only at hs2 hv2 h
                subst hs2
                have hidv2 : id ∈ v2 := by
                  rw [hv2]
                  exact List.mem_append.mpr (Or.inr (List.mem_cons_self _ _))
                have hidpol : id ∉ pol := by
                  intro hc
                  exact (hpol id hc).1 (List.mem_cons_self _ _)
                have herase : v2.erase id = pol ++ v := by
                  rw [hv2, List.erase_append_right _ hidpol,
                    List.erase_cons_head]
                rw [if_pos hidv2] at h
                cases h
                refine ⟨stackAction_restore item s _ _ _ hsa, pol, herase, ?_⟩
                intro x hx
                obtain ⟨hnx, hit⟩ := hpol x hx
                exact ⟨fun hxv => hnx (List.mem_cons_of_mem _ hxv), hit⟩
            | some n =>
              cases hin : collectInnerStep c forest (collectF fuel c forest)
                  id (id :: v) (n :: sp) out with
              | none => rw [hin] at h; cases h
              | some r2 =>
                obtain ⟨v2, s2, o2⟩ := r2
                rw [hin] at h
                obtain ⟨hs2, pol, hv2, hpol⟩ :=
                  collectInnerStep_restores c forest _ ih _ _ _ _ _ hin
                dsimp only at hs2 hv2 h
                subst hs2
                have hidv2 : id ∈ v2 := by
                  rw [hv2]
                  exact List.mem_append.mpr (Or.inr (List.mem_cons_self _ _))
                have hidpol : id ∉ pol := by
                  intro hc
                  exact (hpol id hc).1 (List.mem_cons_self _ _)
                have herase : v2.erase id = pol ++ v := by
                  rw [hv2, List.erase_append_right _ hidpol,
                    List.erase_cons_head]
                dsimp only at h
                rw [if_pos rfl] at h
                dsimp only at h
                rw [if_pos hidv2] at h
                cases h
                refine ⟨stackAction_restore item s _ _ _ hsa, pol, herase, ?_⟩
                intro x hx
                obtain ⟨hnx, hit⟩ := hpol x hx
                exact ⟨fun hxv => hnx (List.mem_cons_of_mem _ hxv), hit⟩

/-- Counterexample to C5 as stated: the claim's "the id is removed from
the set on exit" fails on a pruned branch — at struct `S` of
`exPollution`, entered with a non-empty stack, the id stays in the
visited set after the call returns. -/
theorem c5_counterexample :
    ¬ (∀ (c : Crate) (forest : Forest) (fuel : Nat) (id : Id) (v : List Id)
         (s : List String) (out : List (List String)) (r : CollectSt),
        collectF fuel c forest id v s out = some r → r.1 = v) := by
  intro hall
  have h := hall exPollution [] 1 2 [] ["X"] [] ([2], ["X"], [])
    (by decide)
  simp at h

/-- Amended C5: path enumeration terminates on every input (each returned
path is a finite list by construction, witnessed concretely on the
recursive glob re-export cycle of `exCycle`); a branch whose id is
already in the path-local active-visited set terminates emitting nothing;
and on every successful exit the name stack is restored exactly while the
id is removed from the visited set on every exit except a pruned branch
(a struct, union or impl block met with a non-empty stack), whose id
remains in the set. -/
theorem c5_amended :
    (∀ (c : Crate) (forest : Forest) (fuel : Nat) (id : Id) (v : List Id)
       (s : List String) (out : List (List String)), id ∈ v →
       collectF (fuel + 1) c forest id v s out = some (v, s, out)) ∧
    (∀ (c : Crate) (forest : Forest) (fuel : Nat) (id : Id) (v : List Id)
       (s : List String) (out : List (List String)) (r : CollectSt),
       collectF fuel c forest id v s out = some r → RestoresTo c v s r) ∧
    ((buildForest exCycle).bind
        (fun f => publiclyImportableNames exCycle f 1) =
      some [["c", "foo"], ["c", "inner", "foo"]]) := by
  refine ⟨?_, fun c forest => collect_restores c forest, rfl⟩
  intro c forest fuel id v s out hv
  rw [collectF, collectStep, if_pos hv]

/-- Witness for the amended C5: the cycle-guard conjunct applied at a
concrete already-visited id, and the restoration conjunct applied at a
concrete successful call. -/
theorem c5_witness :
    collectF 1 exSimple [] 1 [1] [] [] = some ([1], [], []) ∧
    RestoresTo exPollution [] ["X"] ([2], ["X"], []) :=
  ⟨c5_amended.1 exSimple [] 0 1 [1] [] [] (List.mem_singleton_self 1),
   c5_amended.2.1 exPollution [] 1 2 [] ["X"] [] ([2], ["X"], [])
     (by decide)⟩

/-! ## General lemmas about the association-list index and the forest -/

/-- A successful association-list lookup comes from a member pair. -/
theorem lookup_mem {α β : Type} [DecidableEq α] :
    ∀ (l : List (α × β)) (k : α) (v : β),
    l.lookup k = some v → (k, v) ∈ l := by
  intro l
  induction l with
  | nil => intro k v h; cases h
  | cons kv rest ih =>
    intro k v h
    rw [List.lookup] at h
    cases hbe : k == kv.1 with
    | false =>
      rw [hbe] at h
      exact List.mem_cons_of_mem _ (ih k v h)
    | true =>
      rw [hbe] at h
      cases h
      have hk : k = kv.1 := by simpa using hbe
      rw [hk, Prod.mk.eta]
      exact List.mem_cons_self _ _

/-- The index is coherent when every member item carries its own key as
its `id` (rustdoc guarantees this; a `HashMap` also guarantees distinct
keys, assumed separately where needed). -/
abbrev Coherent (c : Crate) : Prop :=
  ∀ kv ∈ c.index, kv.2.id = kv.1

/-- Under coherence, a looked-up item's id is the key it was found at. -/
theorem Coherent.get_id {c : Crate} (hco : Coherent c) {k : Id} {it : Item}
    (h : c.get k = some it) : it.id = k :=
  hco (k, it) (lookup_mem c.index k it h)

/-- Under coherence, every looked-up item can be looked up again at its
own id. -/
theorem Coherent.retrieved {c : Crate} (hco : Coherent c) {k : Id}
    {it : Item} (h : c.get k = some it) : c.get it.id = some it := by
  rw [hco.get_id h]
  exact h

/-- Members of `filterMap c.get` come from ids that look up to them. -/
theorem mem_filterMap_get {c : Crate} {l : List Id} {it : Item}
    (h : it ∈ l.filterMap c.get) : ∃ k, k ∈ l ∧ c.get k = some it := by
  obtain ⟨k, hk, hget⟩ := List.mem_filterMap.mp h
  exact ⟨k, hk, hget⟩

/-- `forestInsert` preserves any binary property of (child, parent)
pairs that holds of the inserted pair. -/
theorem forestInsert_forall (Q : Id → Id → Prop) :
    ∀ (f : Forest) (child : Id) (p? : Option Id),
    (∀ kv ∈ f, ∀ p ∈ kv.2, Q kv.1 p) →
    (∀ p, p? = some p → Q child p) →
    ∀ kv ∈ forestInsert f child p?, ∀ p ∈ kv.2, Q kv.1 p := by
  intro f
  induction f with
  | nil =>
    intro child p? _ hp kv hkv p hp2
    cases hc? : p? with
    | none =>
      subst hc?
      simp only [forestInsert] at hkv
      rw [List.mem_singleton] at hkv
      subst hkv
      cases hp2
    | some q =>
      subst hc?
      simp only [forestInsert] at hkv
      rw [List.mem_singleton] at hkv
      subst hkv
      rw [List.mem_singleton] at hp2
      subst hp2
      exact hp p rfl
  | cons kv0 rest ih =>
    intro child p? hf hp kv hkv p hp2
    obtain ⟨k0, ps0⟩ := kv0
    simp only [forestInsert] at hkv
    by_cases hk : k0 = child
    · rw [if_pos hk] at hkv
      rw [List.mem_cons] at hkv
      rcases hkv with hkv | hkv
      · cases hc? : p? with
        | none =>
          subst hc?
          subst hkv
          exact hf (k0, ps0) (List.mem_cons_self _ _) p hp2
        | some q =>
          subst hc?
          subst hkv
          dsimp only at hp2
          by_cases hq : q ∈ ps0
          · rw [if_pos hq] at hp2
            exact hf (k0, ps0) (List.mem_cons_self _ _) p hp2
          · rw [if_neg hq] at hp2
            rcases List.mem_append.mp hp2 with hmem | hmem
            · exact hf (k0, ps0) (List.mem_cons_self _ _) p hmem
            · rw [List.mem_singleton] at hmem
              subst hmem
              rw [hk]
              exact hp p rfl
      · exact hf kv (List.mem_cons_of_mem _ hkv) p hp2
    · rw [if_neg hk] at hkv
      rw [List.mem_cons] at hkv
      rcases hkv with hkv | hkv
      · subst hkv
        exact hf (k0, ps0) (List.mem_cons_self _ _) p hp2
      · exact ih child p? (fun kv' h' => hf kv' (List.mem_cons_of_mem _ h'))
          hp kv hkv p hp2

/-- Membership in an insertion-sorted list. -/
theorem insertSorted_mem (x y : Id) :
    ∀ (l : List Id), y ∈ insertSorted x l ↔ y = x ∨ y ∈ l := by
  intro l
  induction l with
  | nil => simp [insertSorted]
  | cons z zs ih =>
    rw [insertSorted]
    by_cases hxz : x ≤ z
    · rw [if_pos hxz]
      simp [List.mem_cons]
    · rw [if_neg hxz]
      simp only [List.mem_cons, ih]
      tauto

/-- Membership in the sorted copy of a parent list. -/
theorem sortIds_mem (y : Id) :
    ∀ (l : List Id), y ∈ sortIds l ↔ y ∈ l := by
  intro l
  induction l with
  | nil => simp [sortIds]
  | cons z zs ih =>
    rw [sortIds, List.foldr]
    rw [show List.foldr insertSorted [] zs = sortIds zs from rfl]
    rw [insertSorted_mem, ih]
    exact (List.mem_cons).symm

/-! ## Claim C6: glob imports -/

/-- A successful typedef-equivalence target is itself a looked-up item of
the index. -/
theorem typedef_target_retrieved (c : Crate) (ty : TypedefData)
    (tgt : Item) (h : getTypedefEquivalentReexportTarget c ty = some (some tgt)) :
    ∃ k, c.get k = some tgt := by
  rw [getTypedefEquivalentReexportTarget] at h
  cases hty : ty.type_ with
  | resolvedPath rp =>
    rw [hty] at h
    dsimp only at h
    cases hget : c.get rp.pathId with
    | none => rw [hget] at h; cases h
    | some underlying =>
      rw [hget] at h
      refine ⟨rp.pathId, ?_⟩
      cases hargs : rp.pathArgs with
      | none =>
        rw [hargs] at h
        cases h
        exact hget
      | some gargs =>
        rw [hargs] at h
        cases gargs with
        | parenthesized =>
          cases h
          exact hget
        | angleBracketed args bindings =>
          dsimp only at h
          by_cases hb : bindings = []
          · rw [if_neg (by simp [hb])] at h
            cases hug : underlyingGenerics underlying with
            | none => rw [hug] at h; cases h
            | some ug =>
              rw [hug] at h
              dsimp only at h
              by_cases hl1 : ty.generics.params.length = args.length
              · rw [if_neg (by simp [hl1])] at h
                by_cases hl2 : ug.params.length = args.length
                · rw [if_neg (by simp [hl2])] at h
                  have := checkTypedefParams_target _ _ _ _ _ h
                  rw [this]
                  exact hget
                · rw [if_pos (by simp [hl2])] at h; cases h
              · rw [if_pos (by simp [hl1])] at h; cases h
          · rw [if_pos (by simp [hb])] at h; cases h
  | generic s => rw [hty] at h; cases h
  | otherType n => rw [hty] at h; cases h

/-- A parent argument that never denotes a glob import. -/
def ParentNotGlob (c : Crate) (p? : Option Id) : Prop :=
  ∀ p, p? = some p → ∀ pit, c.get p = some pit →
    ∀ d, pit.inner = .importItem d → d.glob = false

/-- A forest none of whose recorded parents is a glob import. -/
def ForestNoGlobParents (c : Crate) (f : Forest) : Prop :=
  ∀ kv ∈ f, ∀ p ∈ kv.2, ∀ pit, c.get p = some pit →
    ∀ d, pit.inner = .importItem d → d.glob = false

/-- Every child produced by `visitChildren` is itself a looked-up item,
and the parent id passed for it never denotes a glob import. -/
theorem visitChildren_props (c : Crate) (hco : Coherent c) (item : Item)
    (p? : Option Id) (hret : c.get item.id = some item)
    (hpg : ParentNotGlob c p?) (kids : List (Item × Option Id))
    (h : visitChildren c item p? = some kids) :
    ∀ kp ∈ kids, c.get kp.1.id = some kp.1 ∧ ParentNotGlob c kp.2 := by
  intro kp hkp
  cases hi : item.inner with
  | module m =>
    rw [visitChildren, hi] at h
    cases h
    obtain ⟨kid, hkid, hkp⟩ := List.mem_map.mp hkp
    subst hkp
    obtain ⟨k, _, hk⟩ := mem_filterMap_get hkid
    refine ⟨hco.retrieved hk, ?_⟩
    intro p hp pit hpit d hd
    cases hp
    rw [hret] at hpit
    cases hpit
    rw [hi] at hd
    cases hd
  | importItem imp =>
    rw [visitChildren, hi] at h
    dsimp only at h
    cases htgt : imp.target.bind c.get with
    | none =>
      rw [htgt] at h
      cases h
      cases hkp
    | some tgt =>
      rw [htgt] at h
      dsimp only at h
      by_cases hg : imp.glob = true
      · rw [if_pos hg] at h
        cases hit : tgt.inner with
        | module m =>
          rw [hit] at h
          cases h
          obtain ⟨kid, hkid, hkp⟩ := List.mem_map.mp hkp
          subst hkp
          obtain ⟨k, _, hk⟩ := mem_filterMap_get hkid
          exact ⟨hco.retrieved hk, hpg⟩
        | enumItem e =>
          rw [hit] at h
          cases h
          obtain ⟨kid, hkid, hkp⟩ := List.mem_map.mp hkp
          subst hkp
          obtain ⟨k, _, hk⟩ := mem_filterMap_get hkid
          exact ⟨hco.retrieved hk, hpg⟩
        | importItem i2 => rw [hit] at h; cases h
        | structItem s => rw [hit] at h; cases h
        | unionItem u => rw [hit] at h; cases h
        | traitItem t => rw [hit] at h; cases h
        | implBlock i => rw [hit] at h; cases h
        | typedef t => rw [hit] at h; cases h
        | functionItem t => rw [hit] at h; cases h
        | structFieldItem t => rw [hit] at h; cases h
        | variantItem t => rw [hit] at h; cases h
        | otherItem t => rw [hit] at h; cases h
      · rw [if_neg hg] at h
        cases h
        rw [List.mem_singleton] at hkp
        subst hkp
        have htgtget : ∃ k, c.get k = some tgt := by
          cases ht : imp.target with
          | none => rw [ht] at htgt; cases htgt
          | some t =>
            rw [ht] at htgt
            exact ⟨t, htgt⟩
        obtain ⟨k, hk⟩ := htgtget
        refine ⟨hco.retrieved hk, ?_⟩
        intro p hp pit hpit d hd
        cases hp
        rw [hret] at hpit
        cases hpit
        rw [hi] at hd
        cases hd
        simpa using hg
  | structItem s =>
    rw [visitChildren, hi] at h
    cases h
    obtain ⟨kid, hkid, hkp⟩ := List.mem_map.mp hkp
    subst hkp
    obtain ⟨k, _, hk⟩ := mem_filterMap_get hkid
    refine ⟨hco.retrieved hk, ?_⟩
    intro p hp pit hpit d hd
    cases hp
    rw [hret] at hpit
    cases hpit
    rw [hi] at hd
    cases hd
  | enumItem e =>
    rw [visitChildren, hi] at h
    cases h
    obtain ⟨kid, hkid, hkp⟩ := List.mem_map.mp hkp
    subst hkp
    obtain ⟨k, _, hk⟩ := mem_filterMap_get hkid
    refine ⟨hco.retrieved hk, ?_⟩
    intro p hp pit hpit d hd
    cases hp
    rw [hret] at hpit
    cases hpit
    rw [hi] at hd
    cases hd
  | unionItem u =>
    rw [visitChildren, hi] at h
    cases h
    obtain ⟨kid, hkid, hkp⟩ := List.mem_map.mp hkp
    subst hkp
    obtain ⟨k, _, hk⟩ := mem_filterMap_get hkid
    refine ⟨hco.retrieved hk, ?_⟩
    intro p hp pit hpit d hd
    cases hp
    rw [hret] at hpit
    cases hpit
    rw [hi] at hd
    cases hd
  | traitItem t =>
    rw [visitChildren, hi] at h
    cases h
    obtain ⟨kid, hkid, hkp⟩ := List.mem_map.mp hkp
    subst hkp
    obtain ⟨k, _, hk⟩ := mem_filterMap_get hkid
    refine ⟨hco.retrieved hk, ?_⟩
    intro p hp pit hpit d hd
    cases hp
    rw [hret] at hpit
    cases hpit
    rw [hi] at hd
    cases hd
  | implBlock i =>
    rw [visitChildren, hi] at h
    cases h
    obtain ⟨kid, hkid, hkp⟩ := List.mem_map.mp hkp
    subst hkp
    obtain ⟨k, _, hk⟩ := mem_filterMap_get hkid
    refine ⟨hco.retrieved hk, ?_⟩
    intro p hp pit hpit d hd
    cases hp
    rw [hret] at hpit
    cases hpit
    rw [hi] at hd
    cases hd
  | typedef t =>
    rw [visitChildren, hi] at h
    dsimp only at h
    cases hck : getTypedefEquivalentReexportTarget c t with
    | none => rw [hck] at h; cases h
    | some o =>
      rw [hck] at h
      cases o with
      | none =>
        cases h
        cases hkp
      | some tgt =>
        cases h
        rw [List.mem_singleton] at hkp
        subst hkp
        obtain ⟨k, hk⟩ := typedef_target_retrieved c t tgt hck
        refine ⟨hco.retrieved hk, ?_⟩
        intro p hp pit hpit d hd
        cases hp
        rw [hret] at hpit
        cases hpit
        rw [hi] at hd
        cases hd
  | functionItem t =>
    rw [visitChildren, hi] at h
    cases h
    cases hkp
  | structFieldItem t =>
    rw [visitChildren, hi] at h
    cases h
    cases hkp
  | variantItem t =>
    rw [visitChildren, hi] at h
    cases h
    cases hkp
  | otherItem t =>
    rw [visitChildren, hi] at h
    cases h
    cases hkp

/-- The no-glob-parents invariant is preserved by the child-list walk,
given that each recursive call preserves it. -/
theorem visitStepList_no_glob (c : Crate)
    (recur : Forest → List Id → Item → Option Id → Option (Forest × List Id))
    (hrec : ∀ parents v item p? r, recur parents v item p? = some r →
      c.get item.id = some item → ParentNotGlob c p? →
      ForestNoGlobParents c parents → ForestNoGlobParents c r.1) :
    ∀ (kids : List (Item × Option Id)) (parents : Forest) (v : List Id)
      (r : Forest × List Id),
    visitStepList recur parents v kids = some r →
    (∀ kp ∈ kids, c.get kp.1.id = some kp.1 ∧ ParentNotGlob c kp.2) →
    ForestNoGlobParents c parents → ForestNoGlobParents c r.1 := by
  intro kids
  induction kids with
  | nil =>
    intro parents v r h _ hf
    rw [visitStepList] at h
    cases h
    exact hf
  | cons kp rest ih =>
    intro parents v r h hkids hf
    obtain ⟨kit, kparent⟩ := kp
    rw [visitStepList] at h
    cases hc : recur parents v kit kparent with
    | none => rw [hc] at h; cases h
    | some r1 =>
      rw [hc] at h
      obtain ⟨hret1, hpg1⟩ := hkids (kit, kparent) (List.mem_cons_self _ _)
      have hf1 := hrec parents v kit kparent r1 hc hret1 hpg1 hf
      exact ih r1.1 r1.2 r h
        (fun kq hkq => hkids kq (List.mem_cons_of_mem _ hkq)) hf1

/-- The forest built by `visit_root_reachable_public_items` never records
a glob import as a parent. -/
theorem visitF_no_glob (c : Crate) (hco : Coherent c) :
    ∀ (fuel : Nat) (parents : Forest) (v : List Id) (item : Item)
      (p? : Option Id) (r : Forest × List Id),
    visitF fuel c parents v item p? = some r →
    c.get item.id = some item → ParentNotGlob c p? →
    ForestNoGlobParents c parents → ForestNoGlobParents c r.1 := by
  intro fuel
  induction fuel with
  | zero => intro parents v item p? r h _ _ _; cases h
  | succ fuel ih =>
    intro parents v item p? r h hret hpg hf
    rw [visitF, visitStep] at h
    by_cases hfk : filterKeeps item = true
    · rw [if_pos hfk] at h
      dsimp only at h
      have hf1 : ForestNoGlobParents c (forestInsert parents item.id p?) :=
        forestInsert_forall
          (fun _ p => ∀ pit, c.get p = some pit →
            ∀ d, pit.inner = .importItem d → d.glob = false)
          parents item.id p? hf (fun p hp => hpg p hp)
      by_cases hv : item.id ∈ v
      · rw [if_pos hv] at h
        cases h
        exact hf1
      · rw [if_neg hv] at h
        cases hkids : visitChildren c item p? with
        | none => rw [hkids] at h; cases h
        | some kids =>
          rw [hkids] at h
          dsimp only at h
          cases hlist : visitStepList (visitF fuel c)
              (forestInsert parents item.id p?) (item.id :: v) kids with
          | none => rw [hlist] at h; cases h
          | some r2 =>
            obtain ⟨p2, v2⟩ := r2
            rw [hlist] at h
            dsimp only at h
            have hres := visitStepList_no_glob c (visitF fuel c)
              (fun a b cc dd rr hh => ih a b cc dd rr hh) kids _ _ _ hlist
              (visitChildren_props c hco item p? hret hpg kids hkids) hf1
            by_cases hv2 : item.id ∈ v2
            · rw [if_pos hv2] at h
              cases h
              exact hres
            · rw [if_neg hv2] at h
              cases h
    · rw [if_neg hfk] at h
      cases h
      exact hf

/-- The final (sorted) visibility forest never records a glob import as a
parent. -/
theorem buildForest_no_glob (c : Crate) (hco : Coherent c) (f : Forest)
    (h : buildForest c = some f) : ForestNoGlobParents c f := by
  rw [buildForest] at h
  cases hcp : computeParentIdsForPublicItems c with
  | none => rw [hcp] at h; cases h
  | some f0 =>
    rw [hcp] at h
    cases h
    have hf0 : ForestNoGlobParents c f0 := by
      rw [computeParentIdsForPublicItems] at hcp
      cases hroot : c.get c.root with
      | none =>
        rw [hroot] at hcp
        cases hcp
        intro kv hkv
        cases hkv
      | some rootItem =>
        rw [hroot] at hcp
        dsimp only at hcp
        by_cases hvis : rootItem.visibility = .publicVis
        · rw [if_pos hvis] at hcp
          cases hvf : visitF (c.index.length + 1) c [] [] rootItem none with
          | none => rw [hvf] at hcp; cases hcp
          | some r =>
            rw [hvf] at hcp
            cases hcp
            exact visitF_no_glob c hco _ [] [] rootItem none r hvf
              (hco.retrieved hroot) (fun p hp => by cases hp)
              (fun kv hkv => by cases hkv)
        · rw [if_neg hvis] at hcp
          cases hcp
          intro kv hkv
          cases hkv
    intro kv hkv p hp
    obtain ⟨kv0, hkv0, hmap⟩ := List.mem_map.mp hkv
    subst hmap
    dsimp only at hp
    exact hf0 kv0 hkv0 p ((sortIds_mem p kv0.2).mp hp)

/-- Claim C6: (1) the built forest never records a glob import as a
reachability parent; (2) the forest builder recurses into the contents of
a glob-imported module, and (3) into a glob-imported enum's variants,
in both cases with the parent of the glob import itself propagated; (4)
during path enumeration a glob import pushes no name; and concretely at
`exGlob` (`pub use inner::*;`): `foo` is importable as `g::foo` and
as `g::inner::foo` (under the original module path), the glob import
never appearing as a path segment, and the forest records parents
`[0, 2]` for `foo` — the glob import (id 3) is not among them. -/
theorem c6_glob_imports :
    (∀ (c : Crate) (f : Forest), Coherent c → buildForest c = some f →
       ForestNoGlobParents c f) ∧
    (∀ (c : Crate) (item : Item) (p? : Option Id) (imp : ImportData)
       (tgt : Item) (m : ModuleData),
       item.inner = .importItem imp → imp.glob = true →
       imp.target.bind c.get = some tgt → tgt.inner = .module m →
       visitChildren c item p? =
         some ((m.items.filterMap c.get).map (fun it => (it, p?)))) ∧
    (∀ (c : Crate) (item : Item) (p? : Option Id) (imp : ImportData)
       (tgt : Item) (e : EnumData),
       item.inner = .importItem imp → imp.glob = true →
       imp.target.bind c.get = some tgt → tgt.inner = .enumItem e →
       visitChildren c item p? =
         some ((e.variants.filterMap c.get).map (fun it => (it, p?)))) ∧
    (∀ (item : Item) (imp : ImportData) (stack : List String),
       item.inner = .importItem imp → imp.glob = true →
       stackAction item stack = some (none, none, stack)) ∧
    ((buildForest exGlob).bind
        (fun f => publiclyImportableNames exGlob f 1) =
      some [["g", "foo"], ["g", "inner", "foo"]]) ∧
    (buildForest exGlob = some [(0, []), (2, [0]), (1, [0, 2]), (3, [0])]) := by
  refine ⟨fun c f hco h => buildForest_no_glob c hco f h, ?_, ?_, ?_, rfl,
    rfl⟩
  · intro c item p? imp tgt m hi hg htgt hit
    rw [visitChildren, hi]
    dsimp only
    rw [htgt]
    dsimp only
    rw [if_pos hg, hit]
  · intro c item p? imp tgt e hi hg htgt hit
    rw [visitChildren, hi]
    dsimp only
    rw [htgt]
    dsimp only
    rw [if_pos hg, hit]
  · intro item imp stack hi hg
    rw [stackAction, hi]
    dsimp only
    rw [if_pos hg]

/-- Witness for C6: its general conjuncts applied at the concrete glob
crate `exGlob`, at a glob import of the `exEnums` enum, and at the
glob-import item itself. -/
theorem c6_witness :
    ForestNoGlobParents exGlob [(0, []), (2, [0]), (1, [0, 2]), (3, [0])] ∧
    visitChildren exEnums
      { id := 9, name? := some "E", crateId := 0,
        visibility := .publicVis,
        inner := .importItem { name := "E", target := some 2,
                               glob := true } }
      (some 0) =
      some ((([3] : List Id).filterMap exEnums.get).map
        (fun it => (it, some 0))) ∧
    stackAction
      { id := 3, name? := some "inner", crateId := 0,
        visibility := .publicVis,
        inner := .importItem { name := "inner", target := some 2,
                               glob := true } }
      ["x"] = some (none, none, ["x"]) :=
  ⟨c6_glob_imports.1 exGlob [(0, []), (2, [0]), (1, [0, 2]), (3, [0])]
      (by decide) rfl,
   c6_glob_imports.2.2.1 exEnums
     { id := 9, name? := some "E", crateId := 0,
       visibility := .publicVis,
       inner := .importItem { name := "E", target := some 2,
                              glob := true } }
     (some 0) { name := "E", target := some 2, glob := true }
     { id := 2, name? := some "Foo", crateId := 0,
       visibility := .publicVis,
       inner := .enumItem { generics := { params := [] },
                            variants := [3], impls := [4] } }
     { generics := { params := [] }, variants := [3], impls := [4] }
     rfl rfl rfl rfl,
   c6_glob_imports.2.2.2.1
     { id := 3, name? := some "inner", crateId := 0,
       visibility := .publicVis,
       inner := .importItem { name := "inner", target := some 2,
                              glob := true } }
     { name := "inner", target := some 2, glob := true } ["x"] rfl rfl⟩

/-! ## Claim C9: the builtin-trait synthesizer -/

/-- A member key can always be looked up. -/
theorem mem_lookup_isSome {α β : Type} [DecidableEq α] :
    ∀ (l : List (α × β)) (k : α) (v : β), (k, v) ∈ l →
    (l.lookup k).isSome := by
  intro l
  induction l with
  | nil => intro k v h; cases h
  | cons kv rest ih =>
    intro k v h
    rw [List.lookup]
    cases hbe : k == kv.1 with
    | true => rfl
    | false =>
      rw [List.mem_cons] at h
      rcases h with h | h
      · subst h
        simp at hbe
      · exact ih k v h

/-- Every entry the builtin-trait synthesizer registers is a `newTrait`
keyed by its own id. -/
theorem createManualTraits_shape (c : Crate) :
    ∀ kv ∈ createManuallyInlinedBuiltinTraits c,
    ∃ m cid, m ∈ manualTraitItems ∧ kv.2 = newTrait m kv.1 cid := by
  rw [createManuallyInlinedBuiltinTraits]
  have hgen : ∀ (l : List (Id × Item)) (acc : List (Id × Item)),
      (∀ kv ∈ acc, ∃ m cid, m ∈ manualTraitItems ∧ kv.2 = newTrait m kv.1 cid) →
      ∀ kv ∈ l.foldl
        (fun acc kv =>
          match kv.2.inner with
          | .implBlock d =>
            match d.traitPath with
            | some path =>
              match manualTraitItems.find? (fun m => m.name == path.pathName) with
              | some m =>
                match c.paths.lookup path.pathId with
                | some summaryCrateId =>
                  (path.pathId, newTrait m path.pathId summaryCrateId) :: acc
                | none => acc
              | none => acc
            | none => acc
          | _ => acc) acc,
      ∃ m cid, m ∈ manualTraitItems ∧ kv.2 = newTrait m kv.1 cid := by
    intro l
    induction l with
    | nil => intro acc hacc kv hkv; exact hacc kv hkv
    | cons x xs ih =>
      intro acc hacc kv hkv
      rw [List.foldl] at hkv
      refine ih _ ?_ kv hkv
      intro kv' hkv'
      cases hi : x.2.inner with
      | implBlock d =>
        rw [hi] at hkv'
        dsimp only at hkv'
        cases hp : d.traitPath with
        | none =>
          rw [hp] at hkv'
          exact hacc kv' hkv'
        | some path =>
          rw [hp] at hkv'
          dsimp only at hkv'
          cases hm : manualTraitItems.find?
              (fun m => m.name == path.pathName) with
          | none =>
            rw [hm] at hkv'
            exact hacc kv' hkv'
          | some m =>
            rw [hm] at hkv'
            dsimp only at hkv'
            cases hs : c.paths.lookup path.pathId with
            | none =>
              rw [hs] at hkv'
              exact hacc kv' hkv'
            | some cid =>
              rw [hs] at hkv'
              dsimp only at hkv'
              rw [List.mem_cons] at hkv'
              rcases hkv' with hkv' | hkv'
              · subst hkv'
                exact ⟨m, cid, List.mem_of_find?_eq_some hm, rfl⟩
              · exact hacc kv' hkv'
      | module x =>
        rw [hi] at hkv'
        exact hacc kv' hkv'
      | importItem x =>
        rw [hi] at hkv'
        exact hacc kv' hkv'
      | structItem x =>
        rw [hi] at hkv'
        exact hacc kv' hkv'
      | enumItem x =>
        rw [hi] at hkv'
        exact hacc kv' hkv'
      | unionItem x =>
        rw [hi] at hkv'
        exact hacc kv' hkv'
      | traitItem x =>
        rw [hi] at hkv'
        exact hacc kv' hkv'
      | typedef x =>
        rw [hi] at hkv'
        exact hacc kv' hkv'
      | functionItem x =>
        rw [hi] at hkv'
        exact hacc kv' hkv'
      | structFieldItem x =>
        rw [hi] at hkv'
        exact hacc kv' hkv'
      | variantItem x =>
        rw [hi] at hkv'
        exact hacc kv' hkv'
      | otherItem x =>
        rw [hi] at hkv'
        exact hacc kv' hkv'
  exact hgen c.index [] (fun kv hkv => by cases hkv)

/-- The synthesizer's fold only prepends, so a key once present stays
present. -/
theorem createManualTraits_complete (c : Crate) :
    ∀ (kv : Id × Item) (d : ImplData) (path : RustPath)
      (m : ManualTraitItem) (cid : Nat),
    kv ∈ c.index → kv.2.inner = .implBlock d → d.traitPath = some path →
    manualTraitItems.find? (fun mt => mt.name == path.pathName) = some m →
    c.paths.lookup path.pathId = some cid →
    ∃ v, (path.pathId, v) ∈ createManuallyInlinedBuiltinTraits c := by
  rw [createManuallyInlinedBuiltinTraits]
  have hkeep : ∀ (l : List (Id × Item)) (acc : List (Id × Item)) (k : Id)
      (v : Item), (k, v) ∈ acc →
      ∃ v', (k, v') ∈ l.foldl
        (fun acc kv =>
          match kv.2.inner with
          | .implBlock d =>
            match d.traitPath with
            | some path =>
              match manualTraitItems.find? (fun m => m.name == path.pathName) with
              | some m =>
                match c.paths.lookup path.pathId with
                | some summaryCrateId =>
                  (path.pathId, newTrait m path.pathId summaryCrateId) :: acc
                | none => acc
              | none => acc
            | none => acc
          | _ => acc) acc := by
    have hsub : ∀ (acc : List (Id × Item)) (x : Id × Item) (k : Id)
        (v : Item), (k, v) ∈ acc →
        (k, v) ∈ (match x.2.inner with
          | .implBlock d =>
            match d.traitPath with
            | some path =>
              match manualTraitItems.find?
                  (fun (m : ManualTraitItem) => m.name == path.pathName) with
              | some m =>
                match c.paths.lookup path.pathId with
                | some summaryCrateId =>
                  (path.pathId, newTrait m path.pathId summaryCrateId) :: acc
                | none => acc
              | none => acc
            | none => acc
          | _ => acc) := by
      intro acc x k v h
      cases hi : x.2.inner <;> try dsimp only
      case implBlock d =>
        cases hp : d.traitPath <;> try dsimp only
        case none => exact h
        case some path =>
          cases hm : manualTraitItems.find?
              (fun (m : ManualTraitItem) => m.name == path.pathName)
            <;> try dsimp only
          case none => exact h
          case some m =>
            cases hs : c.paths.lookup path.pathId <;> try dsimp only
            case none => exact h
            case some cid => exact List.mem_cons_of_mem _ h
      all_goals exact h
    intro l
    induction l with
    | nil => intro acc k v h; exact ⟨v, h⟩
    | cons x xs ih =>
      intro acc k v h
      rw [List.foldl]
      exact ih _ k v (hsub acc x k v h)
  intro kv d path m cid hmem hi hp hm hs
  obtain ⟨l1, l2, hsplit⟩ := List.append_of_mem hmem
  rw [hsplit, List.foldl_append, List.foldl_cons, hi]
  dsimp only
  rw [hp]
  dsimp only
  rw [hm]
  dsimp only
  rw [hs]
  exact hkeep l2 _ path.pathId (newTrait m path.pathId cid)
    (List.mem_cons_self _ _)

/-- Claim C9: for every impl block whose trait reference's unqualified
name is in the fixed builtin table and whose id is in the
external-summary map, a trait item is registered under that id; every
registered item is a synthesized `newTrait` — Public, with no generic
parameters, no bounds, no member items, and auto/unsafe flags from the
static table — so default-method lookups against it find no items. -/
theorem c9_builtin_trait_synthesis :
    (∀ (c : Crate) (kv : Id × Item) (d : ImplData) (path : RustPath)
       (m : ManualTraitItem) (cid : Nat),
       kv ∈ c.index → kv.2.inner = .implBlock d → d.traitPath = some path →
       manualTraitItems.find? (fun mt => mt.name == path.pathName) = some m →
       c.paths.lookup path.pathId = some cid →
       (((createManuallyInlinedBuiltinTraits c).lookup path.pathId)).isSome) ∧
    (∀ (c : Crate) (i : Id) (it : Item),
       (createManuallyInlinedBuiltinTraits c).lookup i = some it →
       ∃ m cid, m ∈ manualTraitItems ∧ it = newTrait m i cid) ∧
    (∀ (m : ManualTraitItem) (i : Id) (cid : Nat),
       (newTrait m i cid).visibility = .publicVis ∧
       (newTrait m i cid).name? = some m.name ∧
       (newTrait m i cid).inner = .traitItem
         { isAuto := m.isAuto, isUnsafe := m.isUnsafe, items := [],
           generics := { params := [] }, bounds := [],
           implementations := [] }) := by
  refine ⟨?_, ?_, fun m i cid => ⟨rfl, rfl, rfl⟩⟩
  · intro c kv d path m cid hmem hi hp hm hs
    obtain ⟨v, hv⟩ := createManualTraits_complete c kv d path m cid hmem hi hp hm hs
    exact mem_lookup_isSome _ _ _ hv
  · intro c i it h
    have hmem := lookup_mem _ _ _ h
    obtain ⟨m, cid, hmmem, hshape⟩ := createManualTraits_shape c (i, it) hmem
    exact ⟨m, cid, hmmem, hshape⟩

/-- Witness for C9 at the concrete crate `exBuiltin`: the `Debug` impl's
trait id is registered, and the registered item has the synthesized
shape. -/
theorem c9_witness :
    ((createManuallyInlinedBuiltinTraits exBuiltin).lookup 9).isSome ∧
    (∃ m cid, m ∈ manualTraitItems ∧
      newTrait ⟨"Debug", false, false⟩ 9 42 = newTrait m 9 cid) :=
  ⟨c9_builtin_trait_synthesis.1 exBuiltin
      (1, { id := 1, name? := none, crateId := 0,
            visibility := .defaultVis,
            inner := .implBlock { traitPath := some (.mk 9 "Debug" none),
                                  items := [],
                                  providedTraitMethods := [] } })
      { traitPath := some (.mk 9 "Debug" none), items := [],
        providedTraitMethods := [] }
      (.mk 9 "Debug" none) ⟨"Debug", false, false⟩ 42
      (List.mem_singleton_self _) rfl rfl rfl rfl,
   c9_builtin_trait_synthesis.2.1 exBuiltin 9
      (newTrait ⟨"Debug", false, false⟩ 9 42) rfl⟩

/-! ## Claim C10: absent or non-public root -/

/-- Counterexample to C10 as stated: with the root present but
`crate`-visible (`exPrivateRoot`), the visibility forest is indeed empty,
yet `publicly_importable_names` of the root id itself returns the
singleton path `[["r"]]` (the inner step emits the stack as soon as it
sees the root id, before consulting the forest) — not the empty set for
every id. -/
theorem c10_counterexample :
    ¬ (∀ (c : Crate) (f : Forest),
        (∀ rt, c.get c.root = some rt → rt.visibility ≠ .publicVis) →
        buildForest c = some f →
        ∀ (id : Id) (ps : List (List String)),
          publiclyImportableNames c f id = some ps → ps = []) := by
  intro hall
  have h := hall exPrivateRoot []
    (by
      intro rt hrt
      have : rt = { id := 0, name? := some "r", crateId := 0,
                    visibility := .crateVis,
                    inner := .module { items := [1] } } := by
        have heq : exPrivateRoot.get exPrivateRoot.root =
            some { id := 0, name? := some "r", crateId := 0,
                   visibility := .crateVis,
                   inner := .module { items := [1] } } := rfl
        rw [heq] at hrt
        cases hrt
        rfl
      rw [this]
      decide)
    rfl 0 [["r"]] rfl
  cases h

/-- All values of a multimap satisfy `P`. -/
def MultiVals {κ ν : Type} (P : ν → Prop) (m : List (κ × List ν)) : Prop :=
  ∀ kv ∈ m, ∀ x ∈ kv.2, P x

/-- `multiInsert` preserves a property of all stored values when the
inserted value has it. -/
theorem multiInsert_vals {κ ν : Type} [DecidableEq κ] (P : ν → Prop) :
    ∀ (m : List (κ × List ν)) (k : κ) (v : ν),
    MultiVals P m → P v → MultiVals P (multiInsert m k v) := by
  intro m
  induction m with
  | nil =>
    intro k v _ hv kv hkv x hx
    rw [multiInsert] at hkv
    rw [List.mem_singleton] at hkv
    subst hkv
    rw [List.mem_singleton] at hx
    subst hx
    exact hv
  | cons kv0 rest ih =>
    intro k v hm hv kv hkv x hx
    obtain ⟨k0, vs0⟩ := kv0
    simp only [multiInsert] at hkv
    by_cases hk : k0 = k
    · rw [if_pos hk] at hkv
      rw [List.mem_cons] at hkv
      rcases hkv with hkv | hkv
      · subst hkv
        rcases List.mem_append.mp hx with hx | hx
        · exact hm (k0, vs0) (List.mem_cons_self _ _) x hx
        · rw [List.mem_singleton] at hx
          subst hx
          exact hv
      · exact hm kv (List.mem_cons_of_mem _ hkv) x hx
    · rw [if_neg hk] at hkv
      rw [List.mem_cons] at hkv
      rcases hkv with hkv | hkv
      · subst hkv
        exact hm (k0, vs0) (List.mem_cons_self _ _) x hx
      · exact ih k v (fun kv' h' => hm kv' (List.mem_cons_of_mem _ h')) hv
          kv hkv x hx

/-- Inserting one item under each of its paths preserves a value
property that the item has (or vacuously when it has no paths). -/
theorem pathsFold_vals (P : Item → Prop) (it : Item) :
    ∀ (paths : List ImportablePath) (acc : ImportsIndex),
    MultiVals P acc → (paths = [] ∨ P it) →
    MultiVals P (paths.foldl (fun m path => multiInsert m path it) acc) := by
  intro paths
  induction paths with
  | nil => intro acc hacc _; exact hacc
  | cons p ps ih =>
    intro acc hacc hp
    rcases hp with hp | hp
    · cases hp
    · rw [List.foldl_cons]
      exact ih _ (multiInsert_vals P acc p it hacc hp) (Or.inr hp)

/-- The `Option`-threaded fold of the imports-index construction fails
permanently once failed. -/
theorem importsFold_none (c : Crate) (forest : Forest) :
    ∀ (l : List (Id × Item)),
    l.foldl (importsStep c forest) none = none := by
  intro l
  induction l with
  | nil => rfl
  | cons x xs ih => rw [List.foldl_cons]; exact ih

/-- Every value stored by the imports-index construction satisfies any
property that holds of each item actually inserted (an item of an
indexed kind whose path set is non-empty). -/
theorem buildImportsIndex_vals (c : Crate) (forest : Forest)
    (P : Item → Prop)
    (hins : ∀ kv ∈ c.index, importsIndexedKind kv.2 = true →
      ∀ paths, publiclyImportableNames c forest kv.2.id = some paths →
        paths = [] ∨ P kv.2) :
    ∀ idx, buildImportsIndex c forest = some idx → MultiVals P idx := by
  rw [buildImportsIndex]
  have hgen : ∀ (l : List (Id × Item)) (acc : ImportsIndex),
      (∀ kv ∈ l, importsIndexedKind kv.2 = true →
        ∀ paths, publiclyImportableNames c forest kv.2.id = some paths →
          paths = [] ∨ P kv.2) →
      MultiVals P acc →
      ∀ idx, l.foldl (importsStep c forest) (some acc) = some idx →
        MultiVals P idx := by
    intro l
    induction l with
    | nil =>
      intro acc _ hacc idx h
      cases h
      exact hacc
    | cons x xs ih =>
      intro acc hl hacc idx h
      rw [List.foldl_cons, importsStep] at h
      by_cases hk : importsIndexedKind x.2 = true
      · rw [if_pos hk] at h
        cases hp : publiclyImportableNames c forest x.2.id with
        | none =>
          rw [hp] at h
          dsimp only at h
          rw [importsFold_none c forest xs] at h
          cases h
        | some paths =>
          rw [hp] at h
          exact ih _ (fun kv hkv => hl kv (List.mem_cons_of_mem _ hkv))
            (pathsFold_vals P x.2 paths acc hacc
              (hl x (List.mem_cons_self _ _) hk paths hp)) idx h
      · rw [if_neg hk] at h
        exact ih _ (fun kv hkv => hl kv (List.mem_cons_of_mem _ hkv))
          hacc idx h
  exact fun idx h => hgen c.index [] hins (fun kv hkv => by cases hkv) idx h

/-- Amended C10: if the crate root id is absent from the item index, or
the root item's visibility is anything other than Public, then the
visibility forest is empty and `publicly_importable_names` returns the
empty set for every id other than the root id itself (the root, when
present in the index, still emits the path made of its own name); and
the import index consequently holds entries only for items carrying the
root id (the impl index never depends on reachability at all). -/
theorem c10_private_root (c : Crate)
    (hroot : ∀ rt, c.get c.root = some rt → rt.visibility ≠ .publicVis) :
    buildForest c = some [] ∧
    (∀ (id : Id) (ps : List (List String)), id ≠ c.root →
       publiclyImportableNames c [] id = some ps → ps = []) ∧
    (∀ (m : IndexedCrateModel), IndexedCrateNew c = some m →
       MultiVals (fun it => it.id = c.root) m.importsIndex) := by
  have hforest : buildForest c = some [] := by
    rw [buildForest, computeParentIdsForPublicItems]
    cases hr : c.get c.root with
    | none => rfl
    | some rt =>
      dsimp only
      rw [if_neg (hroot rt hr)]
      rfl
  have hempty : ∀ (id : Id) (ps : List (List String)), id ≠ c.root →
      publiclyImportableNames c [] id = some ps → ps = [] := by
    intro id ps hne h
    rw [publiclyImportableNames] at h
    split at h
    · cases hc : collectF (c.index.length + 1) c [] id [] [] [] with
      | none => rw [hc] at h; cases h
      | some r =>
        rw [hc] at h
        simp only [Option.map_some', Option.some.injEq] at h
        rw [← h]
        exact collect_start_no_entry c [] id _ r rfl hne hc
    · simp only [Option.some.injEq] at h
      exact h.symm
  refine ⟨hforest, hempty, ?_⟩
  intro m hm
  rw [IndexedCrateNew, hforest] at hm
  dsimp only at hm
  cases hii : buildImportsIndex c [] with
  | none => rw [hii] at hm; cases hm
  | some ii =>
    rw [hii] at hm
    dsimp only at hm
    cases himpl : buildImplIndex c with
    | none => rw [himpl] at hm; cases hm
    | some impli =>
      rw [himpl] at hm
      cases hm
      exact buildImportsIndex_vals c [] (fun it => it.id = c.root)
        (by
          intro kv _ _ paths hp
          by_cases hid : kv.2.id = c.root
          · exact Or.inr hid
          · exact Or.inl (hempty kv.2.id paths hid hp))
        ii hii

/-- Witness for the amended C10 at `exPrivateRoot`: the forest is empty,
and the non-root function item has no importable paths. -/
theorem c10_witness :
    buildForest exPrivateRoot = some [] ∧
    (([] : List (List String)) = []) :=
  ⟨(c10_private_root exPrivateRoot
      (by
        intro rt hrt
        have heq : exPrivateRoot.get exPrivateRoot.root =
            some { id := 0, name? := some "r", crateId := 0,
                   visibility := .crateVis,
                   inner := .module { items := [1] } } := rfl
        rw [heq] at hrt
        cases hrt
        decide)).1,
   (c10_private_root exPrivateRoot
      (by
        intro rt hrt
        have heq : exPrivateRoot.get exPrivateRoot.root =
            some { id := 0, name? := some "r", crateId := 0,
                   visibility := .crateVis,
                   inner := .module { items := [1] } } := rfl
        rw [heq] at hrt
        cases hrt
        decide)).2.1 1 [] (by decide) rfl⟩

/-! ## Claim C8: the impl index -/

/-- Lookup at the head key. -/
theorem lookup_cons_eq {κ ν : Type} [DecidableEq κ] (k : κ) (v : ν)
    (rest : List (κ × ν)) : ((k, v) :: rest).lookup k = some v := by
  rw [List.lookup]
  rw [show (k == k) = true from by simp]

/-- Lookup skips a head with a different key. -/
theorem lookup_cons_ne {κ ν : Type} [DecidableEq κ] {k' k : κ} (v : ν)
    (rest : List (κ × ν)) (h : k' ≠ k) :
    ((k, v) :: rest).lookup k' = rest.lookup k' := by
  rw [List.lookup]
  rw [show (k' == k) = false from by simpa using h]

/-- An (impl item, member item) pair recorded in a multimap under a
key. -/
def EntryContains {κ ν : Type} [DecidableEq κ] (idx : List (κ × List ν))
    (k : κ) (pr : ν) : Prop :=
  ∃ vs, idx.lookup k = some vs ∧ pr ∈ vs

/-- `multiInsert` records the inserted value under its key. -/
theorem multiInsert_contains_self {κ ν : Type} [DecidableEq κ] :
    ∀ (m : List (κ × List ν)) (k : κ) (v : ν),
    EntryContains (multiInsert m k v) k v := by
  intro m
  induction m with
  | nil =>
    intro k v
    exact ⟨[v], lookup_cons_eq k [v] [], List.mem_singleton_self _⟩
  | cons kv rest ih =>
    intro k v
    obtain ⟨k0, vs0⟩ := kv
    simp only [multiInsert]
    by_cases hk : k0 = k
    · subst hk
      rw [if_pos rfl]
      exact ⟨vs0 ++ [v], lookup_cons_eq _ _ _,
        List.mem_append.mpr (Or.inr (List.mem_singleton_self _))⟩
    · rw [if_neg hk]
      obtain ⟨vs, hvs, hmem⟩ := ih k v
      exact ⟨vs, by rw [lookup_cons_ne vs0 _ (fun hc => hk hc.symm)]; exact hvs,
        hmem⟩

/-- `multiInsert` keeps every previously recorded pair. -/
theorem multiInsert_contains_mono {κ ν : Type} [DecidableEq κ] :
    ∀ (m : List (κ × List ν)) (k : κ) (v : ν) (k' : κ) (v' : ν),
    EntryContains m k' v' → EntryContains (multiInsert m k v) k' v' := by
  intro m
  induction m with
  | nil =>
    intro k v k' v' h
    obtain ⟨vs, hvs, _⟩ := h
    cases hvs
  | cons kv rest ih =>
    intro k v k' v' h
    obtain ⟨k0, vs0⟩ := kv
    obtain ⟨vs, hvs, hmem⟩ := h
    simp only [multiInsert]
    by_cases hk : k0 = k
    · subst hk
      rw [if_pos rfl]
      by_cases hk' : k' = k0
      · subst hk'
        rw [lookup_cons_eq] at hvs
        injection hvs with heq
        subst heq
        exact ⟨vs0 ++ [v], lookup_cons_eq _ _ _,
          List.mem_append.mpr (Or.inl hmem)⟩
      · rw [lookup_cons_ne _ _ hk'] at hvs
        exact ⟨vs, by rw [lookup_cons_ne _ _ hk']; exact hvs, hmem⟩
    · rw [if_neg hk]
      by_cases hk' : k' = k0
      · subst hk'
        rw [lookup_cons_eq] at hvs
        injection hvs with heq
        subst heq
        exact ⟨vs0, lookup_cons_eq _ _ _, hmem⟩
      · rw [lookup_cons_ne _ _ hk'] at hvs
        obtain ⟨vs', hvs', hmem'⟩ := ih k v k' v' ⟨vs, hvs, hmem⟩
        exact ⟨vs', by rw [lookup_cons_ne _ _ hk']; exact hvs', hmem'⟩

/-- A fold whose step keeps recorded pairs keeps recorded pairs. -/
theorem foldl_contains_mono {κ ν α : Type} [DecidableEq κ]
    (step : List (κ × List ν) → α → List (κ × List ν))
    (hstep : ∀ m x k v, EntryContains m k v → EntryContains (step m x) k v) :
    ∀ (l : List α) (m : List (κ × List ν)) (k : κ) (v : ν),
    EntryContains m k v → EntryContains (l.foldl step m) k v := by
  intro l
  induction l with
  | nil => intro m k v h; exact h
  | cons x xs ih =>
    intro m k v h
    rw [List.foldl_cons]
    exact ih _ k v (hstep m x k v h)

/-- The declared-member insertion step keeps recorded pairs. -/
theorem implNamedInsert_mono (ownerId : Id) (implItem : Item)
    (m : ImplIndex) (x : Item) (k : Id × String) (v : Item × Item)
    (h : EntryContains m k v) :
    EntryContains (implNamedInsert ownerId implItem m x) k v := by
  rw [implNamedInsert]
  cases x.name? with
  | none => exact h
  | some nm => exact multiInsert_contains_mono m _ _ k v h

/-- The provided-method insertion step keeps recorded pairs. -/
theorem implProvidedInsert_mono (ownerId : Id) (implItem : Item)
    (provided : List String) (m : ImplIndex) (x : Item) (k : Id × String)
    (v : Item × Item) (h : EntryContains m k v) :
    EntryContains (implProvidedInsert ownerId implItem provided m x) k v := by
  rw [implProvidedInsert]
  cases x.name? with
  | none => exact h
  | some nm =>
    dsimp only
    by_cases hc : provided.contains nm = true
    · rw [if_pos hc]
      exact multiInsert_contains_mono m _ _ k v h
    · rw [if_neg hc]
      exact h

/-- Processing a whole impl block keeps recorded pairs. -/
theorem implIndexAddImpl_mono (c : Crate) (ownerId : Id) (implItem : Item)
    (d : ImplData) (acc : ImplIndex) (k : Id × String) (v : Item × Item)
    (h : EntryContains acc k v) :
    EntryContains (implIndexAddImpl c ownerId implItem d acc) k v := by
  rw [implIndexAddImpl]
  refine foldl_contains_mono _ (fun m x kk vv hh =>
    implNamedInsert_mono ownerId implItem m x kk vv hh) _ _ k v ?_
  cases d.traitPath.bind (fun tp => c.get tp.pathId) with
  | none => exact h
  | some traitDecl =>
    dsimp only
    cases traitDecl.inner <;> try dsimp only
    case traitItem td =>
      exact foldl_contains_mono _ (fun m x kk vv hh =>
        implProvidedInsert_mono ownerId implItem d.providedTraitMethods
          m x kk vv hh) _ _ k v h
    all_goals exact h

/-- Folding the declared-member insertions records every named member. -/
theorem foldl_named_insert (ownerId : Id) (implItem : Item) :
    ∀ (l : List Item) (m : ImplIndex) (x : Item) (nm : String),
    x ∈ l → x.name? = some nm →
    EntryContains (l.foldl (implNamedInsert ownerId implItem) m)
      (ownerId, nm) (implItem, x) := by
  intro l
  induction l with
  | nil => intro m x nm hx _; cases hx
  | cons y ys ih =>
    intro m x nm hx hnm
    rw [List.foldl_cons]
    rw [List.mem_cons] at hx
    rcases hx with hx | hx
    · subst hx
      refine foldl_contains_mono _ (fun m' x' kk vv hh =>
        implNamedInsert_mono ownerId implItem m' x' kk vv hh) ys _ _ _ ?_
      rw [implNamedInsert, hnm]
      exact multiInsert_contains_self m _ _
    · exact ih _ x nm hx hnm

/-- Folding the provided-method insertions records every provided item
whose name the block does not override. -/
theorem foldl_provided_insert (ownerId : Id) (implItem : Item)
    (provided : List String) :
    ∀ (l : List Item) (m : ImplIndex) (x : Item) (nm : String),
    x ∈ l → x.name? = some nm → provided.contains nm = true →
    EntryContains
      (l.foldl (implProvidedInsert ownerId implItem provided) m)
      (ownerId, nm) (implItem, x) := by
  intro l
  induction l with
  | nil => intro m x nm hx _ _; cases hx
  | cons y ys ih =>
    intro m x nm hx hnm hc
    rw [List.foldl_cons]
    rw [List.mem_cons] at hx
    rcases hx with hx | hx
    · subst hx
      refine foldl_contains_mono _ (fun m' x' kk vv hh =>
        implProvidedInsert_mono ownerId implItem provided m' x' kk vv hh)
        ys _ _ _ ?_
      rw [implProvidedInsert, hnm]
      dsimp only
      rw [if_pos hc]
      exact multiInsert_contains_self m _ _
    · exact ih _ x nm hx hnm hc

/-- Processing an impl block records every named member declared in it,
whatever the starting index. -/
theorem implIndexAddImpl_named (c : Crate) (ownerId : Id) (implItem : Item)
    (d : ImplData) (m : ImplIndex) (x : Item) (nm : String)
    (hx : x ∈ d.items.filterMap c.get) (hnm : x.name? = some nm) :
    EntryContains (implIndexAddImpl c ownerId implItem d m)
      (ownerId, nm) (implItem, x) := by
  rw [implIndexAddImpl]
  exact foldl_named_insert ownerId implItem (d.items.filterMap c.get)
    _ x nm hx hnm

/-- Processing an impl block implementing a resolvable trait records
every provided default the block does not override, whatever the
starting index. -/
theorem implIndexAddImpl_provided (c : Crate) (ownerId : Id)
    (implItem : Item) (d : ImplData) (m : ImplIndex) (tp : RustPath)
    (traitDecl : Item) (td : TraitData) (x : Item) (nm : String)
    (htp : d.traitPath = some tp)
    (hdecl : c.get tp.pathId = some traitDecl)
    (hti : traitDecl.inner = ItemEnum.traitItem td)
    (hx : x ∈ td.items.filterMap c.get) (hnm : x.name? = some nm)
    (hprov : d.providedTraitMethods.contains nm = true) :
    EntryContains (implIndexAddImpl c ownerId implItem d m)
      (ownerId, nm) (implItem, x) := by
  rw [implIndexAddImpl]
  refine foldl_contains_mono _ (fun m' x' kk vv hh =>
    implNamedInsert_mono ownerId implItem m' x' kk vv hh) _ _ _ _ ?_
  rw [htp]
  simp only [Option.some_bind]
  rw [hdecl]
  dsimp only
  rw [hti]
  dsimp only
  exact foldl_provided_insert ownerId implItem d.providedTraitMethods
    (td.items.filterMap c.get) m x nm hx hnm hprov

/-- Shape of a successful owner step: the resolved entry was an impl
block whose members and trait defaults were added. -/
theorem implOwnerStep_some (c : Crate) (ownerId : Id) (a : ImplIndex)
    (y : Item) (r : ImplIndex)
    (h : implOwnerStep c ownerId (some a) y = some r) :
    ∃ d, y.inner = ItemEnum.implBlock d ∧
      r = implIndexAddImpl c ownerId y d a := by
  rw [implOwnerStep] at h
  cases hy : y.inner <;> rw [hy] at h <;> try dsimp only at h
  case implBlock d =>
    injection h with h
    exact ⟨d, rfl, h.symm⟩
  all_goals cases h

/-- An owner-step fold whose accumulator already died stays dead. -/
theorem foldl_owner_none (c : Crate) (ownerId : Id) :
    ∀ (l : List Item), l.foldl (implOwnerStep c ownerId) none = none := by
  intro l
  induction l with
  | nil => rfl
  | cons y ys ih => rw [List.foldl_cons]; exact ih

/-- A successful owner-step fold keeps every recorded pair. -/
theorem foldl_owner_mono (c : Crate) (ownerId : Id) (k : Id × String)
    (v : Item × Item) :
    ∀ (l : List Item) (a r : ImplIndex),
    l.foldl (implOwnerStep c ownerId) (some a) = some r →
    EntryContains a k v → EntryContains r k v := by
  intro l
  induction l with
  | nil =>
    intro a r h hc
    injection h with h
    subst h
    exact hc
  | cons y ys ih =>
    intro a r h hc
    rw [List.foldl_cons] at h
    cases hs : implOwnerStep c ownerId (some a) y with
    | none => rw [hs, foldl_owner_none] at h; cases h
    | some a1 =>
      rw [hs] at h
      obtain ⟨d, hy, ha1⟩ := implOwnerStep_some c ownerId a y a1 hs
      subst ha1
      exact ih _ r h (implIndexAddImpl_mono c ownerId y d a k v hc)

/-- A successful owner-step fold over a list containing a given impl
block records every pair that processing the block always records. -/
theorem foldl_owner_entry (c : Crate) (ownerId : Id) (implItem : Item)
    (d : ImplData) (k : Id × String) (v : Item × Item)
    (hblock : implItem.inner = ItemEnum.implBlock d)
    (hall : ∀ m,
      EntryContains (implIndexAddImpl c ownerId implItem d m) k v) :
    ∀ (l : List Item) (a r : ImplIndex),
    implItem ∈ l →
    l.foldl (implOwnerStep c ownerId) (some a) = some r →
    EntryContains r k v := by
  intro l
  induction l with
  | nil => intro a r hmem _; cases hmem
  | cons y ys ih =>
    intro a r hmem h
    rw [List.foldl_cons] at h
    rw [List.mem_cons] at hmem
    cases hs : implOwnerStep c ownerId (some a) y with
    | none => rw [hs, foldl_owner_none] at h; cases h
    | some a1 =>
      rw [hs] at h
      rcases hmem with hmem | hmem
      · subst hmem
        obtain ⟨d1, hy, ha1⟩ := implOwnerStep_some c ownerId a implItem a1 hs
        rw [hblock] at hy
        injection hy with hy
        subst hy
        subst ha1
        exact foldl_owner_mono c ownerId k v ys _ r h (hall a)
      · exact ih _ r hmem h

/-- An index-step fold whose accumulator already died stays dead. -/
theorem foldl_index_none (c : Crate) :
    ∀ (l : List (Id × Item)), l.foldl (implIndexStep c) none = none := by
  intro l
  induction l with
  | nil => rfl
  | cons y ys ih => rw [List.foldl_cons]; exact ih

/-- A successful index-step fold keeps every recorded pair. -/
theorem foldl_index_mono (c : Crate) (k : Id × String) (v : Item × Item) :
    ∀ (l : List (Id × Item)) (a r : ImplIndex),
    l.foldl (implIndexStep c) (some a) = some r →
    EntryContains a k v → EntryContains r k v := by
  intro l
  induction l with
  | nil =>
    intro a r h hc
    injection h with h
    subst h
    exact hc
  | cons y ys ih =>
    intro a r h hc
    rw [List.foldl_cons] at h
    cases hstep : implIndexStep c (some a) y with
    | none => rw [hstep, foldl_index_none] at h; cases h
    | some a1 =>
      rw [hstep] at h
      refine ih _ r h ?_
      rw [implIndexStep] at hstep
      cases hio : implsOf y.2 with
      | none =>
        rw [hio] at hstep
        dsimp only at hstep
        injection hstep with hstep
        subst hstep
        exact hc
      | some impls =>
        rw [hio] at hstep
        dsimp only at hstep
        exact foldl_owner_mono c y.1 k v _ a a1 hstep hc

/-- A successful index fold over a list containing a given owner entry
records every pair every successful owner fold records. -/
theorem foldl_index_entry (c : Crate) (kv : Id × Item) (impls : List Id)
    (k : Id × String) (v : Item × Item)
    (himpls : implsOf kv.2 = some impls)
    (hall : ∀ (m r1 : ImplIndex),
      (impls.filterMap c.get).foldl (implOwnerStep c kv.1) (some m) =
        some r1 →
      EntryContains r1 k v) :
    ∀ (l : List (Id × Item)) (a r : ImplIndex),
    kv ∈ l →
    l.foldl (implIndexStep c) (some a) = some r →
    EntryContains r k v := by
  intro l
  induction l with
  | nil => intro a r hmem _; cases hmem
  | cons y ys ih =>
    intro a r hmem h
    rw [List.foldl_cons] at h
    rw [List.mem_cons] at hmem
    cases hstep : implIndexStep c (some a) y with
    | none => rw [hstep, foldl_index_none] at h; cases h
    | some a1 =>
      rw [hstep] at h
      rcases hmem with hmem | hmem
      · subst hmem
        rw [implIndexStep, himpls] at hstep
        dsimp only at hstep
        exact foldl_index_mono c k v ys a1 r h (hall a a1 hstep)
      · exact ih _ r hmem h

/-- Claim C8: after a successful impl-index construction, for every impl
block attached to a struct, enum or union owner, every named member
declared in the block is recorded under (owner id, member name) mapping
to (impl item, member item); and when the block implements a trait
resolvable in the index, every provided (default-bodied) trait item
whose name the block does not override is recorded under (owner id,
default-method name) mapping to (impl item, default item). -/
theorem c8_impl_index (c : Crate) (idx : ImplIndex) (kv : Id × Item)
    (impls : List Id) (iid : Id) (implItem : Item) (d : ImplData)
    (hidx : buildImplIndex c = some idx)
    (hkv : kv ∈ c.index)
    (himpls : implsOf kv.2 = some impls)
    (hiid : iid ∈ impls)
    (hget : c.get iid = some implItem)
    (hblock : implItem.inner = ItemEnum.implBlock d) :
    (∀ mid x nm, mid ∈ d.items → c.get mid = some x →
      x.name? = some nm →
      EntryContains idx (kv.1, nm) (implItem, x)) ∧
    (∀ tp traitDecl td pid x nm,
      d.traitPath = some tp → c.get tp.pathId = some traitDecl →
      traitDecl.inner = ItemEnum.traitItem td →
      pid ∈ td.items → c.get pid = some x → x.name? = some nm →
      d.providedTraitMethods.contains nm = true →
      EntryContains idx (kv.1, nm) (implItem, x)) := by
  have himplmem : implItem ∈ impls.filterMap c.get :=
    List.mem_filterMap.mpr ⟨iid, hiid, hget⟩
  constructor
  · intro mid x nm hmid hgetx hnm
    have hx : x ∈ d.items.filterMap c.get :=
      List.mem_filterMap.mpr ⟨mid, hmid, hgetx⟩
    exact foldl_index_entry c kv impls (kv.1, nm) (implItem, x) himpls
      (fun m r1 hr1 =>
        foldl_owner_entry c kv.1 implItem d (kv.1, nm) (implItem, x)
          hblock
          (fun m1 => implIndexAddImpl_named c kv.1 implItem d m1 x nm
            hx hnm)
          _ m r1 himplmem hr1)
      c.index [] idx hkv hidx
  · intro tp traitDecl td pid x nm htp hdecl hti hpid hgetx hnm hprov
    have hx : x ∈ td.items.filterMap c.get :=
      List.mem_filterMap.mpr ⟨pid, hpid, hgetx⟩
    exact foldl_index_entry c kv impls (kv.1, nm) (implItem, x) himpls
      (fun m r1 hr1 =>
        foldl_owner_entry c kv.1 implItem d (kv.1, nm) (implItem, x)
          hblock
          (fun m1 => implIndexAddImpl_provided c kv.1 implItem d m1
            tp traitDecl td x nm htp hdecl hti hx hnm hprov)
          _ m r1 himplmem hr1)
      c.index [] idx hkv hidx

/-- Concrete check of the C8 theorem on `exImplCrate`: both the
explicitly declared method `m` and the non-overridden provided trait
method `pm` are recorded in the built impl index under owner id 1. -/
theorem c8_witness :
    EntryContains
      (([((1, "pm"),
        [({ id := 2, name? := none, crateId := 0, visibility := .defaultVis,
              inner := .implBlock
                { traitPath := some (.mk 5 "Tr" none), items := [3],
                  providedTraitMethods := ["pm"] } },
          { id := 6, name? := some "pm", crateId := 0,
              visibility := .defaultVis, inner := .functionItem 0 })]),
       ((1, "m"),
        [({ id := 2, name? := none, crateId := 0, visibility := .defaultVis,
              inner := .implBlock
                { traitPath := some (.mk 5 "Tr" none), items := [3],
                  providedTraitMethods := ["pm"] } },
          { id := 3, name? := some "m", crateId := 0,
              visibility := .defaultVis, inner := .functionItem 0 })])]
        : ImplIndex))
      (1, "m")
      ({ id := 2, name? := none, crateId := 0, visibility := .defaultVis,
              inner := .implBlock
                { traitPath := some (.mk 5 "Tr" none), items := [3],
                  providedTraitMethods := ["pm"] } },
       { id := 3, name? := some "m", crateId := 0,
              visibility := .defaultVis, inner := .functionItem 0 }) ∧
    EntryContains
      (([((1, "pm"),
        [({ id := 2, name? := none, crateId := 0, visibility := .defaultVis,
              inner := .implBlock
                { traitPath := some (.mk 5 "Tr" none), items := [3],
                  providedTraitMethods := ["pm"] } },
          { id := 6, name? := some "pm", crateId := 0,
              visibility := .defaultVis, inner := .functionItem 0 })]),
       ((1, "m"),
        [({ id := 2, name? := none, crateId := 0, visibility := .defaultVis,
              inner := .implBlock
                { traitPath := some (.mk 5 "Tr" none), items := [3],
                  providedTraitMethods := ["pm"] } },
          { id := 3, name? := some "m", crateId := 0,
              visibility := .defaultVis, inner := .functionItem 0 })])]
        : ImplIndex))
      (1, "pm")
      ({ id := 2, name? := none, crateId := 0, visibility := .defaultVis,
              inner := .implBlock
                { traitPath := some (.mk 5 "Tr" none), items := [3],
                  providedTraitMethods := ["pm"] } },
       { id := 6, name? := some "pm", crateId := 0,
              visibility := .defaultVis, inner := .functionItem 0 }) :=
  have h := c8_impl_index exImplCrate
    [((1, "pm"),
        [({ id := 2, name? := none, crateId := 0, visibility := .defaultVis,
              inner := .implBlock
                { traitPath := some (.mk 5 "Tr" none), items := [3],
                  providedTraitMethods := ["pm"] } },
          { id := 6, name? := some "pm", crateId := 0,
              visibility := .defaultVis, inner := .functionItem 0 })]),
       ((1, "m"),
        [({ id := 2, name? := none, crateId := 0, visibility := .defaultVis,
              inner := .implBlock
                { traitPath := some (.mk 5 "Tr" none), items := [3],
                  providedTraitMethods := ["pm"] } },
          { id := 3, name? := some "m", crateId := 0,
              visibility := .defaultVis, inner := .functionItem 0 })])]
    (1, { id := 1, name? := some "S", crateId := 0,
          visibility := .publicVis,
          inner := .structItem
            { kind := .unitKind, generics := { params := [] },
              impls := [2] } })
    [2] 2
    { id := 2, name? := none, crateId := 0, visibility := .defaultVis,
              inner := .implBlock
                { traitPath := some (.mk 5 "Tr" none), items := [3],
                  providedTraitMethods := ["pm"] } }
    { traitPath := some (.mk 5 "Tr" none), items := [3],
      providedTraitMethods := ["pm"] }
    rfl
    (List.mem_cons_of_mem _ (List.mem_cons_self _ _))
    rfl (by decide) rfl rfl
  ⟨h.1 3
     { id := 3, name? := some "m", crateId := 0,
              visibility := .defaultVis, inner := .functionItem 0 }
     "m" (by decide) rfl rfl,
   h.2 (.mk 5 "Tr" none)
     { id := 5, name? := some "Tr", crateId := 0,
       visibility := .publicVis,
       inner := .traitItem
         { isAuto := false, isUnsafe := false, items := [6],
           generics := { params := [] }, bounds := [],
           implementations := [] } }
     { isAuto := false, isUnsafe := false, items := [6],
       generics := { params := [] }, bounds := [],
       implementations := [] }
     6
     { id := 6, name? := some "pm", crateId := 0,
              visibility := .defaultVis, inner := .functionItem 0 }
     "pm" rfl rfl rfl (by decide) rfl rfl rfl⟩

/-! ## Claim C2: forest entries and public reachability -/

/-- A key is recorded in the forest. -/
abbrev HasKey (f : Forest) (k : Id) : Prop := k ∈ f.map Prod.fst

/-- `kid` is produced (for some parent argument) by the per-kind child
recursion of the forest builder run on `parent`. -/
def ChildStep (c : Crate) (parent kid : Item) : Prop :=
  ∃ p? q? kids, visitChildren c parent p? = some kids ∧ (kid, q?) ∈ kids

/-- Public reachability from the crate root: the root item itself when it
is `Public`, and every child that survives the visibility filter of an
already reachable item. -/
inductive Reach (c : Crate) : Item → Prop
  | root : ∀ rootItem, c.get c.root = some rootItem →
      rootItem.visibility = .publicVis → Reach c rootItem
  | child : ∀ parent kid, Reach c parent → ChildStep c parent kid →
      filterKeeps kid = true → Reach c kid

/-- The children produced by `visitChildren` do not depend on the parent
argument, except for the parent id attached to each of them. -/
theorem visitChildren_fst_indep (c : Crate) (item : Item) :
    ∀ (p1 p2 : Option Id) (kids1 : List (Item × Option Id)),
    visitChildren c item p1 = some kids1 →
    ∃ kids2, visitChildren c item p2 = some kids2 ∧
      kids2.map Prod.fst = kids1.map Prod.fst := by
  intro p1 p2 kids1 h
  cases hi : item.inner <;> rw [visitChildren, hi] at h ⊢ <;>
    try dsimp only at h ⊢
  case importItem imp =>
    cases htgt : imp.target.bind c.get with
    | none =>
      rw [htgt] at h
      dsimp only at h ⊢
      exact ⟨kids1, h, rfl⟩
    | some imported =>
      rw [htgt] at h
      dsimp only at h ⊢
      by_cases hg : imp.glob = true
      · rw [if_pos hg] at h ⊢
        cases hin : imported.inner <;> rw [hin] at h <;>
          try dsimp only at h ⊢
        · injection h with h
          subst h
          exact ⟨_, rfl, by simp [List.map_map, Function.comp]⟩
        · cases h
        · cases h
        · injection h with h
          subst h
          exact ⟨_, rfl, by simp [List.map_map, Function.comp]⟩
        all_goals cases h
      · rw [if_neg hg] at h ⊢
        exact ⟨kids1, h, rfl⟩
  all_goals exact ⟨kids1, h, rfl⟩

/-- Under coherence, every child produced by `visitChildren` can be
looked up again at its own id. -/
theorem visitChildren_retrieved (c : Crate) (hco : Coherent c)
    (item : Item) (p? : Option Id) (kids : List (Item × Option Id))
    (h : visitChildren c item p? = some kids) :
    ∀ kp ∈ kids, c.get kp.1.id = some kp.1 := by
  intro kp hkp
  cases hi : item.inner with
  | module m =>
    rw [visitChildren, hi] at h
    cases h
    obtain ⟨kid, hkid, hkp⟩ := List.mem_map.mp hkp
    subst hkp
    obtain ⟨k, _, hk⟩ := mem_filterMap_get hkid
    exact hco.retrieved hk
  | importItem imp =>
    rw [visitChildren, hi] at h
    dsimp only at h
    cases htgt : imp.target.bind c.get with
    | none =>
      rw [htgt] at h
      cases h
      cases hkp
    | some tgt =>
      rw [htgt] at h
      dsimp only at h
      have htr : c.get tgt.id = some tgt := by
        cases ht : imp.target with
        | none => rw [ht] at htgt; cases htgt
        | some t =>
          rw [ht] at htgt
          simp only [Option.some_bind] at htgt
          exact hco.retrieved htgt
      by_cases hg : imp.glob = true
      · rw [if_pos hg] at h
        cases hin : tgt.inner <;> rw [hin] at h <;> try dsimp only at h
        · cases h
          obtain ⟨kid, hkid, hkp⟩ := List.mem_map.mp hkp
          subst hkp
          obtain ⟨k, _, hk⟩ := mem_filterMap_get hkid
          exact hco.retrieved hk
        · cases h
        · cases h
        · cases h
          obtain ⟨kid, hkid, hkp⟩ := List.mem_map.mp hkp
          subst hkp
          obtain ⟨k, _, hk⟩ := mem_filterMap_get hkid
          exact hco.retrieved hk
        all_goals cases h
      · rw [if_neg hg] at h
        cases h
        rw [List.mem_singleton] at hkp
        subst hkp
        exact htr
  | structItem s =>
    rw [visitChildren, hi] at h
    cases h
    obtain ⟨kid, hkid, hkp⟩ := List.mem_map.mp hkp
    subst hkp
    obtain ⟨k, _, hk⟩ := mem_filterMap_get hkid
    exact hco.retrieved hk
  | enumItem e =>
    rw [visitChildren, hi] at h
    cases h
    obtain ⟨kid, hkid, hkp⟩ := List.mem_map.mp hkp
    subst hkp
    obtain ⟨k, _, hk⟩ := mem_filterMap_get hkid
    exact hco.retrieved hk
  | unionItem u =>
    rw [visitChildren, hi] at h
    cases h
    obtain ⟨kid, hkid, hkp⟩ := List.mem_map.mp hkp
    subst hkp
    obtain ⟨k, _, hk⟩ := mem_filterMap_get hkid
    exact hco.retrieved hk
  | traitItem t =>
    rw [visitChildren, hi] at h
    cases h
    obtain ⟨kid, hkid, hkp⟩ := List.mem_map.mp hkp
    subst hkp
    obtain ⟨k, _, hk⟩ := mem_filterMap_get hkid
    exact hco.retrieved hk
  | implBlock i =>
    rw [visitChildren, hi] at h
    cases h
    obtain ⟨kid, hkid, hkp⟩ := List.mem_map.mp hkp
    subst hkp
    obtain ⟨k, _, hk⟩ := mem_filterMap_get hkid
    exact hco.retrieved hk
  | typedef ty =>
    rw [visitChildren, hi] at h
    dsimp only at h
    cases hty : getTypedefEquivalentReexportTarget c ty with
    | none => rw [hty] at h; cases h
    | some tgt? =>
      rw [hty] at h
      cases tgt? with
      | none =>
        dsimp only at h
        cases h
        cases hkp
      | some tgt =>
        dsimp only at h
        cases h
        rw [List.mem_singleton] at hkp
        subst hkp
        obtain ⟨k, hk⟩ := typedef_target_retrieved c ty tgt hty
        exact hco.retrieved hk
  | functionItem n =>
    rw [visitChildren, hi] at h
    cases h
    cases hkp
  | structFieldItem n =>
    rw [visitChildren, hi] at h
    cases h
    cases hkp
  | variantItem n =>
    rw [visitChildren, hi] at h
    cases h
    cases hkp
  | otherItem n =>
    rw [visitChildren, hi] at h
    cases h
    cases hkp

/-- A child-list walk whose steps restore the visited set restores it. -/
theorem visitStepList_restores
    (recur : Forest → List Id → Item → Option Id →
      Option (Forest × List Id))
    (hrec : ∀ parents visited it p? res,
      recur parents visited it p? = some res → res.2 = visited) :
    ∀ (kids : List (Item × Option Id)) (parents : Forest)
      (visited : List Id) (res : Forest × List Id),
    visitStepList recur parents visited kids = some res →
    res.2 = visited := by
  intro kids
  induction kids with
  | nil =>
    intro parents visited res h
    rw [visitStepList] at h
    injection h with h
    subst h
    rfl
  | cons kp rest ih =>
    intro parents visited res h
    obtain ⟨it, p?⟩ := kp
    rw [visitStepList] at h
    cases hr : recur parents visited it p? with
    | none => rw [hr] at h; cases h
    | some st =>
      rw [hr] at h
      dsimp only at h
      rw [ih st.1 st.2 res h, hrec parents visited it p? st hr]

/-- The DFS of the forest builder restores the visited set exactly on
every successful exit. -/
theorem visitF_restores :
    ∀ (fuel : Nat) (c : Crate) (parents : Forest) (visited : List Id)
      (item : Item) (p? : Option Id) (res : Forest × List Id),
    visitF fuel c parents visited item p? = some res → res.2 = visited := by
  intro fuel
  induction fuel with
  | zero => intro c parents visited item p? res h; rw [visitF] at h; cases h
  | succ fuel ih =>
    intro c parents visited item p? res h
    rw [visitF, visitStep] at h
    by_cases hk : filterKeeps item = true
    · rw [if_pos hk] at h
      dsimp only at h
      by_cases hv : item.id ∈ visited
      · rw [if_pos hv] at h
        injection h with h
        subst h
        rfl
      · rw [if_neg hv] at h
        cases hkids : visitChildren c item p? with
        | none => rw [hkids] at h; cases h
        | some kids =>
          rw [hkids] at h
          dsimp only at h
          cases hlist : visitStepList (visitF fuel c)
              (forestInsert parents item.id p?) (item.id :: visited)
              kids with
          | none => rw [hlist] at h; cases h
          | some st2 =>
            rw [hlist] at h
            obtain ⟨parents2, visited2⟩ := st2
            dsimp only at h
            have hrest : visited2 = item.id :: visited :=
              visitStepList_restores (visitF fuel c)
                (fun a b it q res hh => ih c a b it q res hh)
                kids _ _ (parents2, visited2) hlist
            by_cases hv2 : item.id ∈ visited2
            · rw [if_pos hv2] at h
              injection h with h
              subst h
              dsimp only
              rw [hrest, List.erase_cons_head]
            · rw [if_neg hv2] at h
              cases h
    · rw [if_neg hk] at h
      injection h with h
      subst h
      rfl

/-- `forestInsert` keeps every existing key. -/
theorem forestInsert_hasKey_mono :
    ∀ (f : Forest) (child : Id) (p? : Option Id) (k : Id),
    HasKey f k → HasKey (forestInsert f child p?) k := by
  intro f
  induction f with
  | nil => intro child p? k h; cases h
  | cons kv rest ih =>
    intro child p? k h
    obtain ⟨k0, ps0⟩ := kv
    simp only [forestInsert]
    by_cases hk : k0 = child
    · rw [if_pos hk]
      rcases List.mem_cons.mp h with h | h
      · exact List.mem_cons.mpr (Or.inl h)
      · exact List.mem_cons.mpr (Or.inr h)
    · rw [if_neg hk]
      rcases List.mem_cons.mp h with h | h
      · exact List.mem_cons.mpr (Or.inl h)
      · exact List.mem_cons.mpr (Or.inr (ih child p? k h))

/-- `forestInsert` records its key. -/
theorem forestInsert_hasKey_self :
    ∀ (f : Forest) (child : Id) (p? : Option Id),
    HasKey (forestInsert f child p?) child := by
  intro f
  induction f with
  | nil =>
    intro child p?
    simp only [forestInsert]
    exact List.mem_singleton_self _
  | cons kv rest ih =>
    intro child p?
    obtain ⟨k0, ps0⟩ := kv
    simp only [forestInsert]
    by_cases hk : k0 = child
    · rw [if_pos hk]
      subst hk
      exact List.mem_cons_self _ _
    · rw [if_neg hk]
      exact List.mem_cons.mpr (Or.inr (ih child p?))

/-- A key recorded by `forestInsert` is the inserted key or an existing
one. -/
theorem forestInsert_hasKey_inv :
    ∀ (f : Forest) (child : Id) (p? : Option Id) (k : Id),
    HasKey (forestInsert f child p?) k → k = child ∨ HasKey f k := by
  intro f
  induction f with
  | nil =>
    intro child p? k h
    rcases List.mem_cons.mp h with h | h
    · exact Or.inl h
    · cases h
  | cons kv rest ih =>
    intro child p? k h
    obtain ⟨k0, ps0⟩ := kv
    simp only [forestInsert] at h
    by_cases hk : k0 = child
    · rw [if_pos hk] at h
      rcases List.mem_cons.mp h with h | h
      · exact Or.inr (List.mem_cons.mpr (Or.inl h))
      · exact Or.inr (List.mem_cons.mpr (Or.inr h))
    · rw [if_neg hk] at h
      rcases List.mem_cons.mp h with h | h
      · exact Or.inr (List.mem_cons.mpr (Or.inl h))
      · rcases ih child p? k h with h | h
        · exact Or.inl h
        · exact Or.inr (List.mem_cons.mpr (Or.inr h))

/-- A child-list walk whose steps keep keys keeps keys. -/
theorem visitStepList_keys_mono
    (recur : Forest → List Id → Item → Option Id →
      Option (Forest × List Id))
    (hrec : ∀ parents visited it p? res,
      recur parents visited it p? = some res →
      ∀ k, HasKey parents k → HasKey res.1 k) :
    ∀ (kids : List (Item × Option Id)) (parents : Forest)
      (visited : List Id) (res : Forest × List Id),
    visitStepList recur parents visited kids = some res →
    ∀ k, HasKey parents k → HasKey res.1 k := by
  intro kids
  induction kids with
  | nil =>
    intro parents visited res h k hk
    rw [visitStepList] at h
    injection h with h
    subst h
    exact hk
  | cons kp rest ih =>
    intro parents visited res h k hk
    obtain ⟨it, p?⟩ := kp
    rw [visitStepList] at h
    cases hr : recur parents visited it p? with
    | none => rw [hr] at h; cases h
    | some st =>
      rw [hr] at h
      dsimp only at h
      exact ih st.1 st.2 res h k (hrec parents visited it p? st hr k hk)

/-- The DFS keeps every key already in the parents map. -/
theorem visitF_keys_mono :
    ∀ (fuel : Nat) (c : Crate) (parents : Forest) (visited : List Id)
      (item : Item) (p? : Option Id) (res : Forest × List Id),
    visitF fuel c parents visited item p? = some res →
    ∀ k, HasKey parents k → HasKey res.1 k := by
  intro fuel
  induction fuel with
  | zero =>
    intro c parents visited item p? res h
    rw [visitF] at h
    cases h
  | succ fuel ih =>
    intro c parents visited item p? res h k hk
    rw [visitF, visitStep] at h
    by_cases hkeep : filterKeeps item = true
    · rw [if_pos hkeep] at h
      dsimp only at h
      by_cases hv : item.id ∈ visited
      · rw [if_pos hv] at h
        injection h with h
        subst h
        exact forestInsert_hasKey_mono parents item.id p? k hk
      · rw [if_neg hv] at h
        cases hkids : visitChildren c item p? with
        | none => rw [hkids] at h; cases h
        | some kids =>
          rw [hkids] at h
          dsimp only at h
          cases hlist : visitStepList (visitF fuel c)
              (forestInsert parents item.id p?) (item.id :: visited)
              kids with
          | none => rw [hlist] at h; cases h
          | some st2 =>
            rw [hlist] at h
            obtain ⟨parents2, visited2⟩ := st2
            dsimp only at h
            have hst : HasKey parents2 k :=
              visitStepList_keys_mono (visitF fuel c)
                (fun a b it2 q res2 hh => ih c a b it2 q res2 hh)
                kids _ _ (parents2, visited2) hlist k
                (forestInsert_hasKey_mono parents item.id p? k hk)
            by_cases hv2 : item.id ∈ visited2
            · rw [if_pos hv2] at h
              injection h with h
              subst h
              exact hst
            · rw [if_neg hv2] at h
              cases h
    · rw [if_neg hkeep] at h
      injection h with h
      subst h
      exact hk

/-- A successful child-list walk contains, for every listed child, a
successful DFS call at the same visited set, whose keys survive to the
walk's result. -/
theorem visitStepList_call (fuel : Nat) (c : Crate) :
    ∀ (kids : List (Item × Option Id)) (parents : Forest)
      (visited : List Id) (res : Forest × List Id),
    visitStepList (visitF fuel c) parents visited kids = some res →
    ∀ kid q?, (kid, q?) ∈ kids →
    ∃ parentsK resK,
      visitF fuel c parentsK visited kid q? = some resK ∧
      (∀ k, HasKey resK.1 k → HasKey res.1 k) := by
  intro kids
  induction kids with
  | nil => intro parents visited res h kid q? hmem; cases hmem
  | cons kp rest ih =>
    intro parents visited res h kid q? hmem
    obtain ⟨it, p?⟩ := kp
    rw [visitStepList] at h
    cases hr : visitF fuel c parents visited it p? with
    | none => rw [hr] at h; cases h
    | some st =>
      rw [hr] at h
      dsimp only at h
      rcases List.mem_cons.mp hmem with heq | hmem
      · rw [Prod.mk.injEq] at heq
        obtain ⟨h1, h2⟩ := heq
        subst h1
        subst h2
        refine ⟨parents, st, hr, ?_⟩
        exact visitStepList_keys_mono (visitF fuel c)
          (fun a b it2 q r hh => visitF_keys_mono fuel c a b it2 q r hh)
          rest st.1 st.2 res h
      · have hv : st.2 = visited :=
          visitF_restores fuel c parents visited it p? st hr
        rw [hv] at h
        exact ih st.1 visited res h kid q? hmem

/-- A chain of filter-surviving child steps from `x`, through the listed
intermediate items, ending at `t`. -/
def ChainTo (c : Crate) : Item → List Item → Item → Prop
  | x, [], t => x = t
  | x, y :: ys, t => ChildStep c x y ∧ filterKeeps y = true ∧
      ChainTo c y ys t

/-- A chain extends by one more surviving child. -/
theorem chainTo_append (c : Crate) :
    ∀ (l : List Item) (x t kid : Item),
    ChainTo c x l t → ChildStep c t kid → filterKeeps kid = true →
    ChainTo c x (l ++ [kid]) kid := by
  intro l
  induction l with
  | nil =>
    intro x t kid hch hstep hk
    have hxt : x = t := hch
    subst hxt
    exact ⟨hstep, hk, rfl⟩
  | cons y ys ih =>
    intro x t kid hch hstep hk
    obtain ⟨h1, h2, h3⟩ := hch
    exact ⟨h1, h2, ih y t kid h3 hstep hk⟩

/-- Every node listed in a chain is a retrievable item. -/
theorem chainTo_retrieved (c : Crate) (hco : Coherent c) :
    ∀ (l : List Item) (x t : Item),
    c.get x.id = some x → ChainTo c x l t →
    ∀ z ∈ l, c.get z.id = some z := by
  intro l
  induction l with
  | nil => intro x t _ _ z hz; cases hz
  | cons y ys ih =>
    intro x t hx hch z hz
    obtain ⟨hstep, _, hch1⟩ := hch
    obtain ⟨p?, q?, kids, hkids, hmem⟩ := hstep
    have hy : c.get y.id = some y :=
      visitChildren_retrieved c hco x p? kids hkids (y, q?) hmem
    rcases List.mem_cons.mp hz with hz | hz
    · subst hz; exact hy
    · exact ih y t hy hch1 z hz

/-- A suffix of a chain is a chain from the cut point. -/
theorem chainTo_suffix (c : Crate) :
    ∀ (pre : List Item) (x z : Item) (suf : List Item) (t : Item),
    ChainTo c x (pre ++ z :: suf) t → ChainTo c z suf t := by
  intro pre
  induction pre with
  | nil =>
    intro x z suf t h
    obtain ⟨_, _, h3⟩ := h
    exact h3
  | cons p ps ih =>
    intro x z suf t h
    obtain ⟨_, _, h3⟩ := h
    exact ih p z suf t h3

/-- Every chain can be shortened to one whose node ids (including the
start) are pairwise distinct. -/
theorem chainTo_nodup (c : Crate) (hco : Coherent c) :
    ∀ (n : Nat) (l : List Item) (x t : Item), l.length ≤ n →
    c.get x.id = some x → ChainTo c x l t →
    ∃ l1, l1.length ≤ l.length ∧ ChainTo c x l1 t ∧
      (x.id :: l1.map (fun it => it.id)).Nodup := by
  intro n
  induction n with
  | zero =>
    intro l x t hlen hx hch
    rw [Nat.le_zero, List.length_eq_zero] at hlen
    subst hlen
    exact ⟨[], le_refl _, hch, by simp⟩
  | succ m ih =>
    intro l x t hlen hx hch
    cases l with
    | nil => exact ⟨[], le_refl _, hch, by simp⟩
    | cons y ys =>
      obtain ⟨hstep, hkeep, hch1⟩ := hch
      have hy : c.get y.id = some y := by
        obtain ⟨p?, q?, kids, hkids, hmem⟩ := hstep
        exact visitChildren_retrieved c hco x p? kids hkids (y, q?) hmem
      have hlen1 : ys.length ≤ m := by
        simp only [List.length_cons] at hlen
        omega
      obtain ⟨ys1, hys1len, hys1ch, hys1nd⟩ := ih ys y t hlen1 hy hch1
      by_cases hin : x.id ∈ (y :: ys1).map (fun it => it.id)
      · obtain ⟨z, hzmem, hzid⟩ := List.mem_map.mp hin
        have hz : c.get z.id = some z := by
          rcases List.mem_cons.mp hzmem with hw | hw
          · subst hw; exact hy
          · exact chainTo_retrieved c hco ys1 y t hy hys1ch z hw
        have hzx : z = x := by
          rw [hzid, hx] at hz
          injection hz with hz
          exact hz.symm
        obtain ⟨pre, suf, hsplit⟩ := List.append_of_mem hzmem
        have hfull : ChainTo c x (pre ++ z :: suf) t := by
          rw [← hsplit]
          exact ⟨hstep, hkeep, hys1ch⟩
        have hsuffix : ChainTo c x suf t := by
          rw [← hzx]
          exact chainTo_suffix c pre x z suf t hfull
        have hlensplit : pre.length + (suf.length + 1) = ys1.length + 1 := by
          have := congrArg List.length hsplit
          simp only [List.length_append, List.length_cons] at this
          omega
        have hsuflen : suf.length ≤ m := by omega
        obtain ⟨l2, hl2len, hl2ch, hl2nd⟩ := ih suf x t hsuflen hx hsuffix
        refine ⟨l2, ?_, hl2ch, hl2nd⟩
        simp only [List.length_cons]
        omega
      · refine ⟨y :: ys1, ?_, ⟨hstep, hkeep, hys1ch⟩, ?_⟩
        · simp only [List.length_cons]
          omega
        · rw [List.map_cons, List.nodup_cons]
          constructor
          · simpa using hin
          · simpa using hys1nd

/-- Completeness of the DFS: a successful run on the head of a chain of
distinct, unvisited, filter-surviving nodes records the chain's final
node among the forest keys, provided the fuel exceeds the chain length. -/
theorem visitF_chain_key (c : Crate) :
    ∀ (l : List Item) (fuel : Nat) (x t : Item) (parents : Forest)
      (visited : List Id) (p? : Option Id) (res : Forest × List Id),
    l.length < fuel →
    visitF fuel c parents visited x p? = some res →
    filterKeeps x = true →
    ChainTo c x l t →
    (x.id :: l.map (fun it => it.id)).Nodup →
    (∀ i ∈ x.id :: l.map (fun it => it.id), i ∉ visited) →
    HasKey res.1 t.id := by
  intro l
  induction l with
  | nil =>
    intro fuel x t parents visited p? res hfuel h hkeep hch hnd hdis
    have hxt : x = t := hch
    subst hxt
    cases fuel with
    | zero => exact absurd hfuel (by omega)
    | succ fuel =>
      rw [visitF, visitStep] at h
      rw [if_pos hkeep] at h
      dsimp only at h
      have hxv : x.id ∉ visited := hdis x.id (List.mem_cons_self _ _)
      rw [if_neg hxv] at h
      cases hkids : visitChildren c x p? with
      | none => rw [hkids] at h; cases h
      | some kids =>
        rw [hkids] at h
        dsimp only at h
        cases hlist : visitStepList (visitF fuel c)
            (forestInsert parents x.id p?) (x.id :: visited) kids with
        | none => rw [hlist] at h; cases h
        | some st2 =>
          rw [hlist] at h
          obtain ⟨parents2, visited2⟩ := st2
          dsimp only at h
          have hkeys : HasKey parents2 x.id :=
            visitStepList_keys_mono (visitF fuel c)
              (fun a b it q r hh => visitF_keys_mono fuel c a b it q r hh)
              kids _ _ (parents2, visited2) hlist x.id
              (forestInsert_hasKey_self parents x.id p?)
          by_cases hv2 : x.id ∈ visited2
          · rw [if_pos hv2] at h
            injection h with h
            subst h
            exact hkeys
          · rw [if_neg hv2] at h
            cases h
  | cons y ys ih =>
    intro fuel x t parents visited p? res hfuel h hkeep hch hnd hdis
    obtain ⟨hstep, hkeepy, hch1⟩ := hch
    simp only [List.map_cons] at hnd hdis
    cases fuel with
    | zero => exact absurd hfuel (by omega)
    | succ fuel =>
      rw [visitF, visitStep] at h
      rw [if_pos hkeep] at h
      dsimp only at h
      have hxv : x.id ∉ visited := hdis x.id (List.mem_cons_self _ _)
      rw [if_neg hxv] at h
      cases hkids : visitChildren c x p? with
      | none => rw [hkids] at h; cases h
      | some kids =>
        rw [hkids] at h
        dsimp only at h
        cases hlist : visitStepList (visitF fuel c)
            (forestInsert parents x.id p?) (x.id :: visited) kids with
        | none => rw [hlist] at h; cases h
        | some st2 =>
          rw [hlist] at h
          obtain ⟨parents2, visited2⟩ := st2
          dsimp only at h
          obtain ⟨p1, q1, kids1, hkids1, hmem1⟩ := hstep
          obtain ⟨kids2, hkids2, hfst⟩ :=
            visitChildren_fst_indep c x p1 p? kids1 hkids1
          rw [hkids] at hkids2
          injection hkids2 with hkids2
          subst hkids2
          have hymem : y ∈ kids.map Prod.fst := by
            rw [hfst]
            exact List.mem_map.mpr ⟨(y, q1), hmem1, rfl⟩
          obtain ⟨yq, hyqmem, hyq⟩ := List.mem_map.mp hymem
          obtain ⟨y2, q2⟩ := yq
          dsimp only at hyq
          subst hyq
          obtain ⟨parentsK, resK, hcall, hmono⟩ :=
            visitStepList_call fuel c kids _ _ (parents2, visited2)
              hlist y2 q2 hyqmem
          have htarget : HasKey resK.1 t.id := by
            refine ih fuel y2 t parentsK (x.id :: visited) q2 resK ?_
              hcall hkeepy hch1 ?_ ?_
            · simp only [List.length_cons] at hfuel
              omega
            · exact (List.nodup_cons.mp hnd).2
            · intro i hi
              rw [List.mem_cons]
              rintro (hiy | hiv)
              · subst hiy
                exact absurd hi (List.nodup_cons.mp hnd).1
              · exact hdis i (List.mem_cons_of_mem _ hi) hiv
          have hkey2 : HasKey parents2 t.id := hmono t.id htarget
          by_cases hv2 : x.id ∈ visited2
          · rw [if_pos hv2] at h
            injection h with h
            subst h
            exact hkey2
          · rw [if_neg hv2] at h
            cases h

/-- A public item passes the visibility filter. -/
theorem filterKeeps_public (item : Item)
    (h : item.visibility = .publicVis) : filterKeeps item = true := by
  rw [filterKeeps, h]

/-- Every reachable item passes the visibility filter. -/
theorem reach_kept (c : Crate) : ∀ t, Reach c t →
    filterKeeps t = true := by
  intro t h
  induction h with
  | root r hr hp => exact filterKeeps_public r hp
  | child parent kid hp hcs hk ih => exact hk

/-- Reachability implies a present, public root. -/
theorem reach_root (c : Crate) : ∀ t, Reach c t →
    ∃ r, c.get c.root = some r ∧ r.visibility = .publicVis := by
  intro t h
  induction h with
  | root r hr hp => exact ⟨r, hr, hp⟩
  | child parent kid hp hcs hk ih => exact ih

/-- Every reachable item is the end of a chain from the root item. -/
theorem reach_chain (c : Crate) : ∀ t, Reach c t →
    ∃ r l, c.get c.root = some r ∧ r.visibility = .publicVis ∧
      ChainTo c r l t := by
  intro t h
  induction h with
  | root r hr hp => exact ⟨r, [], hr, hp, rfl⟩
  | child parent kid hp hcs hk ih =>
    obtain ⟨r, l, hr, hpub, hch⟩ := ih
    exact ⟨r, l ++ [kid], hr, hpub,
      chainTo_append c l r parent kid hch hcs hk⟩

/-- A list of distinct resolvable ids is no longer than the index. -/
theorem nodup_ids_length_le (c : Crate) :
    ∀ (ids : List Id), ids.Nodup →
    (∀ i ∈ ids, ∃ it, c.get i = some it) →
    ids.length ≤ c.index.length := by
  intro ids hnd hmem
  have hsub : ∀ i ∈ ids, i ∈ c.index.map Prod.fst := by
    intro i hi
    obtain ⟨it, hit⟩ := hmem i hi
    exact List.mem_map.mpr ⟨(i, it), lookup_mem c.index i it hit, rfl⟩
  calc ids.length = ids.toFinset.card :=
        (List.toFinset_card_of_nodup hnd).symm
    _ ≤ (c.index.map Prod.fst).toFinset.card := by
        refine Finset.card_le_card ?_
        intro i hi
        rw [List.mem_toFinset] at hi ⊢
        exact hsub i hi
    _ ≤ (c.index.map Prod.fst).length := List.toFinset_card_le _
    _ = c.index.length := List.length_map _ _

/-- A child-list walk whose steps only add reachable keys only adds
reachable keys. -/
theorem visitStepList_keys_sound (c : Crate)
    (recur : Forest → List Id → Item → Option Id →
      Option (Forest × List Id))
    (hrec : ∀ parents visited it p? res,
      recur parents visited it p? = some res →
      c.get it.id = some it →
      (filterKeeps it = true → Reach c it) →
      (∀ k, HasKey parents k → ∃ i2, c.get k = some i2 ∧ Reach c i2) →
      ∀ k, HasKey res.1 k → ∃ i2, c.get k = some i2 ∧ Reach c i2) :
    ∀ (kids : List (Item × Option Id)) (parents : Forest)
      (visited : List Id) (res : Forest × List Id),
    visitStepList recur parents visited kids = some res →
    (∀ kp ∈ kids, c.get kp.1.id = some kp.1 ∧
      (filterKeeps kp.1 = true → Reach c kp.1)) →
    (∀ k, HasKey parents k → ∃ i2, c.get k = some i2 ∧ Reach c i2) →
    ∀ k, HasKey res.1 k → ∃ i2, c.get k = some i2 ∧ Reach c i2 := by
  intro kids
  induction kids with
  | nil =>
    intro parents visited res h hkids hpar k hk
    rw [visitStepList] at h
    injection h with h
    subst h
    exact hpar k hk
  | cons kp rest ih =>
    intro parents visited res h hkids hpar k hk
    obtain ⟨it, p?⟩ := kp
    rw [visitStepList] at h
    cases hr : recur parents visited it p? with
    | none => rw [hr] at h; cases h
    | some st =>
      rw [hr] at h
      dsimp only at h
      have hhead := hkids (it, p?) (List.mem_cons_self _ _)
      refine ih st.1 st.2 res h
        (fun kp2 hkp2 => hkids kp2 (List.mem_cons_of_mem _ hkp2)) ?_ k hk
      exact hrec parents visited it p? st hr hhead.1 hhead.2 hpar

/-- Soundness of the DFS: every key it records belongs to a retrievable,
publicly reachable item. -/
theorem visitF_keys_sound (c : Crate) (hco : Coherent c) :
    ∀ (fuel : Nat) (parents : Forest) (visited : List Id) (item : Item)
      (p? : Option Id) (res : Forest × List Id),
    visitF fuel c parents visited item p? = some res →
    c.get item.id = some item →
    (filterKeeps item = true → Reach c item) →
    (∀ k, HasKey parents k → ∃ i2, c.get k = some i2 ∧ Reach c i2) →
    ∀ k, HasKey res.1 k → ∃ i2, c.get k = some i2 ∧ Reach c i2 := by
  intro fuel
  induction fuel with
  | zero =>
    intro parents visited item p? res h
    rw [visitF] at h
    cases h
  | succ fuel ih =>
    intro parents visited item p? res h hret hreach hpar k hk
    rw [visitF, visitStep] at h
    by_cases hkeep : filterKeeps item = true
    · rw [if_pos hkeep] at h
      dsimp only at h
      have hpar1 : ∀ k2, HasKey (forestInsert parents item.id p?) k2 →
          ∃ i2, c.get k2 = some i2 ∧ Reach c i2 := by
        intro k2 hk2
        rcases forestInsert_hasKey_inv parents item.id p? k2 hk2 with
          hk2 | hk2
        · subst hk2
          exact ⟨item, hret, hreach hkeep⟩
        · exact hpar k2 hk2
      by_cases hv : item.id ∈ visited
      · rw [if_pos hv] at h
        injection h with h
        subst h
        exact hpar1 k hk
      · rw [if_neg hv] at h
        cases hkids : visitChildren c item p? with
        | none => rw [hkids] at h; cases h
        | some kids =>
          rw [hkids] at h
          dsimp only at h
          cases hlist : visitStepList (visitF fuel c)
              (forestInsert parents item.id p?) (item.id :: visited)
              kids with
          | none => rw [hlist] at h; cases h
          | some st2 =>
            rw [hlist] at h
            obtain ⟨parents2, visited2⟩ := st2
            dsimp only at h
            have hsound : ∀ k2, HasKey parents2 k2 →
                ∃ i2, c.get k2 = some i2 ∧ Reach c i2 := by
              refine visitStepList_keys_sound c (visitF fuel c)
                (fun a b it2 q r hh h1 h2 h3 =>
                  ih a b it2 q r hh h1 h2 h3)
                kids _ _ (parents2, visited2) hlist ?_ hpar1
              intro kp hkp
              refine ⟨visitChildren_retrieved c hco item p? kids hkids
                kp hkp, ?_⟩
              intro hkpkeep
              exact Reach.child item kp.1 (hreach hkeep)
                ⟨p?, kp.2, kids, hkids, by rw [Prod.mk.eta]; exact hkp⟩
                hkpkeep
            by_cases hv2 : item.id ∈ visited2
            · rw [if_pos hv2] at h
              injection h with h
              subst h
              exact hsound k hk
            · rw [if_neg hv2] at h
              cases h
    · rw [if_neg hkeep] at h
      injection h with h
      subst h
      exact hpar k hk

/-- Claim C2: (1) an item failing the visibility filter is skipped
wholesale by the forest builder: no forest entry is recorded for it and
it is not recursed into (the step returns its state unchanged); (2)
`Public` and `Default` items pass the filter; (3) `Restricted` items
never pass; (4) a `Crate`-visible item passes exactly when it is an impl
block; (5) after a successful construction a forest entry exists for a
key iff that key resolves to an item publicly reachable from the crate
root; (6) the built forest is the computed parents map with each parent
list sorted, the sort only reordering each recorded parent set; and (7)
the constructed `IndexedCrate` carries that forest unchanged. -/
theorem c2_forest_reachability (c : Crate) (hco : Coherent c) :
    (∀ (recur : Forest → List Id → Item → Option Id →
        Option (Forest × List Id)) parents visited item p?,
      filterKeeps item = false →
      visitStep c recur parents visited item p? =
        some (parents, visited)) ∧
    (∀ item, (item.visibility = .publicVis ∨
        item.visibility = .defaultVis) →
      filterKeeps item = true) ∧
    (∀ item, item.visibility = .restricted → filterKeeps item = false) ∧
    (∀ item, item.visibility = .crateVis →
      (filterKeeps item = true ↔ ∃ d, item.inner = ItemEnum.implBlock d)) ∧
    (∀ f, buildForest c = some f →
      ∀ k, (HasKey f k ↔ ∃ it, c.get k = some it ∧ Reach c it)) ∧
    (∀ f0, computeParentIdsForPublicItems c = some f0 →
      buildForest c = some (f0.map (fun kv => (kv.1, sortIds kv.2))) ∧
      ∀ kv ∈ f0, ∀ p, p ∈ kv.2 ↔ p ∈ sortIds kv.2) ∧
    (∀ m, IndexedCrateNew c = some m →
      some m.visibilityForest = buildForest c) := by
  refine ⟨?_, ?_, ?_, ?_, ?_, ?_, ?_⟩
  · intro recur parents visited item p? hf
    rw [visitStep, if_neg (by simp [hf])]
  · intro item hvis
    rcases hvis with hv | hv <;> rw [filterKeeps, hv]
  · intro item hv
    rw [filterKeeps, hv]
  · intro item hv
    rw [filterKeeps, hv]
    cases hi : item.inner <;> simp
  · intro f hf k
    rw [buildForest] at hf
    cases hcp : computeParentIdsForPublicItems c with
    | none => rw [hcp] at hf; cases hf
    | some f0 =>
      rw [hcp] at hf
      simp only [Option.map_some'] at hf
      injection hf with hf
      subst hf
      have hkeyiff : HasKey (f0.map (fun kv => (kv.1, sortIds kv.2))) k ↔
          HasKey f0 k := by
        simp [HasKey, List.map_map, Function.comp]
      rw [hkeyiff]
      rw [computeParentIdsForPublicItems] at hcp
      cases hroot : c.get c.root with
      | none =>
        rw [hroot] at hcp
        dsimp only at hcp
        injection hcp with hcp
        subst hcp
        constructor
        · intro hk
          exact absurd hk (List.not_mem_nil k)
        · rintro ⟨it, hit, hreach⟩
          obtain ⟨r, hr, _⟩ := reach_root c it hreach
          rw [hroot] at hr
          cases hr
      | some rootItem =>
        rw [hroot] at hcp
        dsimp only at hcp
        by_cases hpub : rootItem.visibility = .publicVis
        · rw [if_pos hpub] at hcp
          cases hrun : visitF (c.index.length + 1) c [] [] rootItem
              none with
          | none => rw [hrun] at hcp; cases hcp
          | some st =>
            obtain ⟨stp, stv⟩ := st
            rw [hrun] at hcp
            simp only [Option.map_some'] at hcp
            injection hcp with hcp
            subst hcp
            have hrret : c.get rootItem.id = some rootItem :=
              hco.retrieved hroot
            constructor
            · intro hk
              exact visitF_keys_sound c hco (c.index.length + 1) [] []
                rootItem none (stp, stv) hrun hrret
                (fun _ => Reach.root rootItem hroot hpub)
                (fun k2 hk2 => absurd hk2 (List.not_mem_nil _)) k hk
            · rintro ⟨it, hit, hreach⟩
              obtain ⟨r, l, hr, hrpub, hchain⟩ := reach_chain c it hreach
              rw [hroot] at hr
              injection hr with hr
              subst hr
              obtain ⟨l1, hl1len, hl1ch, hl1nd⟩ :=
                chainTo_nodup c hco l.length l rootItem it (le_refl _)
                  hrret hchain
              have hids : ∀ i ∈ rootItem.id :: l1.map (fun z => z.id),
                  ∃ it2, c.get i = some it2 := by
                intro i hi
                rcases List.mem_cons.mp hi with hi | hi
                · subst hi; exact ⟨rootItem, hrret⟩
                · obtain ⟨z, hz, hzid⟩ := List.mem_map.mp hi
                  subst hzid
                  exact ⟨z, chainTo_retrieved c hco l1 rootItem it hrret
                    hl1ch z hz⟩
              have hlenb := nodup_ids_length_le c _ hl1nd hids
              have hfuel : l1.length < c.index.length + 1 := by
                simp only [List.length_cons, List.length_map] at hlenb
                omega
              have hkey : HasKey stp it.id :=
                visitF_chain_key c l1 (c.index.length + 1) rootItem it
                  [] [] none (stp, stv) hfuel hrun
                  (filterKeeps_public rootItem hpub) hl1ch hl1nd
                  (fun i hi => List.not_mem_nil i)
              rw [hco.get_id hit] at hkey
              exact hkey
        · rw [if_neg hpub] at hcp
          injection hcp with hcp
          subst hcp
          constructor
          · intro hk
            exact absurd hk (List.not_mem_nil k)
          · rintro ⟨it, hit, hreach⟩
            obtain ⟨r, hr, hrp⟩ := reach_root c it hreach
            rw [hroot] at hr
            injection hr with hr
            subst hr
            exact absurd hrp hpub
  · intro f0 hf0
    constructor
    · rw [buildForest, hf0]
      rfl
    · intro kv _ p
      exact (sortIds_mem p kv.2).symm
  · intro m hm
    rw [IndexedCrateNew] at hm
    cases hbf : buildForest c with
    | none => rw [hbf] at hm; cases hm
    | some forest =>
      rw [hbf] at hm
      dsimp only at hm
      cases hii : buildImportsIndex c forest with
      | none => rw [hii] at hm; cases hm
      | some ii =>
        rw [hii] at hm
        dsimp only at hm
        cases him : buildImplIndex c with
        | none => rw [him] at hm; cases hm
        | some impli =>
          rw [him] at hm
          dsimp only at hm
          injection hm with hm
          subst hm
          rfl

/-- Concrete check of the C2 theorem on `exSimple`: a `Restricted` item
is skipped with the traversal state unchanged, and key 1 of the built
forest resolves to a publicly reachable item. -/
theorem c2_witness :
    visitStep exSimple (fun _ _ _ _ => none) [] []
      { id := 9, name? := none, crateId := 0,
        visibility := .restricted, inner := .functionItem 0 }
      none = some ([], []) ∧
    (∃ it, exSimple.get 1 = some it ∧ Reach exSimple it) :=
  ⟨(c2_forest_reachability exSimple (by decide)).1 (fun _ _ _ _ => none)
      [] []
      { id := 9, name? := none, crateId := 0,
        visibility := .restricted, inner := .functionItem 0 } none rfl,
   ((c2_forest_reachability exSimple (by decide)).2.2.2.2.1
      [(0, []), (1, [0])] rfl 1).mp (by decide)⟩

/-! ## Claim C7: failure policy of `IndexedCrate::new` -/

/-- Whether the path enumerator always pushes a name on entering this
item (given its own entry succeeds): non-glob imports push their
(possibly renaming) own name, glob imports push nothing, and every other
kind pushes the item name when it has one. -/
def pushesName (it : Item) : Bool :=
  match it.inner with
  | .importItem d => !d.glob
  | _ => it.name?.isSome

/-- Safety of one recorded forest parent for the path enumerator, given
whether the child item pushes a name: the parent id must resolve; a
non-glob import parent requires the child to push (so the import is
never entered with an empty stack); a typedef parent must be named. -/
def parentOkB (c : Crate) (childPushes : Bool) (p : Id) : Bool :=
  match c.get p with
  | none => false
  | some pit =>
    match pit.inner with
    | .importItem d => d.glob || childPushes
    | .typedef _ => pit.name?.isSome
    | _ => true

/-- Safety of a whole forest for the path enumerator. -/
def forestOkB (c : Crate) (f : Forest) : Bool :=
  f.all (fun kv =>
    match c.get kv.1 with
    | none => false
    | some kit => kv.2.all (parentOkB c (pushesName kit)))

/-- Every resolvable entry of every `impls` list is an impl block (the
impl-index loop panics on anything else it can resolve). -/
def implsOkB (c : Crate) : Bool :=
  c.index.all (fun kv =>
    match implsOf kv.2 with
    | none => true
    | some impls =>
      (impls.filterMap c.get).all (fun it =>
        match it.inner with
        | .implBlock _ => true
        | _ => false))

/-- Decidable well-formedness under which `IndexedCrate::new` is proved
total: coherent ids, distinct index keys, panic-free impls lists, and a
successfully built visibility forest that is safe for the path
enumerator. -/
def wfCrate (c : Crate) : Bool :=
  c.index.all (fun kv => kv.2.id == kv.1) &&
  decide (c.index.map Prod.fst).Nodup &&
  implsOkB c &&
  (match buildForest c with
   | none => false
   | some f => forestOkB c f)

/-- In a duplicate-free association list every member is what its key
looks up to. -/
theorem lookup_of_mem_nodup :
    ∀ (l : List (Id × Item)), (l.map Prod.fst).Nodup →
    ∀ kv ∈ l, l.lookup kv.1 = some kv.2 := by
  intro l
  induction l with
  | nil => intro _ kv h; cases h
  | cons hd tl ih =>
    intro hnd kv hm
    obtain ⟨k0, v0⟩ := hd
    rw [List.map_cons, List.nodup_cons] at hnd
    rcases List.mem_cons.mp hm with hm | hm
    · subst hm
      rw [List.lookup]
      simp
    · rw [List.lookup]
      have hne : kv.1 ≠ k0 := by
        intro he
        exact hnd.1 (he ▸ List.mem_map.mpr ⟨kv, hm, rfl⟩)
      rw [show (kv.1 == k0) = false from by simpa using hne]
      exact ih hnd.2 kv hm

/-- Unpacking of the well-formedness check. -/
theorem wfCrate_spec (c : Crate) (h : wfCrate c = true) :
    Coherent c ∧ (c.index.map Prod.fst).Nodup ∧ implsOkB c = true ∧
    ∃ f, buildForest c = some f ∧ forestOkB c f = true := by
  rw [wfCrate] at h
  simp only [Bool.and_eq_true] at h
  obtain ⟨⟨⟨hco, hnd⟩, himp⟩, hrest⟩ := h
  refine ⟨?_, of_decide_eq_true hnd, himp, ?_⟩
  · intro kv hkv
    rw [List.all_eq_true] at hco
    simpa using hco kv hkv
  · cases hbf : buildForest c with
    | none => rw [hbf] at hrest; cases hrest
    | some f =>
      rw [hbf] at hrest
      exact ⟨f, rfl, hrest⟩

/-- Unpacking of the forest check at one recorded entry. -/
theorem forestOkB_edge (c : Crate) (f : Forest)
    (h : forestOkB c f = true) (id : Id) (ps : List Id)
    (hm : (id, ps) ∈ f) :
    ∃ kit, c.get id = some kit ∧
      ∀ p ∈ ps, parentOkB c (pushesName kit) p = true := by
  rw [forestOkB, List.all_eq_true] at h
  have h2 := h (id, ps) hm
  dsimp only at h2
  cases hg : c.get id with
  | none => rw [hg] at h2; cases h2
  | some kit =>
    rw [hg] at h2
    dsimp only at h2
    exact ⟨kit, rfl, List.all_eq_true.mp h2⟩

/-- Unpacking of the parent check. -/
theorem parentOkB_spec (c : Crate) (b : Bool) (p : Id)
    (h : parentOkB c b p = true) :
    ∃ pit, c.get p = some pit ∧
      (∀ d, pit.inner = ItemEnum.importItem d → d.glob = false →
        b = true) ∧
      (∀ td, pit.inner = ItemEnum.typedef td → pit.name?.isSome = true) := by
  rw [parentOkB] at h
  cases hg : c.get p with
  | none => rw [hg] at h; cases h
  | some pit =>
    rw [hg] at h
    dsimp only at h
    refine ⟨pit, rfl, ?_, ?_⟩
    · intro d hd hglob
      rw [hd] at h
      dsimp only at h
      rw [hglob] at h
      simpa using h
    · intro td htd
      rw [htd] at h
      dsimp only at h
      exact h

/-- Counterexample to C7 as stated: construction does not succeed on
every input snapshot. On `exBadGlob` (a glob import whose target is a
function, neither a module nor an enum) the forest builder hits the
`unreachable!` panic and `IndexedCrate::new` fails. -/
theorem c7_counterexample :
    ¬ (∀ c : Crate, (IndexedCrateNew c).isSome = true) := by
  intro h
  have hx := h exBadGlob
  rw [show IndexedCrateNew exBadGlob = none from rfl] at hx
  cases hx

/-- The visited set after a collect step extends the input set by fresh,
pairwise distinct, resolvable ids. -/
def VisitedExt (c : Crate) (v : List Id) (r : CollectSt) : Prop :=
  ∃ pol, r.1 = pol ++ v ∧ pol.Nodup ∧
    ∀ x ∈ pol, x ∉ v ∧ (c.get x).isSome = true

/-- `VisitedExt` for the parent-list walk. -/
theorem collectStepList_vext (c : Crate)
    (recur : Id → List Id → List String → List (List String) →
      Option CollectSt)
    (hrec : ∀ id v s out r, recur id v s out = some r →
      VisitedExt c v r) :
    ∀ (ps : List Id) (v : List Id) (s : List String)
      (out : List (List String)) (r : CollectSt),
    collectStepList recur ps v s out = some r → VisitedExt c v r := by
  intro ps
  induction ps with
  | nil =>
    intro v s out r h
    rw [collectStepList] at h
    cases h
    exact ⟨[], rfl, List.nodup_nil, by simp⟩
  | cons p rest ih =>
    intro v s out r h
    rw [collectStepList] at h
    cases hr1 : recur p v s out with
    | none => rw [hr1] at h; cases h
    | some r1 =>
      obtain ⟨v1, s1, o1⟩ := r1
      rw [hr1] at h
      dsimp only at h
      obtain ⟨pol1, hv1, hnd1, hpol1⟩ := hrec p v s out _ hr1
      dsimp only at hv1
      subst hv1
      obtain ⟨pol2, hv2, hnd2, hpol2⟩ := ih _ _ _ _ h
      refine ⟨pol2 ++ pol1, by rw [hv2, List.append_assoc], ?_, ?_⟩
      · refine List.Nodup.append hnd2 hnd1 ?_
        intro x hx2 hx1
        exact (hpol2 x hx2).1 (List.mem_append.mpr (Or.inl hx1))
      · intro x hx
        rcases List.mem_append.mp hx with hx | hx
        · obtain ⟨hn, hres⟩ := hpol2 x hx
          exact ⟨fun hc => hn (List.mem_append.mpr (Or.inr hc)), hres⟩
        · exact hpol1 x hx

/-- `VisitedExt` for the inner step. -/
theorem collectInnerStep_vext (c : Crate) (forest : Forest)
    (recur : Id → List Id → List String → List (List String) →
      Option CollectSt)
    (hrec : ∀ id v s out r, recur id v s out = some r →
      VisitedExt c v r) :
    ∀ (id : Id) (v : List Id) (s : List String)
      (out : List (List String)) (r : CollectSt),
    collectInnerStep c forest recur id v s out = some r →
    VisitedExt c v r := by
  intro id v s out r h
  rw [collectInnerStep] at h
  by_cases hr : id = c.root
  · rw [if_pos hr] at h
    cases h
    exact ⟨[], rfl, List.nodup_nil, by simp⟩
  · rw [if_neg hr] at h
    cases hlk : forest.lookup id with
    | none =>
      rw [hlk] at h
      cases h
      exact ⟨[], rfl, List.nodup_nil, by simp⟩
    | some ps =>
      rw [hlk] at h
      exact collectStepList_vext c recur hrec ps v s out r h

/-- `VisitedExt` for the full collect recursion. -/
theorem collectF_vext (c : Crate) (forest : Forest) :
    ∀ (fuel : Nat) (id : Id) (v : List Id) (s : List String)
      (out : List (List String)) (r : CollectSt),
    collectF fuel c forest id v s out = some r → VisitedExt c v r := by
  intro fuel
  induction fuel with
  | zero => intro id v s out r h; cases h
  | succ fuel ih =>
    intro id v s out r h
    rw [collectF, collectStep] at h
    by_cases hv : id ∈ v
    · rw [if_pos hv] at h
      cases h
      exact ⟨[], rfl, List.nodup_nil, by simp⟩
    · rw [if_neg hv] at h
      cases hget : c.get id with
      | none => rw [hget] at h; cases h
      | some item =>
        rw [hget] at h
        dsimp only at h
        by_cases hpr : s ≠ [] ∧ prunedKind item
        · rw [if_pos hpr] at h
          cases h
          refine ⟨[id], rfl, List.nodup_singleton _, ?_⟩
          intro x hx
          rw [List.mem_singleton] at hx
          subst hx
          exact ⟨hv, by rw [hget]; rfl⟩
        · rw [if_neg hpr] at h
          cases hsa : stackAction item s with
          | none => rw [hsa] at h; cases h
          | some act =>
            obtain ⟨pushed?, popped?, sp⟩ := act
            rw [hsa] at h
            dsimp only at h
            cases pushed? with
            | none =>
              cases hin : collectInnerStep c forest
                  (collectF fuel c forest) id (id :: v) sp out with
              | none => rw [hin] at h; cases h
              | some r2 =>
                obtain ⟨v2, s2, o2⟩ := r2
                rw [hin] at h
                obtain ⟨pol, hv2, hnd, hpol⟩ :=
                  collectInnerStep_vext c forest _ ih _ _ _ _ _ hin
                dsimp only at hv2 h
                subst hv2
                have hidpol : id ∉ pol := by
                  intro hc
                  exact (hpol id hc).1 (List.mem_cons_self _ _)
                by_cases hid2 : id ∈ pol ++ id :: v
                · rw [if_pos hid2] at h
                  injection h with h
                  subst h
                  refine ⟨pol, ?_, hnd, ?_⟩
                  · dsimp only
                    rw [List.erase_append_right _ hidpol,
                      List.erase_cons_head]
                  · intro x hx
                    obtain ⟨hn, hres⟩ := hpol x hx
                    exact ⟨fun hc => hn (List.mem_cons_of_mem _ hc), hres⟩
                · rw [if_neg hid2] at h
                  cases h
            | some n =>
              cases hin : collectInnerStep c forest
                  (collectF fuel c forest) id (id :: v) (n :: sp) out with
              | none => rw [hin] at h; cases h
              | some r2 =>
                obtain ⟨v2, s2, o2⟩ := r2
                rw [hin] at h
                obtain ⟨pol, hv2, hnd, hpol⟩ :=
                  collectInnerStep_vext c forest _ ih _ _ _ _ _ hin
                dsimp only at hv2 h
                subst hv2
                have hidpol : id ∉ pol := by
                  intro hc
                  exact (hpol id hc).1 (List.mem_cons_self _ _)
                cases hs2 : s2 with
                | nil => rw [hs2] at h; cases h
                | cons recovered rest =>
                  rw [hs2] at h
                  dsimp only at h
                  by_cases hrec2 : recovered = n
                  · rw [if_pos hrec2] at h
                    dsimp only at h
                    by_cases hid2 : id ∈ pol ++ id :: v
                    · rw [if_pos hid2] at h
                      injection h with h
                      subst h
                      refine ⟨pol, ?_, hnd, ?_⟩
                      · dsimp only
                        rw [List.erase_append_right _ hidpol,
                          List.erase_cons_head]
                      · intro x hx
                        obtain ⟨hn, hres⟩ := hpol x hx
                        exact ⟨fun hc => hn (List.mem_cons_of_mem _ hc),
                          hres⟩
                    · rw [if_neg hid2] at h
                      cases h
                  · rw [if_neg hrec2] at h
                    cases h

/-- The stack adjustment never panics on a non-import non-typedef item;
on a non-glob import it needs a non-empty stack, on a typedef a name. -/
theorem stackAction_total (item : Item) (s : List String)
    (himp : ∀ d, item.inner = ItemEnum.importItem d → d.glob = false →
      s ≠ [])
    (htd : ∀ td, item.inner = ItemEnum.typedef td →
      item.name?.isSome = true) :
    (stackAction item s).isSome = true := by
  cases hi : item.inner with
  | importItem d =>
    rw [stackAction, hi]
    dsimp only
    by_cases hg : d.glob = true
    · rw [if_pos hg]; rfl
    · rw [if_neg hg]
      have hs := himp d hi (by simpa using hg)
      cases s with
      | nil => exact absurd rfl hs
      | cons a as => rfl
  | typedef td =>
    rw [stackAction, hi]
    dsimp only
    cases hn : item.name? with
    | none => rw [hn] at htd; simp at htd; exact absurd (htd td hi) (by simp)
    | some n =>
      dsimp only
      cases s with
      | nil => rfl
      | cons a as => rfl
  | module m => rw [stackAction, hi]; rfl
  | structItem x => rw [stackAction, hi]; rfl
  | enumItem x => rw [stackAction, hi]; rfl
  | unionItem x => rw [stackAction, hi]; rfl
  | traitItem x => rw [stackAction, hi]; rfl
  | implBlock x => rw [stackAction, hi]; rfl
  | functionItem x => rw [stackAction, hi]; rfl
  | structFieldItem x => rw [stackAction, hi]; rfl
  | variantItem x => rw [stackAction, hi]; rfl
  | otherItem x => rw [stackAction, hi]; rfl

/-- A name-pushing item's successful stack adjustment always pushes. -/
theorem pushesName_pushed (item : Item) (s : List String)
    (pushed? popped? : Option String) (sp : List String)
    (hsa : stackAction item s = some (pushed?, popped?, sp))
    (hp : pushesName item = true) : ∃ n, pushed? = some n := by
  cases hi : item.inner with
  | importItem d =>
    rw [stackAction, hi] at hsa
    dsimp only at hsa
    rw [pushesName, hi] at hp
    dsimp only at hp
    by_cases hg : d.glob = true
    · rw [hg] at hp; simp at hp
    · rw [if_neg hg] at hsa
      cases s with
      | nil => cases hsa
      | cons a as =>
        injection hsa with hsa
        rw [Prod.mk.injEq] at hsa
        exact ⟨d.name, hsa.1.symm⟩
  | typedef td =>
    rw [stackAction, hi] at hsa
    dsimp only at hsa
    rw [pushesName, hi] at hp
    dsimp only at hp
    cases hn : item.name? with
    | none => rw [hn] at hp; simp at hp
    | some n =>
      rw [hn] at hsa
      cases s with
      | nil =>
        injection hsa with hsa
        rw [Prod.mk.injEq] at hsa
        exact ⟨n, hsa.1.symm⟩
      | cons a as =>
        injection hsa with hsa
        rw [Prod.mk.injEq] at hsa
        exact ⟨n, hsa.1.symm⟩
  | module m =>
    rw [stackAction, hi] at hsa
    rw [pushesName, hi] at hp
    dsimp only at hp
    injection hsa with hsa
    rw [Prod.mk.injEq] at hsa
    obtain ⟨n, hn⟩ := Option.isSome_iff_exists.mp hp
    exact ⟨n, by rw [← hsa.1, hn]⟩
  | structItem x =>
    rw [stackAction, hi] at hsa
    rw [pushesName, hi] at hp
    dsimp only at hp
    injection hsa with hsa
    rw [Prod.mk.injEq] at hsa
    obtain ⟨n, hn⟩ := Option.isSome_iff_exists.mp hp
    exact ⟨n, by rw [← hsa.1, hn]⟩
  | enumItem x =>
    rw [stackAction, hi] at hsa
    rw [pushesName, hi] at hp
    dsimp only at hp
    injection hsa with hsa
    rw [Prod.mk.injEq] at hsa
    obtain ⟨n, hn⟩ := Option.isSome_iff_exists.mp hp
    exact ⟨n, by rw [← hsa.1, hn]⟩
  | unionItem x =>
    rw [stackAction, hi] at hsa
    rw [pushesName, hi] at hp
    dsimp only at hp
    injection hsa with hsa
    rw [Prod.mk.injEq] at hsa
    obtain ⟨n, hn⟩ := Option.isSome_iff_exists.mp hp
    exact ⟨n, by rw [← hsa.1, hn]⟩
  | traitItem x =>
    rw [stackAction, hi] at hsa
    rw [pushesName, hi] at hp
    dsimp only at hp
    injection hsa with hsa
    rw [Prod.mk.injEq] at hsa
    obtain ⟨n, hn⟩ := Option.isSome_iff_exists.mp hp
    exact ⟨n, by rw [← hsa.1, hn]⟩
  | implBlock x =>
    rw [stackAction, hi] at hsa
    rw [pushesName, hi] at hp
    dsimp only at hp
    injection hsa with hsa
    rw [Prod.mk.injEq] at hsa
    obtain ⟨n, hn⟩ := Option.isSome_iff_exists.mp hp
    exact ⟨n, by rw [← hsa.1, hn]⟩
  | functionItem x =>
    rw [stackAction, hi] at hsa
    rw [pushesName, hi] at hp
    dsimp only at hp
    injection hsa with hsa
    rw [Prod.mk.injEq] at hsa
    obtain ⟨n, hn⟩ := Option.isSome_iff_exists.mp hp
    exact ⟨n, by rw [← hsa.1, hn]⟩
  | structFieldItem x =>
    rw [stackAction, hi] at hsa
    rw [pushesName, hi] at hp
    dsimp only at hp
    injection hsa with hsa
    rw [Prod.mk.injEq] at hsa
    obtain ⟨n, hn⟩ := Option.isSome_iff_exists.mp hp
    exact ⟨n, by rw [← hsa.1, hn]⟩
  | variantItem x =>
    rw [stackAction, hi] at hsa
    rw [pushesName, hi] at hp
    dsimp only at hp
    injection hsa with hsa
    rw [Prod.mk.injEq] at hsa
    obtain ⟨n, hn⟩ := Option.isSome_iff_exists.mp hp
    exact ⟨n, by rw [← hsa.1, hn]⟩
  | otherItem x =>
    rw [stackAction, hi] at hsa
    rw [pushesName, hi] at hp
    dsimp only at hp
    injection hsa with hsa
    rw [Prod.mk.injEq] at hsa
    obtain ⟨n, hn⟩ := Option.isSome_iff_exists.mp hp
    exact ⟨n, by rw [← hsa.1, hn]⟩

/-- Totality of the parent-list walk, given totality of single calls. -/
theorem collectStepList_total (c : Crate) (f : Forest) (fuel : Nat)
    (hrec : ∀ (id : Id) (v : List Id) (s : List String)
      (out : List (List String)),
      (c.get id).isSome = true →
      (∀ it d, c.get id = some it → it.inner = ItemEnum.importItem d →
        d.glob = false → s ≠ []) →
      (∀ it td, c.get id = some it → it.inner = ItemEnum.typedef td →
        it.name?.isSome = true) →
      v.Nodup → (∀ x ∈ v, (c.get x).isSome = true) →
      c.index.length < fuel + v.length →
      (collectF fuel c f id v s out).isSome = true) :
    ∀ (ps : List Id) (v : List Id) (s : List String)
      (out : List (List String)),
    (∀ p ∈ ps, ∃ pit, c.get p = some pit ∧
      (∀ d, pit.inner = ItemEnum.importItem d → d.glob = false →
        s ≠ []) ∧
      (∀ td, pit.inner = ItemEnum.typedef td →
        pit.name?.isSome = true)) →
    v.Nodup → (∀ x ∈ v, (c.get x).isSome = true) →
    c.index.length < fuel + v.length →
    (collectStepList (collectF fuel c f) ps v s out).isSome = true := by
  intro ps
  induction ps with
  | nil =>
    intro v s out _ _ _ _
    rw [collectStepList]
    rfl
  | cons p rest ih =>
    intro v s out hps hnd hres hm
    rw [collectStepList]
    obtain ⟨pit, hpit, hpimp, hptd⟩ := hps p (List.mem_cons_self _ _)
    have hcall : (collectF fuel c f p v s out).isSome = true := by
      refine hrec p v s out (by rw [hpit]; rfl) ?_ ?_ hnd hres hm
      · intro it d hit hd hg
        rw [hpit] at hit
        injection hit with hit
        subst hit
        exact hpimp d hd hg
      · intro it td hit htd
        rw [hpit] at hit
        injection hit with hit
        subst hit
        exact hptd td htd
    cases hr1 : collectF fuel c f p v s out with
    | none => rw [hr1] at hcall; simp at hcall
    | some r1 =>
      obtain ⟨v1, s1, o1⟩ := r1
      dsimp only
      obtain ⟨hs1, _⟩ := collect_restores c f fuel p v s out (v1, s1, o1) hr1
      dsimp only at hs1
      rw [hs1]
      obtain ⟨pol, hv1, hndp, hpol⟩ :=
        collectF_vext c f fuel p v s out _ hr1
      try dsimp only at hv1
      subst hv1
      refine ih _ _ _
        (fun p2 hp2 => hps p2 (List.mem_cons_of_mem _ hp2)) ?_ ?_ ?_
      · exact List.Nodup.append hndp hnd
          (fun x hx1 hx2 => (hpol x hx1).1 hx2)
      · intro x hx
        rcases List.mem_append.mp hx with hx | hx
        · exact (hpol x hx).2
        · exact hres x hx
      · rw [List.length_append]
        omega

/-- Totality of the inner step, given totality of single calls. -/
theorem collectInnerStep_total (c : Crate) (f : Forest) (fuel : Nat)
    (hrec : ∀ (id : Id) (v : List Id) (s : List String)
      (out : List (List String)),
      (c.get id).isSome = true →
      (∀ it d, c.get id = some it → it.inner = ItemEnum.importItem d →
        d.glob = false → s ≠ []) →
      (∀ it td, c.get id = some it → it.inner = ItemEnum.typedef td →
        it.name?.isSome = true) →
      v.Nodup → (∀ x ∈ v, (c.get x).isSome = true) →
      c.index.length < fuel + v.length →
      (collectF fuel c f id v s out).isSome = true) :
    ∀ (id : Id) (v : List Id) (s : List String)
      (out : List (List String)),
    (∀ ps, f.lookup id = some ps →
      ∀ p ∈ ps, ∃ pit, c.get p = some pit ∧
        (∀ d, pit.inner = ItemEnum.importItem d → d.glob = false →
          s ≠ []) ∧
        (∀ td, pit.inner = ItemEnum.typedef td →
          pit.name?.isSome = true)) →
    v.Nodup → (∀ x ∈ v, (c.get x).isSome = true) →
    c.index.length < fuel + v.length →
    (collectInnerStep c f (collectF fuel c f) id v s out).isSome =
      true := by
  intro id v s out hps hnd hres hm
  rw [collectInnerStep]
  by_cases hr : id = c.root
  · rw [if_pos hr]; rfl
  · rw [if_neg hr]
    cases hlk : f.lookup id with
    | none => rfl
    | some ps =>
      exact collectStepList_total c f fuel hrec ps v s out
        (hps ps hlk) hnd hres hm

/-- Totality of the path-enumeration recursion on a safe forest: no
panic can occur when the call conditions hold. -/
theorem collectF_total (c : Crate) (f : Forest)
    (hfok : forestOkB c f = true) :
    ∀ (fuel : Nat) (id : Id) (v : List Id) (s : List String)
      (out : List (List String)),
    (c.get id).isSome = true →
    (∀ it d, c.get id = some it → it.inner = ItemEnum.importItem d →
      d.glob = false → s ≠ []) →
    (∀ it td, c.get id = some it → it.inner = ItemEnum.typedef td →
      it.name?.isSome = true) →
    v.Nodup → (∀ x ∈ v, (c.get x).isSome = true) →
    c.index.length < fuel + v.length →
    (collectF fuel c f id v s out).isSome = true := by
  intro fuel
  induction fuel with
  | zero =>
    intro id v s out hid himp htd hnd hres hm
    exfalso
    have hle : v.length ≤ c.index.length :=
      nodup_ids_length_le c v hnd
        (fun i hi => Option.isSome_iff_exists.mp (hres i hi))
    omega
  | succ fuel ih =>
    intro id v s out hid himp htd hnd hres hm
    rw [collectF, collectStep]
    by_cases hv : id ∈ v
    · rw [if_pos hv]; rfl
    · rw [if_neg hv]
      obtain ⟨item, hget⟩ := Option.isSome_iff_exists.mp hid
      rw [hget]
      dsimp only
      by_cases hpr : s ≠ [] ∧ prunedKind item
      · rw [if_pos hpr]; rfl
      · rw [if_neg hpr]
        have hsat : (stackAction item s).isSome = true :=
          stackAction_total item s
            (fun d hd hg => himp item d hget hd hg)
            (fun td htd2 => htd item td hget htd2)
        cases hsa : stackAction item s with
        | none => rw [hsa] at hsat; simp at hsat
        | some act =>
          obtain ⟨pushed?, popped?, sp⟩ := act
          dsimp only
          have hvcond : (id :: v).Nodup ∧
              (∀ x ∈ id :: v, (c.get x).isSome = true) ∧
              c.index.length < fuel + (id :: v).length := by
            refine ⟨List.nodup_cons.mpr ⟨hv, hnd⟩, ?_, ?_⟩
            · intro x hx
              rcases List.mem_cons.mp hx with hx | hx
              · subst hx; rw [hget]; rfl
              · exact hres x hx
            · rw [List.length_cons]; omega
          cases pushed? with
          | some n =>
            have hinner : (collectInnerStep c f (collectF fuel c f) id
                (id :: v) (n :: sp) out).isSome = true := by
              refine collectInnerStep_total c f fuel ih id (id :: v)
                (n :: sp) out ?_ hvcond.1 hvcond.2.1 hvcond.2.2
              intro ps hlk p hp
              have hmem := lookup_mem f id ps hlk
              obtain ⟨kit, hkit, hall⟩ := forestOkB_edge c f hfok id ps hmem
              obtain ⟨pit, hpit, _, hptd⟩ :=
                parentOkB_spec c _ p (hall p hp)
              refine ⟨pit, hpit, ?_, hptd⟩
              intro d hd hg hcontra
              cases hcontra
            cases hin : collectInnerStep c f (collectF fuel c f) id
                (id :: v) (n :: sp) out with
            | none => rw [hin] at hinner; simp at hinner
            | some r2 =>
              obtain ⟨v2, s2, o2⟩ := r2
              dsimp only
              obtain ⟨hs2, pol, hv2, _⟩ := collectInnerStep_restores c f _
                (fun id2 v2a s2a out2 r h =>
                  collect_restores c f fuel id2 v2a s2a out2 r h)
                id (id :: v) (n :: sp) out _ hin
              dsimp only at hs2 hv2
              subst hs2
              dsimp only
              rw [if_pos rfl]
              dsimp only
              have hidv2 : id ∈ v2 := by
                rw [hv2]
                exact List.mem_append.mpr (Or.inr (List.mem_cons_self _ _))
              rw [if_pos hidv2]
              rfl
          | none =>
            have hinner : (collectInnerStep c f (collectF fuel c f) id
                (id :: v) sp out).isSome = true := by
              refine collectInnerStep_total c f fuel ih id (id :: v)
                sp out ?_ hvcond.1 hvcond.2.1 hvcond.2.2
              intro ps hlk p hp
              have hmem := lookup_mem f id ps hlk
              obtain ⟨kit, hkit, hall⟩ := forestOkB_edge c f hfok id ps hmem
              rw [hget] at hkit
              injection hkit with hkit
              subst hkit
              obtain ⟨pit, hpit, hpimp, hptd⟩ :=
                parentOkB_spec c _ p (hall p hp)
              refine ⟨pit, hpit, ?_, hptd⟩
              intro d hd hg
              have hpush := hpimp d hd hg
              obtain ⟨n, hn⟩ :=
                pushesName_pushed item s none popped? sp hsa hpush
              cases hn
            cases hin : collectInnerStep c f (collectF fuel c f) id
                (id :: v) sp out with
            | none => rw [hin] at hinner; simp at hinner
            | some r2 =>
              obtain ⟨v2, s2, o2⟩ := r2
              dsimp only
              obtain ⟨hs2, pol, hv2, _⟩ := collectInnerStep_restores c f _
                (fun id2 v2a s2a out2 r h =>
                  collect_restores c f fuel id2 v2a s2a out2 r h)
                id (id :: v) sp out _ hin
              dsimp only at hs2 hv2
              subst hs2
              try dsimp only
              have hidv2 : id ∈ v2 := by
                rw [hv2]
                exact List.mem_append.mpr (Or.inr (List.mem_cons_self _ _))
              rw [if_pos hidv2]
              rfl

/-- Path enumeration is total at ids whose items pass the kind filter of
the imports-index loop (such items are never imports or typedefs). -/
theorem publiclyImportableNames_total (c : Crate) (f : Forest)
    (hfok : forestOkB c f = true) (id : Id)
    (hkind : ∀ it, c.get id = some it → importsIndexedKind it = true) :
    (publiclyImportableNames c f id).isSome = true := by
  rw [publiclyImportableNames]
  by_cases hg : (c.get id).isSome = true
  · rw [if_pos hg]
    have htot := collectF_total c f hfok (c.index.length + 1) id [] [] []
      hg ?_ ?_ List.nodup_nil (fun x hx => absurd hx (List.not_mem_nil x))
      (by simp)
    · cases hr : collectF (c.index.length + 1) c f id [] [] [] with
      | none => rw [hr] at htot; simp at htot
      | some r => rfl
    · intro it d hit hd _
      have := hkind it hit
      rw [importsIndexedKind, hd] at this
      cases this
    · intro it td hit htd
      have := hkind it hit
      rw [importsIndexedKind, htd] at this
      cases this
  · rw [if_neg hg]
    rfl

/-- The imports-index loop is total on a coherent, duplicate-free index
over a safe forest. -/
theorem buildImportsIndex_total (c : Crate) (f : Forest)
    (hco : Coherent c) (hnd : (c.index.map Prod.fst).Nodup)
    (hfok : forestOkB c f = true) :
    (buildImportsIndex c f).isSome = true := by
  rw [buildImportsIndex]
  have hfold : ∀ (l : List (Id × Item)), (∀ kv ∈ l, kv ∈ c.index) →
      ∀ acc, ((l.foldl (importsStep c f) (some acc))).isSome = true := by
    intro l
    induction l with
    | nil => intro _ acc; rfl
    | cons kv rest ih =>
      intro hsub acc
      rw [List.foldl_cons, importsStep]
      by_cases hkind : importsIndexedKind kv.2 = true
      · rw [if_pos hkind]
        have hkv : kv ∈ c.index := hsub kv (List.mem_cons_self _ _)
        have hret : c.get kv.2.id = some kv.2 := by
          rw [hco kv hkv]
          exact lookup_of_mem_nodup c.index hnd kv hkv
        have hpn := publiclyImportableNames_total c f hfok kv.2.id
          (fun it hit => by
            rw [hret] at hit
            injection hit with hit
            subst hit
            exact hkind)
        cases hp : publiclyImportableNames c f kv.2.id with
        | none => rw [hp] at hpn; simp at hpn
        | some paths =>
          dsimp only
          exact ih (fun kv2 h2 => hsub kv2 (List.mem_cons_of_mem _ h2)) _
      · rw [if_neg hkind]
        exact ih (fun kv2 h2 => hsub kv2 (List.mem_cons_of_mem _ h2)) acc
  exact hfold c.index (fun kv h => h) []

/-- Unpacking of the impls-list check. -/
theorem implsOkB_spec (c : Crate) (h : implsOkB c = true) :
    ∀ kv ∈ c.index, ∀ impls, implsOf kv.2 = some impls →
    ∀ it ∈ impls.filterMap c.get, ∃ d, it.inner = ItemEnum.implBlock d := by
  intro kv hkv impls himpl it hit
  rw [implsOkB, List.all_eq_true] at h
  have h2 := h kv hkv
  rw [himpl] at h2
  try dsimp only at h2
  rw [List.all_eq_true] at h2
  have h3 := h2 it hit
  try dsimp only at h3
  cases hi : it.inner <;> rw [hi] at h3 <;> try dsimp only at h3
  · cases h3
  · cases h3
  · cases h3
  · cases h3
  · cases h3
  · cases h3
  · exact ⟨_, rfl⟩
  · cases h3
  · cases h3
  · cases h3
  · cases h3
  · cases h3

/-- The impl-index loop is total when every resolvable `impls` entry is
an impl block. -/
theorem buildImplIndex_total (c : Crate) (himpls : implsOkB c = true) :
    (buildImplIndex c).isSome = true := by
  rw [buildImplIndex]
  have hinner : ∀ (ownerId : Id) (items : List Item),
      (∀ it ∈ items, ∃ d, it.inner = ItemEnum.implBlock d) →
      ∀ acc, ((items.foldl (implOwnerStep c ownerId) (some acc))).isSome =
        true := by
    intro ownerId items
    induction items with
    | nil => intro _ acc; rfl
    | cons it rest ih =>
      intro hall acc
      rw [List.foldl_cons, implOwnerStep]
      obtain ⟨d, hd⟩ := hall it (List.mem_cons_self _ _)
      rw [hd]
      dsimp only
      exact ih (fun it2 h2 => hall it2 (List.mem_cons_of_mem _ h2)) _
  have hfold : ∀ (l : List (Id × Item)), (∀ kv ∈ l, kv ∈ c.index) →
      ∀ acc, ((l.foldl (implIndexStep c) (some acc))).isSome = true := by
    intro l
    induction l with
    | nil => intro _ acc; rfl
    | cons kv rest ih =>
      intro hsub acc
      rw [List.foldl_cons, implIndexStep]
      cases himpl : implsOf kv.2 with
      | none =>
        dsimp only
        exact ih (fun kv2 h2 => hsub kv2 (List.mem_cons_of_mem _ h2)) acc
      | some impls =>
        dsimp only
        have hi := hinner kv.1 (impls.filterMap c.get)
          (implsOkB_spec c himpls kv (hsub kv (List.mem_cons_self _ _))
            impls himpl) acc
        cases hrun : (impls.filterMap c.get).foldl
            (implOwnerStep c kv.1) (some acc) with
        | none => rw [hrun] at hi; simp at hi
        | some acc2 =>
          exact ih (fun kv2 h2 => hsub kv2 (List.mem_cons_of_mem _ h2))
            acc2
  exact hfold c.index (fun kv h => h) []

/-- Totality of `IndexedCrate::new` on well-formed snapshots. -/
theorem IndexedCrateNew_total (c : Crate) (h : wfCrate c = true) :
    (IndexedCrateNew c).isSome = true := by
  obtain ⟨hco, hnd, himp, f, hbf, hfok⟩ := wfCrate_spec c h
  rw [IndexedCrateNew, hbf]
  dsimp only
  have hii := buildImportsIndex_total c f hco hnd hfok
  cases hiic : buildImportsIndex c f with
  | none => rw [hiic] at hii; simp at hii
  | some ii =>
    dsimp only
    have him := buildImplIndex_total c himp
    cases himc : buildImplIndex c with
    | none => rw [himc] at him; simp at him
    | some impli => rfl

/-- Claim C7 (amended): construction does not succeed on every snapshot,
but (1) it succeeds on every well-formed one — coherent ids, distinct
index keys, impls lists whose resolvable entries are all impl blocks,
and a successfully built, enumerator-safe visibility forest — and
expected absence is silently treated as "not present": (2) path
enumeration of an id missing from the index returns the empty set, (3) a
missing root yields an empty parents map, and (4) an import without a
resolved target contributes no children. -/
theorem c7_amended (c : Crate) :
    (wfCrate c = true → (IndexedCrateNew c).isSome = true) ∧
    (∀ (f : Forest) (id : Id), c.get id = none →
      publiclyImportableNames c f id = some []) ∧
    (c.get c.root = none → computeParentIdsForPublicItems c = some []) ∧
    (∀ (item : Item) (imp : ImportData) (p? : Option Id),
      item.inner = ItemEnum.importItem imp → imp.target = none →
      visitChildren c item p? = some []) := by
  refine ⟨IndexedCrateNew_total c, ?_, ?_, ?_⟩
  · intro f id hid
    rw [publiclyImportableNames, hid]
    rfl
  · intro hroot
    rw [computeParentIdsForPublicItems, hroot]
  · intro item imp p? hi htgt
    rw [visitChildren, hi]
    dsimp only
    rw [htgt]
    rfl

/-- Concrete check of the C7 theorem: `exGlob` passes the
well-formedness check and its construction succeeds; a missing id, a
missing root, and a target-less import are silently empty. -/
theorem c7_witness :
    (IndexedCrateNew exGlob).isSome = true ∧
    publiclyImportableNames exGlob [] 99 = some [] ∧
    computeParentIdsForPublicItems exBuiltin = some [] ∧
    visitChildren exSimple
      { id := 7, name? := some "u", crateId := 0,
        visibility := .publicVis,
        inner := .importItem { name := "u", target := none,
                               glob := false } }
      none = some [] :=
  ⟨(c7_amended exGlob).1 rfl,
   (c7_amended exGlob).2.1 [] 99 rfl,
   (c7_amended exBuiltin).2.2.1 rfl,
   (c7_amended exSimple).2.2.2
     { id := 7, name? := some "u", crateId := 0,
       visibility := .publicVis,
       inner := .importItem { name := "u", target := none,
                              glob := false } }
     { name := "u", target := none, glob := false } none rfl rfl⟩

end RustdocAdapter
